import Mathlib

/-!
# minispdlog: asynchronous delivery pipeline

A shallow embedding of the ring buffer (`details/circular_q.h`), the blocking
queue (`details/mpmc_blocking_q.h`), the envelope (`details/async_msg.h`), the
worker pool (`details/thread_pool.cpp`), the asynchronous logger
(`async_logger.cpp`), the rotating file sink (`sinks/rotating_file_sink.cpp`),
the registry (`registry.cpp`) and the pattern formatter
(`pattern_formatter.cpp`), followed by the properties proved about them.

Conventions of the embedding:

* `size_t` values are natural numbers.  Every index of the ring buffer is
  reduced modulo `max_items_` exactly as in the source; the constructor's
  `max_items + 1` and the increments of `overrun_counter_` are taken without
  wrap-around (capacities below `SIZE_MAX`, fewer than `2^64` overruns).
* A method that throws returns `Except.error`; a method that waits on a
  condition variable is a step that is enabled only in the states in which its
  wait predicate holds, and returns `none` in the other states.
* Every method of the blocking queue runs under the queue mutex and is one
  atomic step on the ring buffer; that the mutex makes it so is shown in the
  section on threads (`mq_system`), where a method is the sequence of its lock,
  wait and ring-buffer steps and threads interleave step by step.
* A C++ object that is moved from is left in the state given by
  `Movable.moved_from`.  A slot or variable that an item is moved into holds the
  value of that item; where the character storage of an envelope lives after a
  move is followed in the envelope's own move operations
  (`async_msg.move_ctor`, `async_msg.move_assign`), with the new address
  arbitrary.
* A `shared_ptr<async_logger>` is `none` (null) or `some` of the identity of a
  logger; the logger objects themselves are looked up by identity.
* The `weak_ptr<thread_pool>` of an async logger is followed through what
  `lock()` returns (`weak_ptr_lock`): the pool while a strong handle to it
  exists, null from the start of `~thread_pool()` on.
* An exception that leaves `worker_loop_` leaves the thread function, which
  ends the process (`std::terminate`): a run of a pool has no state after it.
* A file is the sequence of the bytes written to it; of the file a stream is
  open on, the last bytes may still be in the buffer of the stream, and their
  number is followed apart (`stream_sink`).
-/

set_option autoImplicit false

namespace minispdlog
namespace details

/-! ## Moved-from states -/

/-- The state in which `std::move` leaves its source, for each item type a
queue is instantiated with.  Default construction is `default`. -/
class Movable (T : Type) extends Inhabited T where
  /-- What remains in the source object after it has been moved from. -/
  moved_from : T → T

instance : Movable Nat where
  default := 0
  moved_from := fun n => n

/-! ## `circular_q` -/

/-- The class `circular_q<T>`: `max_items_` slots `v_`, the indices `head_` and
`tail_`, and the count of overwritten items. -/
structure circular_q (T : Type) where
  max_items_ : Nat
  v_ : List T
  head_ : Nat
  tail_ : Nat
  overrun_counter_ : Nat
  deriving DecidableEq, Repr

namespace circular_q

variable {T : Type}

/-- The constructor `circular_q(size_t max_items)`: one slot more than the
capacity, every slot default-constructed. -/
def ctor [Inhabited T] (max_items : Nat) : circular_q T :=
  { max_items_ := max_items + 1
    v_ := List.replicate (max_items + 1) default
    head_ := 0
    tail_ := 0
    overrun_counter_ := 0 }

/-- The method `push_back(T&& item)`. -/
def push_back (q : circular_q T) (item : T) : circular_q T :=
  let v := q.v_.set q.tail_ item
  let tail := (q.tail_ + 1) % q.max_items_
  if tail = q.head_ then
    { q with
      v_ := v
      tail_ := tail
      head_ := (q.head_ + 1) % q.max_items_
      overrun_counter_ := q.overrun_counter_ + 1 }
  else
    { q with v_ := v, tail_ := tail }

/-- The method `front()`: the slot at `head_`. -/
def front [Inhabited T] (q : circular_q T) : T :=
  q.v_.getD q.head_ default

/-- The method `pop_front()`. -/
def pop_front (q : circular_q T) : circular_q T :=
  { q with head_ := (q.head_ + 1) % q.max_items_ }

/-- The method `empty()`. -/
def empty (q : circular_q T) : Bool :=
  decide (q.head_ = q.tail_)

/-- The method `full()`. -/
def full (q : circular_q T) : Bool :=
  decide ((q.tail_ + 1) % q.max_items_ = q.head_)

/-- The method `size()`. -/
def size (q : circular_q T) : Nat :=
  if q.tail_ ≥ q.head_ then q.tail_ - q.head_
  else q.max_items_ - (q.head_ - q.tail_)

/-- The method `capacity()`. -/
def capacity (q : circular_q T) : Nat :=
  q.max_items_ - 1

/-- The method `overrun_counter()`. -/
def overrun_counter (q : circular_q T) : Nat :=
  q.overrun_counter_

/-- A run of `push_back` calls, one per item, in list order. -/
def push_all (q : circular_q T) (items : List T) : circular_q T :=
  items.foldl push_back q

/-- The representation invariant of the class: both indices address a slot
and every slot exists. -/
structure WF (q : circular_q T) : Prop where
  head_lt : q.head_ < q.max_items_
  tail_lt : q.tail_ < q.max_items_
  len_eq : q.v_.length = q.max_items_

/-- The items obtained from `front()` by successive `pop_front()` calls, until
`empty()` holds or the fuel is used up. -/
def drain [Inhabited T] : Nat → circular_q T → List T
  | 0, _ => []
  | n + 1, q => if q.empty then [] else q.front :: drain n q.pop_front

/-- Everything that can be dequeued from `q`: `drain` with one unit of fuel
per slot. -/
def contents [Inhabited T] (q : circular_q T) : List T :=
  drain q.max_items_ q

end circular_q

/-- One call on a ring buffer: `push_back(x)` or `pop_front()`. -/
inductive q_op (T : Type) where
  | push (x : T)
  | pop
  deriving DecidableEq, Repr

namespace circular_q

variable {T : Type}

/-- A sequence of calls obeys the precondition of `pop_front` (and of the
`front()` read before it): the buffer is not empty at each pop. -/
def ops_ok : circular_q T → List (q_op T) → Bool
  | _, [] => true
  | q, q_op.push x :: rest => ops_ok (q.push_back x) rest
  | q, q_op.pop :: rest => !q.empty && ops_ok q.pop_front rest

/-- Runs a sequence of calls; returns the values read from `front()` right
before each `pop_front()`, in call order, and the final buffer. -/
def run_ops [Inhabited T] : circular_q T → List (q_op T) → List T × circular_q T
  | q, [] => ([], q)
  | q, q_op.push x :: rest => run_ops (q.push_back x) rest
  | q, q_op.pop :: rest =>
    let r := run_ops q.pop_front rest
    (q.front :: r.1, r.2)

/-- The items pushed by a sequence of calls, in push order. -/
def pushed : List (q_op T) → List T
  | [] => []
  | q_op.push x :: rest => x :: pushed rest
  | q_op.pop :: rest => pushed rest

/-- The bounded FIFO list the ring buffer is specified by: a push appends at
the back; a push onto a full list (length `C`) first discards the oldest
item. -/
def fifo_push (C : Nat) (l : List T) (x : T) : List T :=
  if l.length = C then l.tail ++ [x] else l ++ [x]

/-- Runs a sequence of calls on the bounded FIFO list: a pop removes and
returns the oldest item.  Returns the popped items and the final list. -/
def fifo_run (C : Nat) : List T → List (q_op T) → List T × List T
  | l, [] => ([], l)
  | l, q_op.push x :: rest => fifo_run C (fifo_push C l x) rest
  | l, q_op.pop :: rest =>
    let r := fifo_run C l.tail rest
    (l.head?.toList ++ r.1, r.2)

/-- The abstraction relation between a ring buffer and the list of its live
items, oldest first: slot `(head_ + i) % max_items_` holds item `i`. -/
def Rep (q : circular_q T) (l : List T) : Prop :=
  l.length = q.size ∧
    ∀ i, i < q.size → q.v_[(q.head_ + i) % q.max_items_]? = l[i]?

/-- The call sequence of `test_circular_queue` (tests/test_thread_pool.cpp) on
a buffer of capacity 5: push 1, 2, 3; pop; push 4, 5, 6; push 7 onto the full
buffer. -/
def test_circular_queue_ops : List (q_op Nat) :=
  [q_op.push 1, q_op.push 2, q_op.push 3, q_op.pop,
   q_op.push 4, q_op.push 5, q_op.push 6, q_op.push 7]

end circular_q

/-! ## `mpmc_blocking_queue` -/

/-- The class `mpmc_blocking_queue<T>`.  Every method body runs under
`mutex_`, so a method is one atomic step on the ring buffer `q_`; the mutex
and the two condition variables carry no data. -/
structure mpmc_blocking_queue (T : Type) where
  q_ : circular_q T
  deriving DecidableEq, Repr

/-- A call on the ring buffer made by a queue method. -/
inductive rb_call where
  | front
  | pop_front
  deriving DecidableEq, Repr

/-- What `dequeue_for` returns and leaves behind: the returned flag, the queue
afterwards, the output argument afterwards, and the `front()` and `pop_front()`
calls it made, each with the ring buffer it was made on. -/
structure dequeue_result (T : Type) where
  ret : Bool
  q : mpmc_blocking_queue T
  popped_item : T
  calls : List (rb_call × circular_q T)

/-- One completed call on a blocking queue. -/
inductive mq_op (T : Type) where
  | enqueue (item : T)
  | enqueue_nowait (item : T)
  | dequeue_for
  deriving DecidableEq, Repr

namespace mpmc_blocking_queue

variable {T : Type}

/-- The constructor `mpmc_blocking_queue(size_t max_items)`. -/
def ctor [Inhabited T] (max_items : Nat) : mpmc_blocking_queue T :=
  { q_ := circular_q.ctor max_items }

/-- The method `enqueue(T&& item)`: waits on `pop_cv_` until `!q_.full()`,
then pushes.  `none` while the wait predicate is false. -/
def enqueue (q : mpmc_blocking_queue T) (item : T) : Option (mpmc_blocking_queue T) :=
  if q.q_.full then none else some { q_ := q.q_.push_back item }

/-- The method `enqueue_nowait(T&& item)`: pushes at once. -/
def enqueue_nowait (q : mpmc_blocking_queue T) (item : T) : mpmc_blocking_queue T :=
  { q_ := q.q_.push_back item }

/-- The method `dequeue_for(T& popped_item, wait_duration)`, as a function of
the queue at the moment `wait_for` returns: with `q_.empty()` still true the
wait has timed out and the method returns false; otherwise the front slot is
moved into `popped_item` (leaving the slot moved-from) and popped. -/
def dequeue_for [Movable T] (q : mpmc_blocking_queue T) (popped_item : T) :
    dequeue_result T :=
  if q.q_.empty then
    { ret := false, q := q, popped_item := popped_item, calls := [] }
  else
    let item := q.q_.front
    let q1 : circular_q T :=
      { q.q_ with v_ := q.q_.v_.set q.q_.head_ (Movable.moved_from item) }
    { ret := true
      q := { q_ := q1.pop_front }
      popped_item := item
      calls := [(rb_call.front, q.q_), (rb_call.pop_front, q1)] }

/-- The method `overrun_counter()`. -/
def overrun_counter (q : mpmc_blocking_queue T) : Nat :=
  q.q_.overrun_counter

/-- The method `size()`. -/
def size (q : mpmc_blocking_queue T) : Nat :=
  q.q_.size

/-- One completed call; `none` when the call cannot complete in this state.
The worker passes a default-constructed destination to `dequeue_for`. -/
def step [Movable T] (q : mpmc_blocking_queue T) : mq_op T → Option (mpmc_blocking_queue T)
  | mq_op.enqueue item => q.enqueue item
  | mq_op.enqueue_nowait item => some (q.enqueue_nowait item)
  | mq_op.dequeue_for => some (q.dequeue_for default).q

/-- A sequence of completed calls, in order. -/
def run [Movable T] : mpmc_blocking_queue T → List (mq_op T) → Option (mpmc_blocking_queue T)
  | q, [] => some q
  | q, op :: rest => (q.step op).bind (fun q1 => run q1 rest)

end mpmc_blocking_queue

/-- A run of completed calls on a queue of capacity 2 that ends with the queue
full: two blocking enqueues, then an overwriting enqueue. -/
def sample_queue_ops : List (mq_op Nat) :=
  [mq_op.enqueue 1, mq_op.enqueue 2, mq_op.enqueue_nowait 3]

/-- The queue reached by `sample_queue_ops` from a fresh queue of capacity 2:
items 2 and 3 are queued, item 1 has been overwritten. -/
def sample_queue : mpmc_blocking_queue Nat :=
  { q_ := { max_items_ := 3, v_ := [1, 2, 3], head_ := 1, tail_ := 0, overrun_counter_ := 1 } }

end details

/-! ## Levels and errors -/

/-- The enumeration `level` (level.h), with its numeric values. -/
inductive level where
  | trace
  | debug
  | info
  | warn
  | error
  | critical
  | off
  deriving DecidableEq, Repr

/-- The numeric value of a `level` enumerator. -/
def level.to_nat : level → Nat
  | level.trace => 0
  | level.debug => 1
  | level.info => 2
  | level.warn => 3
  | level.error => 4
  | level.critical => 5
  | level.off => 6

/-- The comparison `a >= b` on `level` values. -/
def level.ge (a b : level) : Bool :=
  decide (b.to_nat ≤ a.to_nat)

/-- The C++ exceptions the library throws, with their messages. -/
inductive exception where
  | invalid_argument (what : String)
  | runtime_error (what : String)
  deriving DecidableEq, Repr

/-- The overflow policy `async_overflow_policy` (async_logger.h). -/
inductive async_overflow_policy where
  | block
  | overrun_oldest
  deriving DecidableEq, Repr

namespace details

/-! ## Records and envelopes -/

/-- A `std::string_view`: a pointer and a length, no ownership.  The null
view is `(0, 0)`. -/
structure string_view_t where
  data_ : Nat
  size_ : Nat
  deriving DecidableEq, Repr

/-- A `std::string`: the address `data()` of its character storage and the
characters it owns. -/
structure std_string where
  data_ : Nat
  chars : List Char
  deriving DecidableEq, Repr

/-- Memory as seen through a view: the character at each address. -/
abbrev memory := Nat → Char

/-- The characters a view denotes in a memory. -/
def memory.read (mem : memory) (v : string_view_t) : List Char :=
  (List.range v.size_).map (fun i => mem (v.data_ + i))

/-- The view `string_view_t(s.data(), s.size())` of a string. -/
def std_string.view (s : std_string) : string_view_t :=
  { data_ := s.data_, size_ := s.chars.length }

/-- The move of a `std::string` into a string whose storage is at `addr`
afterwards (the stolen heap block, or the destination's own storage for a
short string): the characters travel with it. -/
def std_string.move_to (addr : Nat) (s : std_string) : std_string :=
  { data_ := addr, chars := s.chars }

/-- A moved-from `std::string`: valid, holding no characters. -/
def std_string.moved_from (s : std_string) : std_string :=
  { data_ := s.data_, chars := [] }

/-- The struct `source_loc` (log_msg.h); the two `const char*` are addresses. -/
structure source_loc where
  filename : Nat
  line : Int
  funcname : Nat
  deriving DecidableEq, Repr

/-- The struct `log_msg` (log_msg.h). -/
structure log_msg where
  logger_name : string_view_t
  lvl : level
  time : Nat
  thread_id : Nat
  source : source_loc
  payload : string_view_t
  color_range_start : Nat
  color_range_end : Nat
  deriving DecidableEq, Repr

/-- The default constructor `log_msg()`: the member initialisers. -/
def log_msg.default_ctor : log_msg :=
  { logger_name := { data_ := 0, size_ := 0 }
    lvl := level.off
    time := 0
    thread_id := 0
    source := { filename := 0, line := 0, funcname := 0 }
    payload := { data_ := 0, size_ := 0 }
    color_range_start := 0
    color_range_end := 0 }

/-- The enumeration `async_msg_type`. -/
inductive async_msg_type where
  | log
  | flush
  | terminate
  deriving DecidableEq, Repr

/-- The struct `log_msg_buffer`: a `log_msg` and the string `buffer`. -/
structure log_msg_buffer extends log_msg where
  buffer : std_string
  deriving DecidableEq, Repr

namespace log_msg_buffer

/-- The default constructor `log_msg_buffer()`; the empty buffer lives at
`addr`. -/
def default_ctor (addr : Nat) : log_msg_buffer :=
  { log_msg.default_ctor with buffer := { data_ := addr, chars := [] } }

/-- The constructor `log_msg_buffer(const log_msg& msg)`: copies the record,
copies the payload characters into `buffer` (allocated at `addr`), then points
`payload` at `buffer`. -/
def of_log_msg (mem : memory) (addr : Nat) (msg : log_msg) : log_msg_buffer :=
  let buffer : std_string := { data_ := addr, chars := mem.read msg.payload }
  { msg with payload := buffer.view, buffer := buffer }

/-- The move constructor `log_msg_buffer(log_msg_buffer&& other)`: the new
object, whose buffer storage is at `addr`. -/
def move_ctor (addr : Nat) (other : log_msg_buffer) : log_msg_buffer :=
  let buffer : std_string := other.buffer.move_to addr
  { other.tolog_msg with payload := buffer.view, buffer := buffer }

/-- The move assignment `operator=(log_msg_buffer&& other)` into the distinct
object `self`: the value of `self` afterwards, its buffer storage at `addr`.
(With `this == &other` the operator changes nothing.) -/
def move_assign (_self : log_msg_buffer) (addr : Nat) (other : log_msg_buffer) :
    log_msg_buffer :=
  let buffer : std_string := other.buffer.move_to addr
  { other.tolog_msg with payload := buffer.view, buffer := buffer }

/-- What a move leaves in `other`: the record part is only copied from, the
buffer is moved from. -/
def moved_from (other : log_msg_buffer) : log_msg_buffer :=
  { other with buffer := other.buffer.moved_from }

end log_msg_buffer

/-- A `std::shared_ptr<async_logger>`: null, or a strong handle to the logger
with the given identity. -/
abbrev async_logger_ptr := Option Nat

/-- The struct `async_msg`: the envelope. -/
structure async_msg extends log_msg_buffer where
  msg_type : async_msg_type
  worker_ptr : async_logger_ptr
  deriving DecidableEq, Repr

namespace async_msg

/-- The default constructor `async_msg()`: type `log`, null handle. -/
def default_ctor (addr : Nat) : async_msg :=
  { log_msg_buffer.default_ctor addr with msg_type := async_msg_type.log, worker_ptr := none }

/-- The constructor `async_msg(type, worker, msg)`. -/
def of_log_msg (type : async_msg_type) (worker : async_logger_ptr) (mem : memory)
    (addr : Nat) (msg : log_msg) : async_msg :=
  { log_msg_buffer.of_log_msg mem addr msg with msg_type := type, worker_ptr := worker }

/-- The constructor `async_msg(the_type, worker)`. -/
def of_type_worker (the_type : async_msg_type) (worker : async_logger_ptr) (addr : Nat) :
    async_msg :=
  { log_msg_buffer.default_ctor addr with msg_type := the_type, worker_ptr := worker }

/-- The constructor `async_msg(the_type)`: delegates with a null handle. -/
def of_type (the_type : async_msg_type) (addr : Nat) : async_msg :=
  of_type_worker the_type none addr

/-- The move constructor `async_msg(async_msg&& other)`: the new object. -/
def move_ctor (addr : Nat) (other : async_msg) : async_msg :=
  { log_msg_buffer.move_ctor addr other.tolog_msg_buffer with
    msg_type := other.msg_type
    worker_ptr := other.worker_ptr }

/-- The move assignment `operator=(async_msg&& other)` into the distinct object
`self`: the value of `self` afterwards. -/
def move_assign (self : async_msg) (addr : Nat) (other : async_msg) : async_msg :=
  { log_msg_buffer.move_assign self.tolog_msg_buffer addr other.tolog_msg_buffer with
    msg_type := other.msg_type
    worker_ptr := other.worker_ptr }

/-- What a move leaves in `other`: its buffer moved from and its handle null. -/
def moved_from (other : async_msg) : async_msg :=
  { log_msg_buffer.moved_from other.tolog_msg_buffer with
    msg_type := other.msg_type
    worker_ptr := none }

end async_msg

instance : Movable async_msg where
  default := async_msg.default_ctor 0
  moved_from := async_msg.moved_from

/-- One move of an envelope: into a newly constructed envelope, or by
assignment into an existing one; `addr` is where the destination's buffer
storage is afterwards. -/
inductive move_step where
  | construct (addr : Nat)
  | assign (dst : async_msg) (addr : Nat)

/-- The destination of a move of `e`. -/
def move_step.apply (e : async_msg) : move_step → async_msg
  | move_step.construct addr => async_msg.move_ctor addr e
  | move_step.assign dst addr => async_msg.move_assign dst addr e

/-- The envelope after a chain of moves, each from the destination of the
previous one. -/
def apply_moves (e : async_msg) (steps : List move_step) : async_msg :=
  steps.foldl move_step.apply e

/-! ## `thread_pool` -/

/-- The class `thread_pool`: the queue `q_` and the worker threads `threads_`,
each thread named by its index of creation. -/
structure thread_pool where
  q_ : mpmc_blocking_queue async_msg
  threads_ : List Nat
  deriving DecidableEq, Repr

/-- What a call of the `thread_pool` constructor does: the worker threads it
started, in order, and the pool it built or the exception it threw. -/
structure ctor_outcome where
  started : List Nat
  result : Except exception thread_pool

namespace thread_pool

/-- The loop `for (i = 0; i < threads_n; ++i) threads_.emplace_back(...)`. -/
def emplace_workers (threads_n : Nat) : List Nat :=
  (List.range threads_n).foldl (fun threads i => threads ++ [i]) []

/-- The constructor `thread_pool(size_t queue_size, size_t threads_n)`: `q_` is
built first, then the range check, then the workers are started. -/
def ctor (queue_size threads_n : Nat) : ctor_outcome :=
  let q : mpmc_blocking_queue async_msg := mpmc_blocking_queue.ctor queue_size
  if threads_n = 0 ∨ threads_n > 1000 then
    { started := []
      result := Except.error
        (exception.invalid_argument "thread_pool: threads_n must be 1-1000") }
  else
    let threads := emplace_workers threads_n
    { started := threads, result := Except.ok { q_ := q, threads_ := threads } }

end thread_pool

end details

/-! ## Sinks and the backend of `async_logger` -/

namespace sinks

/-- A sink as a logger sees it (the interface `sink` with the `should_log` of
`base_sink`): its identity, its level, and whether a call of `log` or `flush`
on it throws. -/
structure sink where
  id : Nat
  level_ : level
  log_raises : details.log_msg → Option exception
  flush_raises : Option exception

/-- The method `base_sink::should_log`: `msg_level >= level_`. -/
def sink.should_log (s : sink) (msg_level : level) : Bool :=
  msg_level.ge s.level_

end sinks

/-- A call a logger makes on one of its sinks. -/
inductive sink_call where
  | log (sink_id : Nat) (msg : details.log_msg)
  | flush (sink_id : Nat)
  deriving DecidableEq, Repr

/-- What a backend operation did: the sink calls it made, in order, and the
exception that ended it, if one did. -/
structure backend_result where
  calls : List sink_call
  raised : Option exception
  deriving DecidableEq, Repr

/-- The class `async_logger`, without its weak handle `thread_pool_`: a call
that locks the handle is given what `lock()` returns. -/
structure async_logger where
  name_ : String
  sinks_ : List sinks.sink
  level_ : level
  flush_level_ : level
  overflow_policy_ : async_overflow_policy

namespace async_logger

/-- The loop `for (auto& sink : sinks_) sink->flush();`: an exception leaves
the loop. -/
def flush_loop : List sinks.sink → backend_result
  | [] => { calls := [], raised := none }
  | s :: rest =>
    match s.flush_raises with
    | some e => { calls := [sink_call.flush s.id], raised := some e }
    | none =>
      let r := flush_loop rest
      { calls := sink_call.flush s.id :: r.calls, raised := r.raised }

/-- The method `backend_flush_()`. -/
def backend_flush_ (self : async_logger) : backend_result :=
  flush_loop self.sinks_

/-- The loop `for (auto& sink : sinks_) if (sink->should_log(msg.lvl))
sink->log(msg);`: an exception leaves the loop. -/
def log_loop (msg : details.log_msg) : List sinks.sink → backend_result
  | [] => { calls := [], raised := none }
  | s :: rest =>
    if s.should_log msg.lvl then
      match s.log_raises msg with
      | some e => { calls := [sink_call.log s.id msg], raised := some e }
      | none =>
        let r := log_loop msg rest
        { calls := sink_call.log s.id msg :: r.calls, raised := r.raised }
    else log_loop msg rest

/-- The method `backend_sink_it_(msg)`: the sink loop, then
`backend_flush_()` if `msg.lvl >= flush_level_`. -/
def backend_sink_it_ (self : async_logger) (msg : details.log_msg) : backend_result :=
  let r := log_loop msg self.sinks_
  match r.raised with
  | some e => { calls := r.calls, raised := some e }
  | none =>
    if msg.lvl.ge self.flush_level_ then
      let f := self.backend_flush_
      { calls := r.calls ++ f.calls, raised := f.raised }
    else r

end async_logger

namespace details

/-! ## `thread_pool`: posting and the worker -/

/-- A backend operation a worker invoked on the logger `owner`. -/
inductive backend_call where
  | sink_it (owner : Nat) (msg : log_msg)
  | flush (owner : Nat)
  deriving DecidableEq, Repr

/-- What a call of `process_next_msg_` did: the pool afterwards, the envelope
it dequeued (if the dequeue did not time out), the backend operations it
invoked, the sink calls those made, and the value it returned or the
exception that left it. -/
structure process_result where
  pool : thread_pool
  dequeued : Option async_msg
  backend : List backend_call
  calls : List sink_call
  result : Except exception Bool

/-- How a run of `worker_loop_` stands: the loop has returned, an exception
has left it, or it is still iterating. -/
inductive loop_status where
  | returned
  | raised (e : exception)
  | iterating
  deriving DecidableEq, Repr

/-- A run of `worker_loop_`: the pool, the envelopes dequeued, the sink calls
made, and the status. -/
structure loop_result where
  pool : thread_pool
  dequeued : List async_msg
  calls : List sink_call
  status : loop_status

namespace thread_pool

/-- The method `post_log`: builds the Log envelope and calls the blocking
`enqueue`; `none` while that call waits. -/
def post_log (p : thread_pool) (async_logger_ptr : async_logger_ptr) (mem : memory)
    (addr : Nat) (msg : log_msg) : Option thread_pool :=
  (p.q_.enqueue (async_msg.of_log_msg async_msg_type.log async_logger_ptr mem addr msg)).map
    (fun q => { p with q_ := q })

/-- The method `post_log_nowait`: builds the Log envelope and calls
`enqueue_nowait`. -/
def post_log_nowait (p : thread_pool) (async_logger_ptr : async_logger_ptr) (mem : memory)
    (addr : Nat) (msg : log_msg) : thread_pool :=
  { p with
    q_ := p.q_.enqueue_nowait
      (async_msg.of_log_msg async_msg_type.log async_logger_ptr mem addr msg) }

/-- The method `post_flush`: builds the Flush envelope and calls the blocking
`enqueue`; `none` while that call waits. -/
def post_flush (p : thread_pool) (async_logger_ptr : async_logger_ptr) (addr : Nat) :
    Option thread_pool :=
  (p.q_.enqueue (async_msg.of_type_worker async_msg_type.flush async_logger_ptr addr)).map
    (fun q => { p with q_ := q })

/-- The method `overrun_counter()`. -/
def overrun_counter (p : thread_pool) : Nat :=
  p.q_.overrun_counter

/-- The method `process_next_msg_()`.  `heap` gives the logger object behind
each strong handle.  There is no handler around the backend calls: an
exception thrown by one leaves the method. -/
def process_next_msg_ (heap : Nat → async_logger) (p : thread_pool) : process_result :=
  let r := p.q_.dequeue_for (async_msg.default_ctor 0)
  let p1 : thread_pool := { p with q_ := r.q }
  if !r.ret then
    { pool := p1, dequeued := none, backend := [], calls := [], result := Except.ok true }
  else
    let incoming_async_msg := r.popped_item
    match incoming_async_msg.msg_type with
    | async_msg_type.log =>
      match incoming_async_msg.worker_ptr with
      | some w =>
        let b := (heap w).backend_sink_it_ incoming_async_msg.tolog_msg
        { pool := p1
          dequeued := some incoming_async_msg
          backend := [backend_call.sink_it w incoming_async_msg.tolog_msg]
          calls := b.calls
          result := match b.raised with
            | some e => Except.error e
            | none => Except.ok true }
      | none =>
        { pool := p1, dequeued := some incoming_async_msg, backend := [], calls := [],
          result := Except.ok true }
    | async_msg_type.flush =>
      match incoming_async_msg.worker_ptr with
      | some w =>
        let b := (heap w).backend_flush_
        { pool := p1
          dequeued := some incoming_async_msg
          backend := [backend_call.flush w]
          calls := b.calls
          result := match b.raised with
            | some e => Except.error e
            | none => Except.ok true }
      | none =>
        { pool := p1, dequeued := some incoming_async_msg, backend := [], calls := [],
          result := Except.ok true }
    | async_msg_type.terminate =>
      { pool := p1, dequeued := some incoming_async_msg, backend := [], calls := [],
        result := Except.ok false }

/-- The method `worker_loop_()`: `while (process_next_msg_()) {}`, followed for
at most `fuel` iterations.  There is no handler in the loop either. -/
def worker_loop_ (heap : Nat → async_logger) : Nat → thread_pool → loop_result
  | 0, p => { pool := p, dequeued := [], calls := [], status := loop_status.iterating }
  | fuel + 1, p =>
    let r := process_next_msg_ heap p
    match r.result with
    | Except.error e =>
      { pool := r.pool, dequeued := r.dequeued.toList, calls := r.calls,
        status := loop_status.raised e }
    | Except.ok false =>
      { pool := r.pool, dequeued := r.dequeued.toList, calls := r.calls,
        status := loop_status.returned }
    | Except.ok true =>
      let rest := worker_loop_ heap fuel r.pool
      { pool := rest.pool
        dequeued := r.dequeued.toList ++ rest.dequeued
        calls := r.calls ++ rest.calls
        status := rest.status }

end thread_pool

end details

/-! ## The front of `async_logger` -/

namespace async_logger

/-- The method `sink_it_(msg)` of the logger with identity `self`
(`shared_from_this()` is a handle to `self`).  `pool_ptr` is what
`thread_pool_.lock()` returns.  `Except.ok none`: the call waits in the
blocking enqueue. -/
def sink_it_ (self : Nat) (lg : async_logger) (pool_ptr : Option details.thread_pool)
    (mem : details.memory) (addr : Nat) (msg : details.log_msg) :
    Except exception (Option details.thread_pool) :=
  match pool_ptr with
  | some pool =>
    if lg.overflow_policy_ = async_overflow_policy.block then
      Except.ok (pool.post_log (some self) mem addr msg)
    else
      Except.ok (some (pool.post_log_nowait (some self) mem addr msg))
  | none =>
    Except.error
      (exception.runtime_error "async_logger::sink_it_: thread pool doesn't exist anymore")

/-- The method `flush_()` of the logger with identity `self`. -/
def flush_ (self : Nat) (_lg : async_logger) (pool_ptr : Option details.thread_pool)
    (addr : Nat) : Except exception (Option details.thread_pool) :=
  match pool_ptr with
  | some pool => Except.ok (pool.post_flush (some self) addr)
  | none =>
    Except.error
      (exception.runtime_error "async_logger::flush: thread pool doesn't exist anymore")

end async_logger

namespace details

/-- How a worker thread stands.  The thread runs `[this] { worker_loop_(); }`;
an exception that leaves the function of a `std::thread` calls
`std::terminate`, which ends the process. -/
inductive thread_status where
  | running
  | finished
  | process_terminated
  deriving DecidableEq, Repr

/-- The worker thread after at most `fuel` iterations of its loop. -/
def thread_pool.worker_thread (heap : Nat → async_logger) (fuel : Nat) (p : thread_pool) :
    thread_status :=
  match (thread_pool.worker_loop_ heap fuel p).status with
  | loop_status.returned => thread_status.finished
  | loop_status.raised _ => thread_status.process_terminated
  | loop_status.iterating => thread_status.running

/-! ## Runs of a pool and the owners of queued envelopes -/

/-- The call `thread_pool_.lock()` of an async logger on its
`std::weak_ptr<thread_pool>`: a strong handle to the pool as long as a strong
handle to it exists (`alive`), null from then on.  The destructor of the pool
runs when the last strong handle has been released, so `lock()` returns null
from the start of `~thread_pool()` on. -/
def weak_ptr_lock : Bool → thread_pool → Option thread_pool
  | true, p => some p
  | false, _ => none

/-- A completed call that changes the queue of a pool: `sink_it_` or `flush_`
of the logger with identity `self`, or one `process_next_msg_` of a worker. -/
inductive pool_op where
  | sink_it (self : Nat) (mem : memory) (addr : Nat) (msg : log_msg)
  | flush (self : Nat) (addr : Nat)
  | worker_dequeue

/-- The envelope a call posts, with the logger that posts it. -/
def pool_op.posted : pool_op → Option (Nat × async_msg)
  | pool_op.sink_it self mem addr msg =>
    some (self, async_msg.of_log_msg async_msg_type.log (some self) mem addr msg)
  | pool_op.flush self addr =>
    some (self, async_msg.of_type_worker async_msg_type.flush (some self) addr)
  | pool_op.worker_dequeue => none

namespace thread_pool

/-- The pool after one completed call on a pool that is alive, so that
`thread_pool_.lock()` returns it; `none` when the call does not complete in
this state: it waits in the blocking enqueue, or (for a worker) the backend
call throws, and the exception that leaves the thread function ends the
process. -/
def apply_op (loggers : Nat → async_logger) (p : thread_pool) : pool_op → Option thread_pool
  | pool_op.sink_it self mem addr msg =>
    match async_logger.sink_it_ self (loggers self) (weak_ptr_lock true p) mem addr msg with
    | Except.ok r => r
    | Except.error _ => none
  | pool_op.flush self addr =>
    match async_logger.flush_ self (loggers self) (weak_ptr_lock true p) addr with
    | Except.ok r => r
    | Except.error _ => none
  | pool_op.worker_dequeue =>
    match (process_next_msg_ loggers p).result with
    | Except.error _ => none
    | Except.ok _ => some (process_next_msg_ loggers p).pool

/-- The pool after a sequence of completed calls. -/
def run_ops (loggers : Nat → async_logger) : thread_pool → List pool_op → Option thread_pool
  | p, [] => some p
  | p, op :: rest => (apply_op loggers p op).bind (fun p1 => run_ops loggers p1 rest)

end thread_pool

/-- The test of a handle: does the envelope hold a strong handle to the logger
`owner`? -/
def async_msg.owned_by (owner : Nat) (e : async_msg) : Bool :=
  decide (e.worker_ptr = some owner)

/-- The strong reference count of the logger `owner`: one per non-null
`shared_ptr` to it, which are the handles held outside the pool (`ext`), the
`worker_ptr` of the envelopes that workers hold in `incoming_async_msg`, and
the `worker_ptr` of every slot of the ring buffer. -/
def use_count (ext : List Nat) (incoming : List async_msg)
    (q : mpmc_blocking_queue async_msg) (owner : Nat) : Nat :=
  ext.count owner + incoming.countP (async_msg.owned_by owner)
    + q.q_.v_.countP (async_msg.owned_by owner)

/-! ## Shutdown of a pool -/

namespace thread_pool

end thread_pool

/-- A step of a shutdown: the destructor completes its next enqueue call, a
worker runs `process_next_msg_` once, or an async logger is called through
`sink_it_` or `flush_` (these are the callers of the post methods). -/
inductive shutdown_step where
  | dtor_enqueue
  | worker_dequeue
  | sink_it (self : Nat) (mem : memory) (addr : Nat) (msg : log_msg)
  | flush (self : Nat) (addr : Nat)

/-- A pool during shutdown: the pool, the enqueue calls the destructor has
still to make, the envelopes the workers have dequeued since the destructor
started (oldest first), the number of workers whose `worker_loop_` has
returned, and the exceptions thrown to the callers of loggers since the
destructor started. -/
structure shutdown_state where
  pool : thread_pool
  pending : List (mq_op async_msg)
  dequeued : List async_msg
  exited : Nat
  raised : List exception
  deriving DecidableEq, Repr

namespace shutdown_state

/-- One step; `none` when the step cannot be taken in this state.  The
destructor: it has no call left, or its blocking enqueue waits.  A worker:
every `worker_loop_` has returned, or the backend call throws, which ends
the process.  A worker whose `process_next_msg_` returns false leaves its
loop.  A logger finds the pool handle expired: `thread_pool_.lock()` is null
from the start of the destructor on. -/
def step (heap : Nat → async_logger) (st : shutdown_state) :
    shutdown_step → Option shutdown_state
  | shutdown_step.dtor_enqueue =>
    match st.pending with
    | [] => none
    | call :: rest =>
      (st.pool.q_.step call).map
        (fun q => { st with pool := { st.pool with q_ := q }, pending := rest })
  | shutdown_step.worker_dequeue =>
    if st.exited < st.pool.threads_.length then
      let r := thread_pool.process_next_msg_ heap st.pool
      match r.result with
      | Except.error _ => none
      | Except.ok true =>
        some { st with pool := r.pool, dequeued := st.dequeued ++ r.dequeued.toList }
      | Except.ok false =>
        some { st with
          pool := r.pool
          dequeued := st.dequeued ++ r.dequeued.toList
          exited := st.exited + 1 }
    else none
  | shutdown_step.sink_it self mem addr msg =>
    match async_logger.sink_it_ self (heap self) (weak_ptr_lock false st.pool) mem addr msg with
    | Except.error e => some { st with raised := st.raised ++ [e] }
    | Except.ok r => r.map (fun p => { st with pool := p })
  | shutdown_step.flush self addr =>
    match async_logger.flush_ self (heap self) (weak_ptr_lock false st.pool) addr with
    | Except.error e => some { st with raised := st.raised ++ [e] }
    | Except.ok r => r.map (fun p => { st with pool := p })

/-- A schedule of steps, in order. -/
def run (heap : Nat → async_logger) : shutdown_state → List shutdown_step → Option shutdown_state
  | st, [] => some st
  | st, s :: rest => (st.step heap s).bind (fun st1 => run heap st1 rest)

/-- The calls of loggers in a schedule. -/
def logger_calls : List shutdown_step → Nat
  | [] => 0
  | shutdown_step.sink_it _ _ _ _ :: rest => logger_calls rest + 1
  | shutdown_step.flush _ _ :: rest => logger_calls rest + 1
  | shutdown_step.dtor_enqueue :: rest => logger_calls rest
  | shutdown_step.worker_dequeue :: rest => logger_calls rest

end shutdown_state

/-- Is the envelope a Terminate envelope? -/
def async_msg.is_terminate (e : async_msg) : Bool :=
  decide (e.msg_type = async_msg_type.terminate)

/-- No sink of any logger throws, from `log` or from `flush`. -/
def no_sink_throws (heap : Nat → async_logger) : Prop :=
  ∀ w, ∀ s ∈ (heap w).sinks_, (∀ msg, s.log_raises msg = none) ∧ s.flush_raises = none

/-- What holds in every state of the shutdown of a pool with `n` workers and
`m` slots, which had overwritten `ov` envelopes and held the envelopes `pre`
when its destructor started: the ring buffer is well formed and has its slots
and the worker threads are the same; the calls the destructor has still to make
are blocking enqueues of its Terminate envelope; the envelopes dequeued so far
followed by the queued ones are `pre` followed by the Terminate envelopes
enqueued so far; nothing has been overwritten; and as many workers have left
their loop as Terminate envelopes have been dequeued. -/
structure shutdown_state.Inv (n addr m ov : Nat) (pre : List async_msg)
    (st : shutdown_state) : Prop where
  wf : circular_q.WF st.pool.q_.q_
  threads : st.pool.threads_.length = n
  slots : st.pool.q_.q_.max_items_ = m
  pending : st.pending = List.replicate st.pending.length
    (mq_op.enqueue (async_msg.of_type async_msg_type.terminate addr))
  pending_le : st.pending.length ≤ n
  fifo : st.dequeued ++ circular_q.contents st.pool.q_.q_ =
    pre ++ List.replicate (n - st.pending.length)
      (async_msg.of_type async_msg_type.terminate addr)
  overrun : st.pool.overrun_counter = ov
  exited : st.exited = st.dequeued.countP async_msg.is_terminate

/-! ## Sample values -/

/-- A memory that holds the letter m at every address. -/
def sample_mem : memory :=
  fun _ => 'm'

/-- A record of level `info` whose payload is the two bytes at address 10. -/
def sample_msg : log_msg :=
  { log_msg.default_ctor with lvl := level.info, payload := { data_ := 10, size_ := 2 } }

/-- A sink of level `trace` whose `log` throws the error `rotate_` throws when
it cannot create the new file, and whose `flush` returns. -/
def failing_sink : sinks.sink :=
  { id := 0
    level_ := level.trace
    log_raises := fun _ =>
      some (exception.runtime_error
        "rotating_file_sink: Failed to create new file after rotation: logs/app.log")
    flush_raises := none }

/-- Loggers by identity: every one is a logger of policy `block` with the
single sink `failing_sink` and no automatic flush. -/
def sample_loggers : Nat → async_logger :=
  fun _ =>
    { name_ := "async"
      sinks_ := [failing_sink]
      level_ := level.trace
      flush_level_ := level.off
      overflow_policy_ := async_overflow_policy.block }

/-- The pool `thread_pool(2, 1)` right after construction. -/
def sample_pool0 : thread_pool :=
  { q_ := mpmc_blocking_queue.ctor 2, threads_ := [0] }

/-- Logger 7 logs `sample_msg`, then flushes. -/
def sample_pool_ops : List pool_op :=
  [pool_op.sink_it 7 sample_mem 100 sample_msg, pool_op.flush 7 200]

/-- The pool reached from `sample_pool0` by `sample_pool_ops`: the Log envelope
and the Flush envelope of logger 7 are queued, in this order. -/
def sample_pool : thread_pool :=
  { q_ :=
      { q_ :=
          (((circular_q.ctor 2 : circular_q async_msg).push_back
            (async_msg.of_log_msg async_msg_type.log (some 7) sample_mem 100 sample_msg)).push_back
            (async_msg.of_type_worker async_msg_type.flush (some 7) 200)) }
    threads_ := [0] }

/-- A sink of level `trace` that never throws. -/
def quiet_sink : sinks.sink :=
  { id := 1
    level_ := level.trace
    log_raises := fun _ => none
    flush_raises := none }

/-- Loggers by identity, each with the single sink `quiet_sink` and no
automatic flush: logger 8 has the policy `overrun_oldest`, every other one the
policy `block`. -/
def quiet_loggers : Nat → async_logger :=
  fun w =>
    { name_ := "quiet"
      sinks_ := [quiet_sink]
      level_ := level.trace
      flush_level_ := level.off
      overflow_policy_ :=
        if w = 8 then async_overflow_policy.overrun_oldest else async_overflow_policy.block }

/-- The backend operation a worker invokes for an envelope it has dequeued
(the switch of `process_next_msg_`): what the operation does, or nothing for a
null owner handle and for a Terminate envelope. -/
def envelope_backend (heap : Nat → async_logger) (e : async_msg) : backend_result :=
  match e.msg_type with
  | async_msg_type.log =>
    match e.worker_ptr with
    | some w => (heap w).backend_sink_it_ e.tolog_msg
    | none => { calls := [], raised := none }
  | async_msg_type.flush =>
    match e.worker_ptr with
    | some w => (heap w).backend_flush_
    | none => { calls := [], raised := none }
  | async_msg_type.terminate => { calls := [], raised := none }

namespace thread_pool

/-- The pool after one completed call, with the envelope a worker's
`process_next_msg_` dequeued in it (none for a post, none on a timeout) and
the sink calls the worker made. -/
def apply_op_trace (loggers : Nat → async_logger) (p : thread_pool) (op : pool_op) :
    Option (thread_pool × List async_msg × List sink_call) :=
  (apply_op loggers p op).map
    (fun p1 =>
      match op with
      | pool_op.worker_dequeue =>
        (p1, (process_next_msg_ loggers p).dequeued.toList, (process_next_msg_ loggers p).calls)
      | _ => (p1, [], []))

/-- The trace `r` of the rest of a run after a call in which the envelopes `d`
were dequeued and the sink calls `c` made. -/
def trace_after (d : List async_msg) (c : List sink_call)
    (r : thread_pool × List async_msg × List sink_call) :
    thread_pool × List async_msg × List sink_call :=
  (r.1, d ++ r.2.1, c ++ r.2.2)

/-- The pool after a sequence of completed calls, with the envelopes the
workers dequeued and the sink calls they made, in order. -/
def run_trace (loggers : Nat → async_logger) :
    thread_pool → List pool_op → Option (thread_pool × List async_msg × List sink_call)
  | p, [] => some (p, [], [])
  | p, op :: rest =>
    match apply_op_trace loggers p op with
    | none => none
    | some (p1, d, c) => (run_trace loggers p1 rest).map (trace_after d c)

end thread_pool

/-- The method `logger::flush()`, which `async_logger` inherits: it calls the
virtual `flush_()`. -/
def async_logger.flush (self : Nat) (lg : async_logger) (pool_ptr : Option thread_pool)
    (addr : Nat) : Except exception (Option thread_pool) :=
  async_logger.flush_ self lg pool_ptr addr

/-- The addresses of the `flush` calls in a sequence of calls, in call
order. -/
def flush_addrs : List pool_op → List Nat
  | [] => []
  | pool_op.flush _ addr :: rest => addr :: flush_addrs rest
  | pool_op.sink_it _ _ _ _ :: rest => flush_addrs rest
  | pool_op.worker_dequeue :: rest => flush_addrs rest

/-- A sequence of calls in which the logger `self` flushes once per address,
a worker running `process_next_msg_` before each flush, and then the workers
run `process_next_msg_` another `drain` times. -/
def flush_schedule (self : Nat) (addrs : List Nat) (drain : Nat) : List pool_op :=
  addrs.flatMap (fun a => [pool_op.worker_dequeue, pool_op.flush self a])
    ++ List.replicate drain pool_op.worker_dequeue

/-- The pool `thread_pool(1, 1)` right after construction: a queue of
capacity 1. -/
def sample_pool1 : thread_pool :=
  { q_ := mpmc_blocking_queue.ctor 1, threads_ := [0] }

/-- The pool `sample_pool1` after logger 7 has flushed three times, a worker
running before each flush and once after the last: the queue is empty. -/
def sample_three_flushes : thread_pool :=
  { q_ :=
      { q_ :=
          { max_items_ := 2
            v_ :=
              [(async_msg.of_type_worker async_msg_type.flush (some 7) 202).moved_from,
                (async_msg.of_type_worker async_msg_type.flush (some 7) 201).moved_from]
            head_ := 1
            tail_ := 1
            overrun_counter_ := 0 } }
    threads_ := [0] }

/-- Does the view lie within the character storage the string owns? -/
def std_string.contains_view (s : std_string) (v : string_view_t) : Bool :=
  decide (s.data_ ≤ v.data_ ∧ v.data_ + v.size_ ≤ s.data_ + s.chars.length)

/-- The record `sample_msg` with a logger name: the five bytes at address 50
(the name string of its logger). -/
def sample_named_msg : log_msg :=
  { sample_msg with logger_name := { data_ := 50, size_ := 5 } }

end details

/-! ## `rotating_file_sink`: file names -/

namespace sinks

/-- The member `std::string::find_last_of(chars)` on a string given as its
list of characters: the position of the last character of `s` that is one of
`chars`, or `none` for `npos`. -/
def find_last_of : List Char → List Char → Option Nat
  | [], _ => none
  | c :: rest, chars =>
    match find_last_of rest chars with
    | some j => some (j + 1)
    | none => if c ∈ chars then some 0 else none

/-- The function `std::to_string(size_t)`: the decimal digits. -/
def to_string (index : Nat) : List Char :=
  Nat.toDigits 10 index

/-- The static method `rotating_file_sink::calc_filename(base_filename, index)`.
The test `dot_pos != npos && (slash_pos == npos || dot_pos > slash_pos)` is the
match on the two positions. -/
def calc_filename (base_filename : List Char) (index : Nat) : List Char :=
  if index = 0 then base_filename
  else
    let dot_pos := find_last_of base_filename ['.']
    let slash_pos := find_last_of base_filename ['/', '\\']
    match dot_pos, slash_pos with
    | some d, none =>
      base_filename.take d ++ ['.'] ++ to_string index ++ base_filename.drop d
    | some d, some sl =>
      if d > sl then
        base_filename.take d ++ ['.'] ++ to_string index ++ base_filename.drop d
      else base_filename ++ ['.'] ++ to_string index
    | none, _ => base_filename ++ ['.'] ++ to_string index

/-- Position `d` of `s` holds the last character of `s` that is one of
`chars`. -/
def last_at (s : List Char) (chars : List Char) (d : Nat) : Prop :=
  (∃ c, s[d]? = some c ∧ c ∈ chars) ∧ ∀ j c, d < j → s[j]? = some c → c ∉ chars

end sinks

/-! ## `rotating_file_sink`: files, construction, writes, rotation

File names are lists of characters.  A `FILE*` is `none` (null) or `some` of
the name of the file the stream is open on; the sink closes its stream before
it renames or removes a file, so a stream and the file of that name stay
together.  A `file_system` gives the bytes of every file as the C library has
them: the bytes in the file followed by the bytes that the stream open on it
still holds in its buffer.  The sink never calls `setvbuf`, so its stream is
fully buffered: `fwrite` puts its bytes in the buffer, and they are
transmitted to the file when the buffer is full, at `fflush` and at `fclose`.
How many bytes are in the buffer is followed in `stream_sink`; what `stat`
reports for the open file meanwhile is `stream_sink.st_size`.  Which calls of
the C library fail during one operation of the sink is given by an
`io_faults`. -/

namespace sinks

/-- A directory tree: the content of every file that exists, by name, the
bytes in the buffer of a stream open on the file included. -/
abbrev file_system := List Char → Option (List Char)

/-- The file system with the file `name` set to `content` (`none`: absent). -/
def file_system.set (fs : file_system) (name : List Char) (content : Option (List Char)) :
    file_system :=
  fun n => if n = name then content else fs n

/-- The library calls that fail during one operation of the sink: `fopen` of a
name, `rename` of a source to a target, `remove` of a name; and how many bytes
an `fwrite` writes when it does not write all (`none`: all). -/
structure io_faults where
  fopen_fails : List Char → Bool
  rename_fails : List Char → List Char → Bool
  remove_fails : List Char → Bool
  fwrite_count : Option Nat

/-- No call fails. -/
def no_faults : io_faults :=
  { fopen_fails := fun _ => false
    rename_fails := fun _ _ => false
    remove_fails := fun _ => false
    fwrite_count := none }

/-- The call `fopen(name, "ab")`: `none` when it fails; else the file system
afterwards, in which the file exists (created empty if it was absent). -/
def fopen_ab (faults : io_faults) (fs : file_system) (name : List Char) :
    Option file_system :=
  if faults.fopen_fails name then none
  else
    match fs name with
    | some _ => some fs
    | none => some (fs.set name (some []))

/-- The call `fopen(name, "wb")`: `none` when it fails; else the file system
afterwards, in which the file exists and is empty. -/
def fopen_wb (faults : io_faults) (fs : file_system) (name : List Char) :
    Option file_system :=
  if faults.fopen_fails name then none else some (fs.set name (some []))

/-- The call `fwrite(data, 1, size, file)` on a stream open on `name`: the
bytes written are appended to what the stream has written to the file so far
(they are in its buffer at first, see `buffered_after`). -/
def fwrite (faults : io_faults) (fs : file_system) (name : List Char) (data : List Char) :
    file_system :=
  match fs name with
  | none => fs
  | some content =>
    match faults.fwrite_count with
    | none => fs.set name (some (content ++ data))
    | some k => fs.set name (some (content ++ data.take k))

/-- The method `file_exists_(filename)`: `stat` succeeds. -/
def file_exists_ (fs : file_system) (filename : List Char) : Bool :=
  (fs filename).isSome

/-- The method `file_size_(filename)`: `st_size`, or 0 when `stat` fails, for
a file whose stream has nothing in its buffer (the constructor calls it right
after `fopen`). -/
def file_size_ (fs : file_system) (filename : List Char) : Nat :=
  match fs filename with
  | some content => content.length
  | none => 0

/-- The method `remove_file_(filename)`: `std::remove`; the file system
afterwards and whether the call succeeded. -/
def remove_file_ (faults : io_faults) (fs : file_system) (filename : List Char) :
    file_system × Bool :=
  if (fs filename).isSome && !faults.remove_fails filename then
    (fs.set filename none, true)
  else (fs, false)

/-- The call `std::rename(src, target)`: on success `target` has the content
of `src`, replacing what it had, and `src` is gone. -/
def std_rename (faults : io_faults) (fs : file_system) (src target : List Char) :
    file_system × Bool :=
  if (fs src).isSome && !faults.rename_fails src target then
    (fun n => if n = target then fs src else if n = src then none else fs n, true)
  else (fs, false)

/-- The method `rename_file_(src, target)`: removes `target` first, whatever
comes of it, then renames. -/
def rename_file_ (faults : io_faults) (fs : file_system) (src target : List Char) :
    file_system × Bool :=
  std_rename faults (remove_file_ faults fs target).1 src target

/-- The class `rotating_file_sink<Mutex>`: its data members. -/
structure rotating_file_sink where
  base_filename_ : List Char
  max_size_ : Nat
  max_files_ : Nat
  current_size_ : Nat
  file_ : Option (List Char)
  deriving DecidableEq, Repr

/-- What a call of the constructor does: the file system afterwards, the names
it called `fopen` on, and the sink it built or the exception it threw. -/
structure rotating_ctor_outcome where
  fs : file_system
  opened : List (List Char)
  result : Except exception rotating_file_sink

/-- What a call of `rotate_` does: the file system afterwards, the member
`file_` afterwards, the `rename_file_` calls it made in order (source, target,
whether the call succeeded), and the exception that left it, if one did. -/
structure rotate_outcome where
  fs : file_system
  file_ : Option (List Char)
  renames : List (List Char × List Char × Bool)
  raised : Option exception

/-- What a call of `sink_it_` does: the sink and the file system afterwards,
whether it called `rotate_`, the `rename_file_` calls of that rotation, and the
exception that left it, if one did. -/
structure sink_it_outcome where
  sink : rotating_file_sink
  fs : file_system
  rotated : Bool
  renames : List (List Char × List Char × Bool)
  raised : Option exception

namespace rotating_file_sink

/-- The constructor `rotating_file_sink(base_filename, max_size, max_files)`. -/
def ctor (faults : io_faults) (fs : file_system) (base_filename : List Char)
    (max_size max_files : Nat) : rotating_ctor_outcome :=
  if max_size = 0 then
    { fs := fs, opened := []
      result := Except.error
        (exception.invalid_argument "rotating_file_sink: max_size cannot be 0") }
  else if max_files = 0 then
    { fs := fs, opened := []
      result := Except.error
        (exception.invalid_argument "rotating_file_sink: max_files cannot be 0") }
  else
    let filename := calc_filename base_filename 0
    match fopen_ab faults fs filename with
    | none =>
      { fs := fs, opened := [filename]
        result := Except.error
          (exception.runtime_error
            ("rotating_file_sink: Failed to open file: " ++ String.mk filename)) }
    | some fs1 =>
      { fs := fs1, opened := [filename]
        result := Except.ok
          { base_filename_ := base_filename
            max_size_ := max_size
            max_files_ := max_files
            current_size_ :=
              if file_exists_ fs1 filename then file_size_ fs1 filename else 0
            file_ := some filename } }

/-- The method `rotate_()` from the head of an iteration of its loop
`for (i = max_files_; i > 0; --i)` on, the stream being closed: with `i = 0`
the loop is over and the new current file is created. -/
def rotate_from (faults : io_faults) (base_filename : List Char) :
    Nat → file_system → rotate_outcome
  | 0, fs =>
    let current_file := calc_filename base_filename 0
    match fopen_wb faults fs current_file with
    | none =>
      { fs := fs, file_ := none, renames := []
        raised := some (exception.runtime_error
          ("rotating_file_sink: Failed to create new file after rotation: "
            ++ String.mk current_file)) }
    | some fs1 => { fs := fs1, file_ := some current_file, renames := [], raised := none }
  | i + 1, fs =>
    let src := calc_filename base_filename i
    if !file_exists_ fs src then rotate_from faults base_filename i fs
    else
      let target := calc_filename base_filename (i + 1)
      let r := rename_file_ faults fs src target
      if !r.2 then
        match fopen_wb faults r.1 src with
        | none =>
          { fs := r.1, file_ := none, renames := [(src, target, false)]
            raised := some (exception.runtime_error
              ("rotating_file_sink: Failed to reopen file after failed rotation: "
                ++ String.mk src)) }
        | some fs2 =>
          { fs := fs2, file_ := some src, renames := [(src, target, false)], raised := none }
      else
        let rest := rotate_from faults base_filename i r.1
        { rest with renames := (src, target, true) :: rest.renames }

/-- The method `rotate_()`: closes the stream, then the loop and the new
file. -/
def rotate_ (faults : io_faults) (s : rotating_file_sink) (fs : file_system) :
    rotate_outcome :=
  rotate_from faults s.base_filename_ s.max_files_ fs

/-- The end of `sink_it_`: `if (file_) { fwrite(...); current_size_ += msg_size; }`. -/
def write_formatted (faults : io_faults) (s : rotating_file_sink) (fs : file_system)
    (formatted : List Char) : rotating_file_sink × file_system :=
  match s.file_ with
  | some name =>
    ({ s with current_size_ := s.current_size_ + formatted.length },
      fwrite faults fs name formatted)
  | none => (s, fs)

/-- The method `sink_it_(msg)`, given the bytes `formatted` that
`format_message` renders for `msg`. -/
def sink_it_ (faults : io_faults) (s : rotating_file_sink) (fs : file_system)
    (formatted : List Char) : sink_it_outcome :=
  let msg_size := formatted.length
  if s.current_size_ + msg_size > s.max_size_ then
    let r := rotate_ faults s fs
    match r.raised with
    | some e =>
      { sink := { s with file_ := r.file_ }, fs := r.fs, rotated := true
        renames := r.renames, raised := some e }
    | none =>
      let w := write_formatted faults { s with file_ := r.file_, current_size_ := 0 } r.fs
        formatted
      { sink := w.1, fs := w.2, rotated := true, renames := r.renames, raised := none }
  else
    let w := write_formatted faults s fs formatted
    { sink := w.1, fs := w.2, rotated := false, renames := [], raised := none }

/-- A sequence of `log` calls on the sink, each with the faults of its time
and the bytes its record renders to; a call that throws leaves the sink and
the files as they are at the throw. -/
def write_all (s : rotating_file_sink) (fs : file_system) :
    List (io_faults × List Char) → rotating_file_sink × file_system
  | [] => (s, fs)
  | (faults, formatted) :: rest =>
    let o := sink_it_ faults s fs formatted
    write_all o.sink o.fs rest

end rotating_file_sink

end sinks

namespace sinks

/-- A directory with no file. -/
def empty_directory : file_system := fun _ => none

/-- No file of the file system is longer than `limit` bytes. -/
def file_system.sizes_le (fs : file_system) (limit : Nat) : Prop :=
  ∀ name content, fs name = some content → content.length ≤ limit

/-- What holds between writes of a sink whose records render to at most
`max_size_` bytes: no file is longer than `max_size_`, `current_size_` is at
most `max_size_`, and the file the stream is open on is no longer than
`current_size_`. -/
def rotating_file_sink.within_limit (s : rotating_file_sink) (fs : file_system) : Prop :=
  fs.sizes_le s.max_size_ ∧ s.current_size_ ≤ s.max_size_ ∧
    ∀ name content, s.file_ = some name → fs name = some content →
      content.length ≤ s.current_size_

/-- A sink with `max_size = 10` and `max_files = 2` whose current file `base`
holds 8 bytes. -/
def sample_rotating_sink : rotating_file_sink :=
  { base_filename_ := "base".toList
    max_size_ := 10
    max_files_ := 2
    current_size_ := 8
    file_ := some "base".toList }

/-- The directory of `sample_rotating_sink`: the file `base` of 8 bytes. -/
def sample_directory : file_system :=
  empty_directory.set "base".toList (some "12345678".toList)

end sinks

namespace sinks

/-- The base file name of the examples, without an extension. -/
def sample_base : List Char := "base".toList

/-- The name `calc_filename sample_base 1`. -/
def sample_base1 : List Char := "base.1".toList

/-- The name `calc_filename sample_base 2`. -/
def sample_base2 : List Char := "base.2".toList

/-- The directory with the files `base`, `base.1` and `base.2` of the given
content (`none`: absent) and no other file. -/
def directory3 (a b c : Option (List Char)) : file_system :=
  fun n =>
    if n = sample_base then a
    else if n = sample_base1 then b
    else if n = sample_base2 then c
    else none

/-- The writes of the ten records `r 0`, ..., `r 9` in this order, no call
failing. -/
def ten_writes (r : Nat → List Char) : List (io_faults × List Char) :=
  (List.range 10).map fun k => (no_faults, r k)

/-- A record of 30 bytes: 29 times the digit `k` and a newline. -/
def sample_record (k : Nat) : List Char :=
  List.replicate 29 (Char.ofNat (48 + k)) ++ ['\n']

end sinks

namespace sinks

end sinks

namespace sinks

/-- The method `base_sink::log(msg)` of a rotating sink: locks `mutex_` and
calls `sink_it_(msg)`; `formatted` is what the formatter renders for `msg`. -/
def rotating_file_sink.log (faults : io_faults) (s : rotating_file_sink) (fs : file_system)
    (formatted : List Char) : sink_it_outcome :=
  rotating_file_sink.sink_it_ faults s fs formatted

/-- The only failing call is `fwrite`, which writes 3 bytes of what it is
given. -/
def short_write : io_faults :=
  { fopen_fails := fun _ => false
    rename_fails := fun _ _ => false
    remove_fails := fun _ => false
    fwrite_count := some 3 }

end sinks

namespace sinks

/-- The number of bytes of `data` that an `fwrite` writes: all of them, or the
count of a short write. -/
def fwrite_accepted (faults : io_faults) (data : List Char) : Nat :=
  match faults.fwrite_count with
  | none => data.length
  | some k => (data.take k).length

/-- The bytes in the buffer of a fully buffered stream after an `fwrite` of
`written` bytes, `unflushed` bytes being in the buffer before: with a buffer
of `bufsiz` bytes (`BUFSIZ`), the stream transmits its buffer to the file each
time the buffer is full and keeps the rest. -/
def buffered_after (bufsiz unflushed written : Nat) : Nat :=
  (unflushed + written) % bufsiz

/-- A rotating sink with the files and with the state of its stream that the
sink does not see: the number of bytes written to the stream `file_` that are
still in the buffer of the stream. -/
structure stream_sink where
  sink : rotating_file_sink
  fs : file_system
  unflushed : Nat

/-- A call on a rotating sink: `log` with the faults of its time and the bytes
the record renders to, or `flush`. -/
inductive sink_op where
  | log (faults : io_faults) (formatted : List Char)
  | flush

namespace stream_sink

/-- The sink right after its constructor has returned `s`: `fopen` gives a
stream with an empty buffer. -/
def opened (s : rotating_file_sink) (fs : file_system) : stream_sink :=
  { sink := s, fs := fs, unflushed := 0 }

/-- The method `log(msg)` with the buffer of the stream followed.  A rotation
closes the stream, which transmits its buffer, and opens a new stream, whose
buffer is empty; then, if a stream is open, `fwrite` puts the bytes it writes
in the buffer. -/
def log (bufsiz : Nat) (faults : io_faults) (b : stream_sink) (formatted : List Char) :
    stream_sink :=
  let o := b.sink.log faults b.fs formatted
  { sink := o.sink
    fs := o.fs
    unflushed :=
      match o.raised, o.sink.file_ with
      | none, some _ =>
        buffered_after bufsiz (if o.rotated then 0 else b.unflushed)
          (fwrite_accepted faults formatted)
      | _, _ => 0 }

/-- The method `flush_()`: `if (file_) fflush(file_);`, which transmits the
buffer of the stream to the file. -/
def flush_ (b : stream_sink) : stream_sink :=
  match b.sink.file_ with
  | some _ => { b with unflushed := 0 }
  | none => b

/-- The byte size of the file the stream is open on, as `stat` reports it
(`st_size`): the bytes written to the stream without those still in its
buffer; 0 when no stream is open. -/
def st_size (b : stream_sink) : Nat :=
  match b.sink.file_ with
  | some name => file_size_ b.fs name - b.unflushed
  | none => 0

/-- One call on the sink. -/
def step (bufsiz : Nat) (b : stream_sink) : sink_op → stream_sink
  | sink_op.log faults formatted => b.log bufsiz faults formatted
  | sink_op.flush => b.flush_

/-- A sequence of calls on the sink, in order. -/
def run (bufsiz : Nat) (b : stream_sink) (ops : List sink_op) : stream_sink :=
  ops.foldl (step bufsiz) b

/-- The account the sink keeps of its file: when a stream is open, the file
exists, `current_size_` is the number of bytes written to it, and the buffer
of the stream holds some of these bytes. -/
def accounted (b : stream_sink) : Prop :=
  ∀ name, b.sink.file_ = some name →
    ∃ content, b.fs name = some content ∧ content.length = b.sink.current_size_ ∧
      b.unflushed ≤ content.length

end stream_sink

/-- Every `fwrite` of the `log` calls in a sequence of calls writes all its
bytes. -/
def writes_complete (ops : List sink_op) : Prop :=
  ∀ faults formatted, sink_op.log faults formatted ∈ ops → faults.fwrite_count = none

/-- Every `fopen` fails. -/
def fopen_fault : io_faults :=
  { fopen_fails := fun _ => true
    rename_fails := fun _ _ => false
    remove_fails := fun _ => false
    fwrite_count := none }

/-- The sink with `max_size = 10` and `max_files = 2` that the constructor
builds on an empty directory, with its stream. -/
def sample_stream_sink : stream_sink :=
  stream_sink.opened ⟨sample_base, 10, 2, 0, some sample_base⟩
    (rotating_file_sink.ctor no_faults empty_directory sample_base 10 2).fs

end sinks

namespace sinks

/-- The strings `basename` and `ext` that `calc_filename` cuts its argument
into: at the last dot when that dot comes after the last path separator or
there is no separator; otherwise the whole name and no extension. -/
def split_ext (base_filename : List Char) : List Char × List Char :=
  let dot_pos := find_last_of base_filename ['.']
  let slash_pos := find_last_of base_filename ['/', '\\']
  match dot_pos, slash_pos with
  | some d, none => (base_filename.take d, base_filename.drop d)
  | some d, some sl =>
    if d > sl then (base_filename.take d, base_filename.drop d) else (base_filename, [])
  | none, _ => (base_filename, [])

/-- The number a string of decimal digits denotes. -/
def parse_digits (digits : List Char) : Nat :=
  digits.foldl (fun acc c => acc * 10 + (c.toNat - 48)) 0

/-- The parser of the specification's round trip, read against a known stem
and extension (the repository has no parser): the name `stem ++ ext` has index
0; a name `stem ++ "." ++ digits ++ ext` with at least one digit has the index
the digits denote; no other name has an index. -/
def parse_index (stem ext name : List Char) : Option Nat :=
  if name = stem ++ ext then some 0
  else
    let rest := name.drop (stem.length + 1)
    let digits := rest.take (rest.length - ext.length)
    if name = stem ++ ['.'] ++ digits ++ ext ∧ digits ≠ [] ∧ digits.all Char.isDigit = true then
      some (parse_digits digits)
    else none

end sinks

namespace sinks

/-- A sink with `max_size = 10` and `max_files = 2` built on a directory that
holds only a file `base.2`, left from an earlier run, after one record of 8
bytes. -/
def sample_leftover : rotating_file_sink × file_system :=
  rotating_file_sink.write_all ⟨sample_base, 10, 2, 0, some sample_base⟩
    (rotating_file_sink.ctor no_faults (directory3 none none (some "old\n".toList))
      sample_base 10 2).fs
    [(no_faults, "first 1\n".toList)]

end sinks

namespace details

/-- The number of `enqueue_nowait` calls in a sequence of calls. -/
def mpmc_blocking_queue.nowait_calls {T : Type} : List (mq_op T) → Nat
  | [] => 0
  | mq_op.enqueue_nowait _ :: rest => nowait_calls rest + 1
  | mq_op.enqueue _ :: rest => nowait_calls rest
  | mq_op.dequeue_for :: rest => nowait_calls rest

/-- Calls on a queue of capacity 0: an overwriting enqueue, a dequeue, an
overwriting enqueue. -/
def sample_zero_ops : List (mq_op Nat) :=
  [mq_op.enqueue_nowait 1, mq_op.dequeue_for, mq_op.enqueue_nowait 2]

/-- The queue of capacity 0 after `sample_zero_ops`. -/
def sample_zero_queue : mpmc_blocking_queue Nat :=
  { q_ := { max_items_ := 1, v_ := [2], head_ := 0, tail_ := 0, overrun_counter_ := 2 } }

end details

/-! ## `logger` and `registry`

A `shared_ptr<logger>` is `none` (null) or `some` of the identity of a logger
object; `heap` gives the object behind each identity.  The map `loggers_` is
the list of its entries, at most one per key.  A call that dereferences a null
`shared_ptr` has no defined behaviour; such a call returns
`deref.null_dereference`. -/

/-- The class `logger`: its data members. -/
structure logger where
  name_ : String
  sinks_ : List sinks.sink
  level_ : level
  flush_level_ : level

/-- The method `logger::set_level`. -/
def logger.set_level (lg : logger) (log_level : level) : logger :=
  { lg with level_ := log_level }

/-- The method `logger::flush()`, which calls `flush_()`: the loop
`for (auto& sink : sinks_) sink->flush();`. -/
def logger.flush (lg : logger) : backend_result :=
  async_logger.flush_loop lg.sinks_

/-- What a call through a `shared_ptr` gives: the result of the call, or a
dereference of a null pointer. -/
inductive deref (α : Type) where
  | done (result : α)
  | null_dereference

/-- The class `registry`: the map `loggers_` and the handle `default_logger_`. -/
structure registry where
  loggers_ : List (String × Nat)
  default_logger_ : Option Nat
  deriving DecidableEq, Repr

/-- What a call of `register_logger` leaves: the registry afterwards and the
exception it threw, if it did. -/
structure register_outcome where
  registry : registry
  raised : Option exception
  deriving DecidableEq, Repr

/-- What a call of `flush_all` did: the loggers it called `flush()` on, in
order, the sink calls those made, and the exception that left it, if one did. -/
structure flush_all_outcome where
  flushed : List Nat
  calls : List sink_call
  raised : Option exception
  deriving DecidableEq, Repr

namespace registry

/-- The call `loggers_.find(key)`: the mapped handle, `none` for `end()`. -/
def find (loggers : List (String × Nat)) (key : String) : Option Nat :=
  loggers.lookup key

/-- The assignment `loggers_[key] = value`: replaces the mapped handle of an
existing key, else inserts the entry. -/
def assign (loggers : List (String × Nat)) (key : String) (value : Nat) :
    List (String × Nat) :=
  if (find loggers key).isSome then
    loggers.map (fun entry => if entry.1 = key then (key, value) else entry)
  else loggers ++ [(key, value)]

/-- The call `loggers_.erase(key)`. -/
def erase (loggers : List (String × Nat)) (key : String) : List (String × Nat) :=
  loggers.filter (fun entry => decide (entry.1 ≠ key))

/-- The constructor `registry()`: no logger registered; the default logger is
the new logger object `default_id` (named `""`, level `info`). -/
def ctor (default_id : Nat) : registry :=
  { loggers_ := [], default_logger_ := some default_id }

/-- The method `throw_if_exists_(logger_name)`. -/
def throw_if_exists_ (r : registry) (logger_name : String) : Option exception :=
  if (find r.loggers_ logger_name).isSome then
    some (exception.runtime_error ("Logger with name '" ++ logger_name ++ "' already exists"))
  else none

/-- The method `register_logger(new_logger)`, for a handle that is not null
(the method reads `new_logger->name()` first). -/
def register_logger (heap : Nat → logger) (r : registry) (new_logger : Nat) :
    register_outcome :=
  match r.throw_if_exists_ (heap new_logger).name_ with
  | some e => { registry := r, raised := some e }
  | none =>
    { registry := { r with loggers_ := assign r.loggers_ (heap new_logger).name_ new_logger }
      raised := none }

/-- The method `get(logger_name)`. -/
def get (r : registry) (logger_name : String) : Option Nat :=
  find r.loggers_ logger_name

/-- The method `drop(logger_name)`. -/
def drop (heap : Nat → logger) (r : registry) (logger_name : String) : registry :=
  let is_default_logger :=
    match r.default_logger_ with
    | some d => decide ((heap d).name_ = logger_name)
    | none => false
  let loggers := erase r.loggers_ logger_name
  if is_default_logger then { loggers_ := loggers, default_logger_ := none }
  else { loggers_ := loggers, default_logger_ := r.default_logger_ }

/-- The method `drop_all()`. -/
def drop_all (_r : registry) : registry :=
  { loggers_ := [], default_logger_ := none }

/-- The method `default_logger()`. -/
def default_logger (r : registry) : Option Nat :=
  r.default_logger_

/-- The method `set_default_logger(new_default_logger)`. -/
def set_default_logger (heap : Nat → logger) (r : registry)
    (new_default_logger : Option Nat) : registry :=
  match new_default_logger with
  | some l =>
    { loggers_ := assign r.loggers_ (heap l).name_ l, default_logger_ := some l }
  | none => { loggers_ := r.loggers_, default_logger_ := none }

/-- The loop `for (auto& pair : loggers_) pair.second->set_level(log_level);`
on the logger objects. -/
def set_level_loop (log_level : level) :
    List (String × Nat) → (Nat → logger) → (Nat → logger)
  | [], heap => heap
  | pair :: rest, heap =>
    set_level_loop log_level rest
      (Function.update heap pair.2 ((heap pair.2).set_level log_level))

/-- The method `set_level(log_level)`: `default_logger_->set_level(log_level)`
with no test of the handle, then the loop.  Returns the logger objects
afterwards. -/
def set_level (heap : Nat → logger) (r : registry) (log_level : level) :
    deref (Nat → logger) :=
  match r.default_logger_ with
  | none => deref.null_dereference
  | some d =>
    deref.done
      (set_level_loop log_level r.loggers_
        (Function.update heap d ((heap d).set_level log_level)))

/-- The loop `for (auto& pair : loggers_) pair.second->flush();`: an exception
leaves the loop. -/
def flush_loop (heap : Nat → logger) : List (String × Nat) → flush_all_outcome
  | [] => { flushed := [], calls := [], raised := none }
  | pair :: rest =>
    let f := (heap pair.2).flush
    match f.raised with
    | some e => { flushed := [pair.2], calls := f.calls, raised := some e }
    | none =>
      let r := flush_loop heap rest
      { flushed := pair.2 :: r.flushed, calls := f.calls ++ r.calls, raised := r.raised }

/-- The method `flush_all()`: `default_logger_->flush()` with no test of the
handle, then the loop. -/
def flush_all (heap : Nat → logger) (r : registry) : deref flush_all_outcome :=
  match r.default_logger_ with
  | none => deref.null_dereference
  | some d =>
    let f := (heap d).flush
    match f.raised with
    | some e => deref.done { flushed := [d], calls := f.calls, raised := some e }
    | none =>
      let rest := flush_loop heap r.loggers_
      deref.done
        { flushed := d :: rest.flushed, calls := f.calls ++ rest.calls, raised := rest.raised }

end registry

/-- The logger objects of the registry examples: object 0 is the logger `""`
that the registry's constructor makes, object 1 and object 2 are two loggers
named `duplicate_test`, object 3 is the logger `custom_default`; none has a
sink. -/
def sample_heap : Nat → logger := fun id =>
  { name_ := if id = 0 then "" else if id = 3 then "custom_default" else "duplicate_test"
    sinks_ := []
    level_ := if id = 0 then level.info else level.trace
    flush_level_ := level.off }

/-! ## `pattern_formatter`

The output buffer `fmt::memory_buffer` is the list of its characters.  The
views `msg.payload` and `msg.logger_name` are read in a `memory`.  What the
platform decides is given by a `format_env`. -/

/-- The fields of `std::tm` the flag formatters read. -/
structure tm where
  tm_sec : Int
  tm_min : Int
  tm_hour : Int
  tm_mday : Int
  tm_mon : Int
  tm_year : Int
  deriving DecidableEq, Repr

/-- What the platform decides for a formatter: the ticks per second of
`log_clock`, the result of `localtime_r` for each `time_t`, and the bytes that
follow the digits of a thread id of three or more digits in the stack buffer
of `thread_id_formatter`, up to the first zero byte (the buffer is not
terminated there). -/
structure format_env where
  ticks_per_second : Nat
  localtime : Nat → tm
  after_digits : List Char

namespace details

/-- The character `'0' + n` stored into a `char`. -/
def digit_char (n : Int) : Char :=
  Char.ofNat ((48 + n) % 256).toNat

/-- The function `fast_two_digits(uint32_t n, char* buffer)`, given the `int`
argument that is converted to `uint32_t`: the two characters written. -/
def fast_two_digits (n : Int) : List Char :=
  let u := (n % 4294967296).toNat
  if u < 100 then [Nat.digitChar (u / 10), Nat.digitChar (u % 10)] else ['0', '0']

/-- The function `fast_uint_to_str(uint32_t n, char* buffer)` followed by the
`strlen` of `thread_id_formatter`: the characters up to the first zero byte. -/
def fast_uint_to_str (env : format_env) (thread_id : Nat) : List Char :=
  let n := thread_id % 4294967296
  if n < 100 then
    if n < 10 then [Nat.digitChar n] else [Nat.digitChar (n / 10), Nat.digitChar (n % 10)]
  else Nat.toDigits 10 n ++ env.after_digits

end details

/-- The classes derived from `pattern_formatter::flag_formatter`
(pattern_formatter.cpp), one constructor each. -/
inductive flag_formatter where
  | aggregate_formatter (str_ : List Char)
  | year_formatter
  | month_formatter
  | day_formatter
  | hour_formatter
  | minute_formatter
  | second_formatter
  | level_formatter
  | level_full_formatter
  | name_formatter
  | payload_formatter
  | thread_id_formatter
  deriving DecidableEq, Repr

/-- What the method `format(msg, tm_time, dest)` of a flag formatter appends to
`dest`. -/
def flag_formatter.text (env : format_env) (mem : details.memory) (msg : details.log_msg)
    (tm_time : tm) : flag_formatter → List Char
  | flag_formatter.aggregate_formatter str_ => str_
  | flag_formatter.year_formatter =>
    let year := tm_time.tm_year + 1900
    [details.digit_char (year.tdiv 1000), details.digit_char ((year.tdiv 100).tmod 10),
      details.digit_char ((year.tdiv 10).tmod 10), details.digit_char (year.tmod 10)]
  | flag_formatter.month_formatter => details.fast_two_digits (tm_time.tm_mon + 1)
  | flag_formatter.day_formatter => details.fast_two_digits tm_time.tm_mday
  | flag_formatter.hour_formatter => details.fast_two_digits tm_time.tm_hour
  | flag_formatter.minute_formatter => details.fast_two_digits tm_time.tm_min
  | flag_formatter.second_formatter => details.fast_two_digits tm_time.tm_sec
  | flag_formatter.level_formatter =>
    match msg.lvl with
    | level.trace => ['T']
    | level.debug => ['D']
    | level.info => ['I']
    | level.warn => ['W']
    | level.error => ['E']
    | level.critical => ['C']
    | level.off => []
  | flag_formatter.level_full_formatter =>
    match msg.lvl with
    | level.trace => "trace".toList
    | level.debug => "debug".toList
    | level.info => "info".toList
    | level.warn => "warning".toList
    | level.error => "error".toList
    | level.critical => "critical".toList
    | level.off => []
  | flag_formatter.name_formatter => mem.read msg.logger_name
  | flag_formatter.payload_formatter => mem.read msg.payload
  | flag_formatter.thread_id_formatter => details.fast_uint_to_str env msg.thread_id

/-- The method `format(msg, tm_time, dest)` of a flag formatter. -/
def flag_formatter.format (env : format_env) (mem : details.memory) (msg : details.log_msg)
    (tm_time : tm) (dest : List Char) (f : flag_formatter) : List Char :=
  dest ++ f.text env mem msg tm_time

/-- The class `pattern_formatter`: its data members. -/
structure pattern_formatter where
  pattern_ : List Char
  formatters_ : List flag_formatter
  last_log_secs_ : Nat
  cached_tm_ : tm
  deriving DecidableEq, Repr

namespace pattern_formatter

/-- The statement `if (user_chars) formatters_.push_back(std::move(user_chars));`
on `formatters_`; `user_chars` is null afterwards. -/
def push_user_chars (formatters : List flag_formatter) (user_chars : Option (List Char)) :
    List flag_formatter :=
  match user_chars with
  | some str => formatters ++ [flag_formatter.aggregate_formatter str]
  | none => formatters

/-- The statement `if (!user_chars) user_chars = make_unique<aggregate_formatter>("");
user_chars->add_ch(ch);`. -/
def add_ch (user_chars : Option (List Char)) (ch : Char) : Option (List Char) :=
  match user_chars with
  | some str => some (str ++ [ch])
  | none => some [ch]

/-- The cases of `switch (flag)` that push a flag formatter. -/
def flag_case (flag : Char) : Option flag_formatter :=
  if flag = 'Y' then some flag_formatter.year_formatter
  else if flag = 'm' then some flag_formatter.month_formatter
  else if flag = 'd' then some flag_formatter.day_formatter
  else if flag = 'H' then some flag_formatter.hour_formatter
  else if flag = 'M' then some flag_formatter.minute_formatter
  else if flag = 'S' then some flag_formatter.second_formatter
  else if flag = 'l' then some flag_formatter.level_formatter
  else if flag = 'L' then some flag_formatter.level_full_formatter
  else if flag = 'n' then some flag_formatter.name_formatter
  else if flag = 'v' then some flag_formatter.payload_formatter
  else if flag = 't' then some flag_formatter.thread_id_formatter
  else none

/-- The loop of `compile_pattern()` from the iterator position on, with the
`formatters_` built so far and the pending `user_chars`, and the push of the
pending text after the loop.  An iteration that meets a percent sign takes the
flag after it, if there is one. -/
def compile_loop : List Char → List flag_formatter → Option (List Char) → List flag_formatter
  | [], formatters, user_chars => push_user_chars formatters user_chars
  | [c], formatters, user_chars =>
    if c = '%' then push_user_chars (push_user_chars formatters user_chars) none
    else push_user_chars formatters (add_ch user_chars c)
  | c :: flag :: rest, formatters, user_chars =>
    if c = '%' then
      let formatters1 := push_user_chars formatters user_chars
      match flag_case flag with
      | some f => compile_loop rest (formatters1 ++ [f]) none
      | none =>
        if flag = '%' then compile_loop rest formatters1 (add_ch none '%')
        else compile_loop rest formatters1 (add_ch (add_ch none '%') flag)
    else compile_loop (flag :: rest) formatters (add_ch user_chars c)

/-- The method `compile_pattern()` on an empty `formatters_`. -/
def compile_pattern (pattern : List Char) : List flag_formatter :=
  compile_loop pattern [] none

/-- The constructor `pattern_formatter(pattern)`. -/
def ctor (pattern : List Char) : pattern_formatter :=
  { pattern_ := pattern
    formatters_ := compile_pattern pattern
    last_log_secs_ := 0
    cached_tm_ := ⟨0, 0, 0, 0, 0, 0⟩ }

/-- The method `get_time(msg)`: `localtime_r` of `to_time_t(msg.time)`. -/
def get_time (env : format_env) (msg : details.log_msg) : tm :=
  env.localtime (msg.time / env.ticks_per_second)

/-- The method `format(msg, dest)`: the formatter afterwards (its time cache)
and `dest` afterwards. -/
def format (env : format_env) (mem : details.memory) (self : pattern_formatter)
    (msg : details.log_msg) (dest : List Char) : pattern_formatter × List Char :=
  let secs := msg.time / env.ticks_per_second
  let self1 : pattern_formatter :=
    if secs ≠ self.last_log_secs_ then
      { self with cached_tm_ := get_time env msg, last_log_secs_ := secs }
    else self
  let dest1 := self1.formatters_.foldl (flag_formatter.format env mem msg self1.cached_tm_) dest
  (self1, dest1 ++ ['\n'])

/-- The rendering the specification gives a flag: `%%` is a percent sign, a
flag with a formatter is what that formatter writes (`%v`: the payload), and
a flag without one is written as it stands. -/
def flag_text (env : format_env) (mem : details.memory) (msg : details.log_msg) (tm_time : tm)
    (flag : Char) : List Char :=
  match flag_case flag with
  | some f => f.text env mem msg tm_time
  | none => if flag = '%' then ['%'] else ['%', flag]

/-- The line the specification gives a pattern: literal text is copied, a
percent sign and the flag after it are replaced by `flag_text`; a percent
sign that ends the pattern renders nothing. -/
def rendered_line (env : format_env) (mem : details.memory) (msg : details.log_msg)
    (tm_time : tm) : List Char → List Char
  | [] => []
  | [c] => if c = '%' then [] else [c]
  | c :: flag :: rest =>
    if c = '%' then flag_text env mem msg tm_time flag ++ rendered_line env mem msg tm_time rest
    else c :: rendered_line env mem msg tm_time (flag :: rest)

/-- A log call in memory: the characters of the logger name stored from
address 100 on and those of the payload from address 200 on. -/
def sample_text_mem (name payload : List Char) : details.memory := fun a =>
  if 100 ≤ a ∧ a < 100 + name.length then name.getD (a - 100) ' '
  else payload.getD (a - 200) ' '

/-- The record `log_msg("TestLogger", level::info, "Task completed")` of
`test_escape_percent`, its strings stored as in `sample_text_mem`. -/
def sample_format_msg : details.log_msg :=
  { logger_name := { data_ := 100, size_ := 10 }
    lvl := level.info
    time := 0
    thread_id := 7
    source := { filename := 0, line := 0, funcname := 0 }
    payload := { data_ := 200, size_ := 14 }
    color_range_start := 0
    color_range_end := 0 }

/-- A platform for the examples: a clock in seconds and a fixed local time. -/
def sample_env : format_env :=
  { ticks_per_second := 1
    localtime := fun _ => ⟨39, 36, 3, 30, 8, 125⟩
    after_digits := [] }

end pattern_formatter

namespace details

/-! ## Threads on one `mpmc_blocking_queue`

The methods `enqueue` and `dequeue_for` as the steps a thread takes through
them: acquiring `mutex_`, evaluating the wait predicate, waiting with the mutex
released, the ring-buffer calls, and releasing the mutex.  Threads interleave
step by step; a waiting thread may wake at any time the mutex is free (a
notification, a spurious wake-up or, in `wait_for`, the timeout). -/

/-- A call a thread makes on the queue. -/
inductive mq_call (T : Type) where
  | enqueue (item : T)
  | dequeue_for
  deriving DecidableEq, Repr

/-- Where a thread stands: between calls; inside `enqueue(item)` with the mutex
held before the predicate `!q_.full()`, waiting in `pop_cv_.wait`, before
`q_.push_back`, before the end of the lock scope; inside `dequeue_for` with
the mutex held before the predicate `!q_.empty()` (`timed_out`: the wait has
timed out and this is its last evaluation), waiting in `push_cv_.wait_for`,
before `q_.front()`, before the `return` that releases the mutex. -/
inductive mq_pc (T : Type) where
  | idle
  | enqueue_locked (item : T)
  | enqueue_waiting (item : T)
  | enqueue_push (item : T)
  | enqueue_unlock
  | dequeue_locked (timed_out : Bool)
  | dequeue_waiting
  | dequeue_take
  | dequeue_return (ret : Bool)
  deriving DecidableEq, Repr

/-- The positions at which the source holds `mutex_`. -/
def mq_pc.holds_mutex {T : Type} : mq_pc T → Bool
  | mq_pc.idle => false
  | mq_pc.enqueue_locked _ => true
  | mq_pc.enqueue_waiting _ => false
  | mq_pc.enqueue_push _ => true
  | mq_pc.enqueue_unlock => true
  | mq_pc.dequeue_locked _ => true
  | mq_pc.dequeue_waiting => false
  | mq_pc.dequeue_take => true
  | mq_pc.dequeue_return _ => true

/-- A thread: its position and the calls it has still to make. -/
structure mq_thread (T : Type) where
  pc : mq_pc T
  calls : List (mq_call T)

/-- A call on the ring buffer `q_`. -/
inductive q_call where
  | full
  | push_back
  | empty
  | front
  | pop_front
  deriving DecidableEq, Repr

/-- A read or write of the ring buffer as it happened: the thread, the call,
and whether `mutex_` was held by that thread at that moment. -/
structure mq_access where
  thread : Nat
  call : q_call
  locked : Bool
  deriving DecidableEq, Repr

/-- A queue shared by threads: the ring buffer `q_`, the owner of `mutex_`,
the threads, and what has happened so far: the ring-buffer accesses, the items
pushed by `enqueue` and the items handed out by `dequeue_for`, each in order. -/
structure mq_system (T : Type) where
  q_ : circular_q T
  mutex_ : Option Nat
  threads : Nat → mq_thread T
  accesses : List mq_access
  enqueued : List T
  dequeued : List T

namespace mq_system

variable {T : Type}

/-- A queue of capacity `max_items` and threads that have made no call yet. -/
def init [Inhabited T] (max_items : Nat) (programs : Nat → List (mq_call T)) : mq_system T :=
  { q_ := circular_q.ctor max_items
    mutex_ := none
    threads := fun t => { pc := mq_pc.idle, calls := programs t }
    accesses := []
    enqueued := []
    dequeued := [] }

/-- The record of a ring-buffer call by thread `t` in state `st`. -/
def access (st : mq_system T) (t : Nat) (call : q_call) : mq_access :=
  { thread := t, call := call, locked := decide (st.mutex_ = some t) }

/-- The state with thread `t` at position `pc`. -/
def goto (st : mq_system T) (t : Nat) (pc : mq_pc T) : mq_system T :=
  { st with threads := Function.update st.threads t { st.threads t with pc := pc } }

/-- The construction of the `unique_lock`, and the re-acquisition inside a
wait: enabled when the mutex is free. -/
def lock (st : mq_system T) (t : Nat) (pc : mq_pc T) : Option (mq_system T) :=
  match st.mutex_ with
  | none => some (goto { st with mutex_ := some t } t pc)
  | some _ => none

/-- The next step of thread `t`; `none` when the thread cannot move (it has
nothing left to do, or it needs the mutex and another thread holds it).
`timeout` tells a thread in `wait_for` that it wakes because its time is up. -/
def step [Movable T] (st : mq_system T) (t : Nat) (timeout : Bool) : Option (mq_system T) :=
  match (st.threads t).pc with
  | mq_pc.idle =>
    match (st.threads t).calls with
    | [] => none
    | mq_call.enqueue item :: rest =>
      lock { st with threads := Function.update st.threads t { st.threads t with calls := rest } }
        t (mq_pc.enqueue_locked item)
    | mq_call.dequeue_for :: rest =>
      lock { st with threads := Function.update st.threads t { st.threads t with calls := rest } }
        t (mq_pc.dequeue_locked false)
  | mq_pc.enqueue_locked item =>
    let st1 := { st with accesses := st.accesses ++ [st.access t q_call.full] }
    if !st.q_.full then some (goto st1 t (mq_pc.enqueue_push item))
    else some (goto { st1 with mutex_ := none } t (mq_pc.enqueue_waiting item))
  | mq_pc.enqueue_waiting item => lock st t (mq_pc.enqueue_locked item)
  | mq_pc.enqueue_push item =>
    some (goto
      { st with
        q_ := st.q_.push_back item
        accesses := st.accesses ++ [st.access t q_call.push_back]
        enqueued := st.enqueued ++ [item] }
      t mq_pc.enqueue_unlock)
  | mq_pc.enqueue_unlock => some (goto { st with mutex_ := none } t mq_pc.idle)
  | mq_pc.dequeue_locked timed_out =>
    let st1 := { st with accesses := st.accesses ++ [st.access t q_call.empty] }
    if !st.q_.empty then some (goto st1 t mq_pc.dequeue_take)
    else if timed_out then some (goto st1 t (mq_pc.dequeue_return false))
    else some (goto { st1 with mutex_ := none } t mq_pc.dequeue_waiting)
  | mq_pc.dequeue_waiting => lock st t (mq_pc.dequeue_locked timeout)
  | mq_pc.dequeue_take =>
    let item := st.q_.front
    let q1 : circular_q T :=
      { st.q_ with v_ := st.q_.v_.set st.q_.head_ (Movable.moved_from item) }
    some (goto
      { st with
        q_ := q1.pop_front
        accesses := st.accesses ++ [st.access t q_call.front, st.access t q_call.pop_front]
        dequeued := st.dequeued ++ [item] }
      t (mq_pc.dequeue_return true))
  | mq_pc.dequeue_return _ => some (goto { st with mutex_ := none } t mq_pc.idle)

/-- A schedule: the threads that move, in order, each with its `timeout`
flag. -/
def run [Movable T] : mq_system T → List (Nat × Bool) → Option (mq_system T)
  | st, [] => some st
  | st, (t, timeout) :: rest => (st.step t timeout).bind (fun st1 => run st1 rest)

end mq_system

/-- Two producers and two consumers: thread 0 enqueues 10 and 11, thread 1
enqueues 20, threads 2 and 3 call `dequeue_for` twice each. -/
def sample_programs : Nat → List (mq_call Nat) := fun t =>
  if t = 0 then [mq_call.enqueue 10, mq_call.enqueue 11]
  else if t = 1 then [mq_call.enqueue 20]
  else if t = 2 then [mq_call.dequeue_for, mq_call.dequeue_for]
  else if t = 3 then [mq_call.dequeue_for, mq_call.dequeue_for]
  else []

/-- A schedule of `sample_programs` on a queue of capacity 1: consumer 2 finds
the queue empty and waits; producer 0 enqueues 10; producer 1 finds the queue
full and waits; consumer 3 takes 10; producer 1 wakes and enqueues 20;
consumer 2 wakes and takes 20; producer 0 enqueues 11; consumer 3 takes 11;
consumer 2 times out on the empty queue. -/
def sample_interleaving : List (Nat × Bool) :=
  [(2, false), (2, false),
   (0, false), (0, false), (0, false), (0, false),
   (1, false), (1, false),
   (3, false), (3, false), (3, false), (3, false),
   (1, false), (1, false), (1, false), (1, false),
   (2, false), (2, false), (2, false), (2, false),
   (0, false), (0, false), (0, false), (0, false),
   (3, false), (3, false), (3, false), (3, false),
   (2, false), (2, false), (2, true), (2, false), (2, false)]

/-- What holds in every state the threads reach: the ring buffer is well
formed; a thread at a position where the source holds the mutex is the owner
of `mutex_`; a thread about to push has a buffer that is not full and a thread
about to take one that is not empty; every ring-buffer access so far was made
with the mutex held; the items enqueued are the items handed out followed by
the items queued; nothing was overwritten. -/
structure mq_system.Inv {T : Type} [Inhabited T] (st : mq_system T) : Prop where
  wf : circular_q.WF st.q_
  owner : ∀ t, (st.threads t).pc.holds_mutex = true → st.mutex_ = some t
  not_full : ∀ t item, (st.threads t).pc = mq_pc.enqueue_push item → st.q_.full = false
  not_empty : ∀ t, (st.threads t).pc = mq_pc.dequeue_take → st.q_.empty = false
  locked : ∀ a ∈ st.accesses, a.locked = true
  fifo : st.enqueued = st.dequeued ++ circular_q.contents st.q_
  no_overrun : st.q_.overrun_counter_ = 0

end details
end minispdlog

/-! # Properties -/

namespace minispdlog
namespace details
namespace circular_q

variable {T : Type}

theorem succ_mod_cases {t m : Nat} (h : t < m) :
    (t + 1) % m = if t + 1 = m then 0 else t + 1 := by
  split
  · next h1 => rw [h1, Nat.mod_self]
  · next h1 => exact Nat.mod_eq_of_lt (by omega)

theorem wf_ctor [Inhabited T] (C : Nat) : WF (ctor C : circular_q T) :=
  ⟨by simp [ctor], by simp [ctor], by simp [ctor]⟩

theorem wf_push_back {q : circular_q T} (h : WF q) (x : T) : WF (q.push_back x) := by
  obtain ⟨hh, ht, hl⟩ := h
  have hm : 0 < q.max_items_ := by omega
  unfold push_back
  dsimp only
  split
  · exact ⟨Nat.mod_lt _ hm, Nat.mod_lt _ hm, by simpa using hl⟩
  · exact ⟨hh, Nat.mod_lt _ hm, by simpa using hl⟩

theorem wf_pop_front {q : circular_q T} (h : WF q) : WF q.pop_front := by
  obtain ⟨hh, ht, hl⟩ := h
  exact ⟨Nat.mod_lt _ (by omega), ht, hl⟩

theorem full_iff {q : circular_q T} (h : WF q) :
    q.full = true ↔ q.size = q.max_items_ - 1 := by
  obtain ⟨hh, ht, _⟩ := h
  simp only [full, size, decide_eq_true_eq, succ_mod_cases ht]
  split <;> split <;> omega

theorem size_le {q : circular_q T} (h : WF q) : q.size ≤ q.max_items_ - 1 := by
  obtain ⟨hh, ht, _⟩ := h
  simp only [size]
  split <;> omega

theorem empty_iff {q : circular_q T} (h : WF q) : q.empty = true ↔ q.size = 0 := by
  obtain ⟨hh, ht, _⟩ := h
  simp only [empty, size, decide_eq_true_eq]
  split <;> omega

theorem size_push_back {q : circular_q T} (h : WF q) (x : T) :
    (q.push_back x).size = if q.full then q.size else q.size + 1 := by
  obtain ⟨hh, ht, _⟩ := h
  simp only [push_back, full, size, succ_mod_cases ht, succ_mod_cases hh, decide_eq_true_eq]
  split_ifs <;> dsimp only at * <;> omega

theorem overrun_push_back (q : circular_q T) (x : T) :
    (q.push_back x).overrun_counter =
      if q.full then q.overrun_counter + 1 else q.overrun_counter := by
  simp only [push_back, full, overrun_counter, decide_eq_true_eq]
  split_ifs <;> rfl

theorem max_items_push_back (q : circular_q T) (x : T) :
    (q.push_back x).max_items_ = q.max_items_ := by
  simp only [push_back]
  split_ifs <;> rfl

theorem push_all_append (q : circular_q T) (xs : List T) (x : T) :
    q.push_all (xs ++ [x]) = (q.push_all xs).push_back x := by
  simp [push_all, List.foldl_append]

theorem wf_push_all {q : circular_q T} (h : WF q) (xs : List T) : WF (q.push_all xs) := by
  induction xs generalizing q with
  | nil => exact h
  | cons x xs ih => exact ih (wf_push_back h x)

theorem max_items_push_all (q : circular_q T) (xs : List T) :
    (q.push_all xs).max_items_ = q.max_items_ := by
  induction xs generalizing q with
  | nil => rfl
  | cons x xs ih => exact (ih (q.push_back x)).trans (max_items_push_back q x)

theorem push_all_counts [Inhabited T] (C : Nat) (items : List T) :
    ((ctor C).push_all items).size = min items.length C ∧
      ((ctor C).push_all items).overrun_counter = items.length - C := by
  induction items using List.reverseRecOn with
  | nil => simp [push_all, ctor, size, overrun_counter]
  | append_singleton xs x ih =>
    have hwf : WF ((ctor C : circular_q T).push_all xs) := wf_push_all (wf_ctor C) xs
    have hm : ((ctor C : circular_q T).push_all xs).max_items_ = C + 1 := by
      rw [max_items_push_all]; rfl
    have hfull := full_iff hwf
    rw [hm] at hfull
    rw [push_all_append, size_push_back hwf, overrun_push_back]
    obtain ⟨hs, ho⟩ := ih
    simp only [List.length_append, List.length_singleton]
    by_cases hf : ((ctor C : circular_q T).push_all xs).full = true
    · have := hfull.1 hf
      simp only [hf, if_true]
      omega
    · have hne : ¬ ((ctor C : circular_q T).push_all xs).size = C + 1 - 1 := fun h => hf (hfull.2 h)
      simp only [hf]
      simp only [Bool.false_eq_true, if_false]
      omega

/-- C1: pushing `L` items with `push_back` into a freshly constructed
`circular_q` of capacity `C`, with no pop in between, leaves
`size() = min(L, C)` and `overrun_counter() = max(0, L - C)`. -/
theorem push_back_run_size_and_overrun [Inhabited T] (C : Nat) (items : List T) :
    ((ctor C).push_all items).size = min items.length C ∧
      (((ctor C).push_all items).overrun_counter : Int) =
        max 0 ((items.length : Int) - (C : Int)) := by
  obtain ⟨hs, ho⟩ := push_all_counts C items
  refine ⟨hs, ?_⟩
  rw [ho]
  omega

/-! ### The ring buffer as a bounded FIFO list -/

theorem add_mod_cases {a i m : Nat} (ha : a < m) (hi : i < m) :
    (a + i) % m = if a + i < m then a + i else a + i - m := by
  split
  · next h => exact Nat.mod_eq_of_lt h
  · next h =>
    have h2 : (a + i) % m = ((a + i - m) + m) % m := by
      congr 1
      omega
    rw [h2, Nat.add_mod_right, Nat.mod_eq_of_lt (by omega)]

theorem idx_eq_tail_iff {q : circular_q T} (h : WF q) {i : Nat} (hi : i < q.max_items_) :
    (q.head_ + i) % q.max_items_ = q.tail_ ↔ i = q.size := by
  obtain ⟨hh, ht, _⟩ := h
  rw [add_mod_cases hh hi]
  unfold size
  split_ifs <;> omega

theorem succ_mod_add (h i m : Nat) : ((h + 1) % m + i) % m = (h + (i + 1)) % m := by
  rw [Nat.mod_add_mod]
  congr 1
  omega

theorem v_push_back (q : circular_q T) (x : T) :
    (q.push_back x).v_ = q.v_.set q.tail_ x := by
  simp only [push_back]
  split_ifs <;> rfl

theorem head_push_back (q : circular_q T) (x : T) :
    (q.push_back x).head_ =
      if q.full then (q.head_ + 1) % q.max_items_ else q.head_ := by
  simp only [push_back, full, decide_eq_true_eq]
  split_ifs <;> rfl

theorem size_pop_front {q : circular_q T} (h : WF q) (hne : q.empty = false) :
    q.pop_front.size = q.size - 1 := by
  obtain ⟨hh, ht, _⟩ := h
  simp only [empty, decide_eq_false_iff_not] at hne
  simp only [pop_front, size, succ_mod_cases hh]
  split_ifs <;> omega

theorem size_pos_of_not_empty {q : circular_q T} (h : WF q) (hne : q.empty = false) :
    0 < q.size := by
  rcases Nat.eq_zero_or_pos q.size with h0 | h0
  · rw [(empty_iff h).2 h0] at hne
    exact absurd hne (by decide)
  · exact h0

theorem rep_ctor [Inhabited T] (C : Nat) : Rep (ctor C : circular_q T) [] := by
  constructor
  · simp [ctor, size]
  · intro i hi
    simp [ctor, size] at hi

theorem rep_push_not_full {q : circular_q T} {l : List T} (hwf : WF q) (hr : Rep q l)
    (hf : q.full = false) (x : T) : Rep (q.push_back x) (l ++ [x]) := by
  obtain ⟨hlen, hel⟩ := hr
  have hsz : (q.push_back x).size = q.size + 1 := by
    rw [size_push_back hwf, hf]
    rfl
  have hle := size_le hwf
  have hm : 0 < q.max_items_ := by have := hwf.head_lt; omega
  refine ⟨by simp [hsz, hlen], ?_⟩
  intro i hi
  rw [hsz] at hi
  rw [v_push_back, head_push_back, max_items_push_back, hf, List.getElem?_set]
  simp only [Bool.false_eq_true, if_false]
  by_cases hlt : i < q.size
  · have hne : ¬ q.tail_ = (q.head_ + i) % q.max_items_ := by
      intro h
      have := (idx_eq_tail_iff hwf (i := i) (by omega)).1 h.symm
      omega
    rw [if_neg hne, hel i hlt, List.getElem?_append_left (by omega)]
  · have hieq : i = q.size := by omega
    have hidx : q.tail_ = (q.head_ + i) % q.max_items_ :=
      ((idx_eq_tail_iff hwf (i := i) (by omega)).2 hieq).symm
    have htl : q.tail_ < q.v_.length := by rw [hwf.len_eq]; exact hwf.tail_lt
    rw [if_pos hidx, if_pos htl, List.getElem?_append_right (by omega)]
    have : i - l.length = 0 := by omega
    rw [this]
    rfl

theorem rep_push_full {q : circular_q T} {l : List T} (hwf : WF q) (hr : Rep q l)
    (hf : q.full = true) (hm : 2 ≤ q.max_items_) (x : T) :
    Rep (q.push_back x) (l.tail ++ [x]) := by
  obtain ⟨hlen, hel⟩ := hr
  have hsz : (q.push_back x).size = q.size := by
    rw [size_push_back hwf, hf]
    rfl
  have hfull := (full_iff hwf).1 hf
  refine ⟨by simp [hsz, hlen]; omega, ?_⟩
  intro i hi
  rw [hsz] at hi
  rw [v_push_back, head_push_back, max_items_push_back, hf, List.getElem?_set]
  simp only [if_true]
  rw [succ_mod_add]
  by_cases hlt : i + 1 < q.size
  · have hne : ¬ q.tail_ = (q.head_ + (i + 1)) % q.max_items_ := by
      intro h
      have := (idx_eq_tail_iff hwf (i := i + 1) (by omega)).1 h.symm
      omega
    rw [if_neg hne, hel (i + 1) hlt, List.getElem?_append_left (by simp; omega)]
    simp
  · have hieq : i + 1 = q.size := by omega
    have hidx : q.tail_ = (q.head_ + (i + 1)) % q.max_items_ :=
      ((idx_eq_tail_iff hwf (i := i + 1) (by omega)).2 hieq).symm
    have htl : q.tail_ < q.v_.length := by rw [hwf.len_eq]; exact hwf.tail_lt
    rw [if_pos hidx, if_pos htl, List.getElem?_append_right (by simp; omega)]
    have : i - l.tail.length = 0 := by simp; omega
    rw [this]
    rfl

theorem rep_pop_front {q : circular_q T} {l : List T} (hwf : WF q) (hr : Rep q l)
    (hne : q.empty = false) : Rep q.pop_front l.tail := by
  obtain ⟨hlen, hel⟩ := hr
  have hsz := size_pop_front hwf hne
  refine ⟨by simp [hsz, hlen], ?_⟩
  intro i hi
  rw [hsz] at hi
  show q.v_[((q.head_ + 1) % q.max_items_ + i) % q.max_items_]? = l.tail[i]?
  rw [succ_mod_add, hel (i + 1) (by omega)]
  simp

theorem rep_front [Inhabited T] {q : circular_q T} {l : List T} (hwf : WF q) (hr : Rep q l)
    (hne : q.empty = false) : l = q.front :: l.tail := by
  obtain ⟨hlen, hel⟩ := hr
  have hpos := size_pos_of_not_empty hwf hne
  have h0 := hel 0 hpos
  rw [Nat.add_zero, Nat.mod_eq_of_lt hwf.head_lt] at h0
  cases l with
  | nil => simp at hlen; omega
  | cons a t =>
    simp only [front, List.getD_eq_getElem?_getD, h0]
    simp

theorem rep_nil_of_empty {q : circular_q T} {l : List T} (hwf : WF q) (hr : Rep q l)
    (he : q.empty = true) : l = [] := by
  have := (empty_iff hwf).1 he
  exact List.length_eq_zero.1 (by rw [hr.1, this])

theorem drain_eq_of_rep [Inhabited T] (n : Nat) {q : circular_q T} {l : List T}
    (hwf : WF q) (hr : Rep q l) (hn : q.size ≤ n) : drain n q = l := by
  induction n generalizing q l with
  | zero =>
    have h0 : q.size = 0 := by omega
    rw [rep_nil_of_empty hwf hr ((empty_iff hwf).2 h0)]
    rfl
  | succ n ih =>
    unfold drain
    cases he : q.empty with
    | true => simp [rep_nil_of_empty hwf hr he]
    | false =>
      have hsz := size_pop_front hwf he
      have := ih (wf_pop_front hwf) (rep_pop_front hwf hr he) (by omega)
      rw [this]
      simp only [Bool.false_eq_true, if_false]
      exact (rep_front hwf hr he).symm

theorem contents_eq_of_rep [Inhabited T] {q : circular_q T} {l : List T}
    (hwf : WF q) (hr : Rep q l) : contents q = l :=
  drain_eq_of_rep _ hwf hr (by have := size_le hwf; omega)

theorem overrun_le_run_ops [Inhabited T] (ops : List (q_op T)) (q : circular_q T) :
    q.overrun_counter ≤ (run_ops q ops).2.overrun_counter := by
  induction ops generalizing q with
  | nil => exact Nat.le_refl _
  | cons op rest ih =>
    cases op with
    | push x =>
      simp only [run_ops]
      have := ih (q.push_back x)
      rw [overrun_push_back] at this
      split_ifs at this <;> omega
    | pop =>
      simp only [run_ops]
      exact ih q.pop_front

theorem rep_push_back {q : circular_q T} {l : List T} {C : Nat} (hC : 1 ≤ C) (hwf : WF q)
    (hr : Rep q l) (hm : q.max_items_ = C + 1) (x : T) :
    Rep (q.push_back x) (fifo_push C l x) := by
  have hfull := full_iff hwf
  rw [hm] at hfull
  unfold fifo_push
  cases hf : q.full with
  | true =>
    have : l.length = C := by rw [hr.1, hfull.1 hf]; omega
    rw [if_pos this]
    exact rep_push_full hwf hr hf (by omega) x
  | false =>
    have : ¬ l.length = C := by
      intro h
      have h2 : q.full = true := hfull.2 (by rw [← hr.1, h]; omega)
      rw [hf] at h2
      exact absurd h2 (by decide)
    rw [if_neg this]
    exact rep_push_not_full hwf hr hf x

theorem run_ops_refines [Inhabited T] (C : Nat) (hC : 1 ≤ C) (ops : List (q_op T)) :
    ∀ (q : circular_q T) (l : List T), WF q → Rep q l → q.max_items_ = C + 1 →
      ops_ok q ops = true →
      (run_ops q ops).1 = (fifo_run C l ops).1 ∧
        Rep (run_ops q ops).2 (fifo_run C l ops).2 ∧
        WF (run_ops q ops).2 ∧ (run_ops q ops).2.max_items_ = C + 1 := by
  induction ops with
  | nil =>
    intro q l hwf hr hm _
    exact ⟨rfl, hr, hwf, hm⟩
  | cons op rest ih =>
    intro q l hwf hr hm hok
    cases op with
    | push x =>
      simp only [ops_ok] at hok
      simp only [run_ops, fifo_run]
      exact ih _ _ (wf_push_back hwf x) (rep_push_back hC hwf hr hm x)
        ((max_items_push_back q x).trans hm) hok
    | pop =>
      simp only [ops_ok, Bool.and_eq_true, Bool.not_eq_true'] at hok
      obtain ⟨hne, hok⟩ := hok
      simp only [run_ops, fifo_run]
      obtain ⟨h1, h2, h3, h4⟩ := ih _ _ (wf_pop_front hwf) (rep_pop_front hwf hr hne) hm hok
      refine ⟨?_, h2, h3, h4⟩
      rw [h1]
      conv_rhs => rw [rep_front hwf hr hne]
      simp

theorem run_ops_no_overrun [Inhabited T] (ops : List (q_op T)) :
    ∀ (q : circular_q T) (l : List T), WF q → Rep q l → ops_ok q ops = true →
      (run_ops q ops).2.overrun_counter = q.overrun_counter →
      (run_ops q ops).1 ++ contents (run_ops q ops).2 = l ++ pushed ops := by
  induction ops with
  | nil =>
    intro q l hwf hr _ _
    simp [run_ops, pushed, contents_eq_of_rep hwf hr]
  | cons op rest ih =>
    intro q l hwf hr hok hov
    cases op with
    | push x =>
      simp only [ops_ok] at hok
      simp only [run_ops] at hov ⊢
      have hle := overrun_le_run_ops rest (q.push_back x)
      have hpo := overrun_push_back q x
      cases hf : q.full with
      | true =>
        rw [hf] at hpo
        simp only [if_true] at hpo
        omega
      | false =>
        rw [hf] at hpo
        simp only [Bool.false_eq_true, if_false] at hpo
        have := ih _ _ (wf_push_back hwf x) (rep_push_not_full hwf hr hf x) hok
          (by rw [hov, hpo])
        rw [this]
        simp [pushed]
    | pop =>
      simp only [ops_ok, Bool.and_eq_true, Bool.not_eq_true'] at hok
      obtain ⟨hne, hok⟩ := hok
      simp only [run_ops] at hov ⊢
      have := ih _ _ (wf_pop_front hwf) (rep_pop_front hwf hr hne) hok hov
      simp only [pushed, List.cons_append]
      rw [this]
      conv_rhs => rw [rep_front hwf hr hne]
      simp

/-- C2: `circular_q` refines a bounded FIFO list.  For every capacity
`C >= 1` and every sequence of `push_back` and `pop_front` calls with
`pop_front` only on a non-empty buffer, the values read from `front()` at the
pops and the items still to be dequeued are those of the bounded FIFO list run
on the same calls; a further push onto a full buffer discards exactly the
oldest item and keeps the rest in order; and when no push hit a full buffer,
the items dequeued so far followed by the items still to be dequeued are the
pushed items in push order. -/
theorem circular_q_refines_bounded_fifo [Inhabited T] (C : Nat) (hC : 1 ≤ C)
    (ops : List (q_op T)) (hok : ops_ok (ctor C : circular_q T) ops = true) :
    (run_ops (ctor C) ops).1 = (fifo_run C [] ops).1 ∧
      contents (run_ops (ctor C) ops).2 = (fifo_run C [] ops).2 ∧
      (∀ x : T, (run_ops (ctor C) ops).2.full = true →
        contents ((run_ops (ctor C) ops).2.push_back x) =
          (contents (run_ops (ctor C) ops).2).tail ++ [x]) ∧
      ((run_ops (ctor C) ops).2.overrun_counter = 0 →
        (run_ops (ctor C) ops).1 ++ contents (run_ops (ctor C) ops).2 = pushed ops) := by
  obtain ⟨h1, h2, h3, h4⟩ :=
    run_ops_refines C hC ops (ctor C) [] (wf_ctor C) (rep_ctor C) rfl hok
  refine ⟨h1, contents_eq_of_rep h3 h2, ?_, ?_⟩
  · intro x hf
    rw [contents_eq_of_rep h3 h2]
    exact contents_eq_of_rep (wf_push_back h3 x) (rep_push_full h3 h2 hf (by omega) x)
  · intro h0
    have := run_ops_no_overrun ops (ctor C) [] (wf_ctor C) (rep_ctor C) hok h0
    simpa using this

/-- The refinement at the call sequence of `test_circular_queue`, capacity 5. -/
theorem circular_q_refines_bounded_fifo_witness :
    (1 ≤ 5 ∧ ops_ok (ctor 5 : circular_q Nat) test_circular_queue_ops = true) ∧
      ((run_ops (ctor 5) test_circular_queue_ops).1 =
          (fifo_run 5 [] test_circular_queue_ops).1 ∧
        contents (run_ops (ctor 5) test_circular_queue_ops).2 =
          (fifo_run 5 [] test_circular_queue_ops).2 ∧
        (∀ x : Nat, (run_ops (ctor 5) test_circular_queue_ops).2.full = true →
          contents ((run_ops (ctor 5) test_circular_queue_ops).2.push_back x) =
            (contents (run_ops (ctor 5) test_circular_queue_ops).2).tail ++ [x]) ∧
        ((run_ops (ctor 5) test_circular_queue_ops).2.overrun_counter = 0 →
          (run_ops (ctor 5) test_circular_queue_ops).1 ++
            contents (run_ops (ctor 5) test_circular_queue_ops).2 =
              pushed test_circular_queue_ops)) :=
  ⟨⟨by decide, by decide⟩,
    circular_q_refines_bounded_fifo 5 (by decide) test_circular_queue_ops (by decide)⟩

end circular_q

/-! ### The blocking queue -/

namespace mpmc_blocking_queue

variable {T : Type}

theorem wf_set_head {q : circular_q T} (h : circular_q.WF q) (y : T) :
    circular_q.WF ({ q with v_ := q.v_.set q.head_ y } : circular_q T) :=
  ⟨h.head_lt, h.tail_lt, by simpa using h.len_eq⟩

theorem wf_dequeue_for [Movable T] {q : mpmc_blocking_queue T} (h : circular_q.WF q.q_)
    (d : T) : circular_q.WF (q.dequeue_for d).q.q_ := by
  unfold dequeue_for
  split
  · exact h
  · exact circular_q.wf_pop_front (wf_set_head h _)

theorem wf_step [Movable T] {q q1 : mpmc_blocking_queue T} (h : circular_q.WF q.q_)
    (op : mq_op T) (hs : q.step op = some q1) : circular_q.WF q1.q_ := by
  cases op with
  | enqueue x =>
    simp only [step, enqueue] at hs
    split at hs
    · exact absurd hs (by simp)
    · cases hs
      exact circular_q.wf_push_back h x
  | enqueue_nowait x =>
    simp only [step, enqueue_nowait, Option.some.injEq] at hs
    subst hs
    exact circular_q.wf_push_back h x
  | dequeue_for =>
    simp only [step, Option.some.injEq] at hs
    subst hs
    exact wf_dequeue_for h _

theorem wf_run [Movable T] (ops : List (mq_op T)) :
    ∀ {q q1 : mpmc_blocking_queue T}, circular_q.WF q.q_ → run q ops = some q1 →
      circular_q.WF q1.q_ := by
  induction ops with
  | nil =>
    intro q q1 h hr
    simp only [run, Option.some.injEq] at hr
    subst hr
    exact h
  | cons op rest ih =>
    intro q q1 h hr
    simp only [run] at hr
    cases hs : q.step op with
    | none => simp [hs] at hr
    | some q2 =>
      simp only [hs, Option.bind_some] at hr
      exact ih (wf_step h op hs) hr

theorem wf_reachable [Movable T] {C : Nat} {ops : List (mq_op T)} {q : mpmc_blocking_queue T}
    (hq : run (ctor C) ops = some q) : circular_q.WF q.q_ :=
  wf_run ops (circular_q.wf_ctor C) hq

theorem overrun_dequeue_for [Movable T] (q : mpmc_blocking_queue T) (d : T) :
    (q.dequeue_for d).q.overrun_counter = q.overrun_counter := by
  unfold dequeue_for
  split <;> rfl

/-- C3: `overrun_counter` counts overwrites exactly.  In every state reached by
a sequence of completed queue calls, `enqueue_nowait` can complete whatever the
state and raises `overrun_counter` by one when the queue is full and leaves it
unchanged otherwise; the blocking `enqueue` can complete only when the queue is
not full, and then raises `size` by one and leaves `overrun_counter` unchanged;
`dequeue_for` leaves `overrun_counter` unchanged. -/
theorem overrun_counter_counts_overwrites [Movable T] (C : Nat) (ops : List (mq_op T))
    (q : mpmc_blocking_queue T) (hq : run (ctor C) ops = some q) (x d : T) :
    (∃ q1, q.step (mq_op.enqueue_nowait x) = some q1 ∧
        q1.overrun_counter =
          if q.q_.full then q.overrun_counter + 1 else q.overrun_counter) ∧
      ((q.enqueue x).isSome = true ↔ q.q_.full = false) ∧
      (∀ q1, q.enqueue x = some q1 →
        q1.overrun_counter = q.overrun_counter ∧ q1.size = q.size + 1) ∧
      (q.dequeue_for d).q.overrun_counter = q.overrun_counter := by
  have hwf := wf_reachable hq
  refine ⟨⟨_, rfl, circular_q.overrun_push_back q.q_ x⟩, ?_, ?_, overrun_dequeue_for q d⟩
  · unfold enqueue
    cases q.q_.full <;> simp
  · intro q1 h1
    unfold enqueue at h1
    cases hf : q.q_.full with
    | true => simp [hf] at h1
    | false =>
      simp only [hf, Bool.false_eq_true, if_false, Option.some.injEq] at h1
      subst h1
      constructor
      · show (q.q_.push_back x).overrun_counter = q.q_.overrun_counter
        rw [circular_q.overrun_push_back, hf]
        rfl
      · show (q.q_.push_back x).size = q.q_.size + 1
        rw [circular_q.size_push_back hwf, hf]
        rfl

/-- The counting of overwrites at the full queue `sample_queue`. -/
theorem overrun_counter_counts_overwrites_witness :
    run (ctor 2) sample_queue_ops = some sample_queue ∧
      ((∃ q1, sample_queue.step (mq_op.enqueue_nowait 7) = some q1 ∧
          q1.overrun_counter =
            if sample_queue.q_.full then sample_queue.overrun_counter + 1
            else sample_queue.overrun_counter) ∧
        ((sample_queue.enqueue 7).isSome = true ↔ sample_queue.q_.full = false) ∧
        (∀ q1, sample_queue.enqueue 7 = some q1 →
          q1.overrun_counter = sample_queue.overrun_counter ∧
            q1.size = sample_queue.size + 1) ∧
        (sample_queue.dequeue_for 0).q.overrun_counter = sample_queue.overrun_counter) :=
  ⟨by decide, overrun_counter_counts_overwrites 2 sample_queue_ops sample_queue (by decide) 7 0⟩

theorem idx_ne_head {q : circular_q T} (h : circular_q.WF q) {j : Nat} (h0 : 0 < j)
    (hj : j < q.max_items_) : ¬ q.head_ = (q.head_ + j) % q.max_items_ := by
  rw [circular_q.add_mod_cases h.head_lt hj]
  split <;> omega

theorem rep_exists [Inhabited T] {q : circular_q T} (h : circular_q.WF q) :
    ∃ l, circular_q.Rep q l := by
  refine ⟨(List.range q.size).map
    (fun i => (q.v_[(q.head_ + i) % q.max_items_]?).getD default), by simp, ?_⟩
  intro i hi
  have hlt : (q.head_ + i) % q.max_items_ < q.v_.length := by
    rw [h.len_eq]
    exact Nat.mod_lt _ (by have := h.head_lt; omega)
  rw [List.getElem?_map, List.getElem?_range hi, List.getElem?_eq_getElem hlt]
  simp [List.getElem?_eq_getElem hlt]

theorem rep_dequeue {q : circular_q T} {l : List T} (hwf : circular_q.WF q)
    (hr : circular_q.Rep q l) (hne : q.empty = false) (y : T) :
    circular_q.Rep (({ q with v_ := q.v_.set q.head_ y } : circular_q T).pop_front) l.tail := by
  obtain ⟨hlen, hel⟩ := hr
  have hsz := circular_q.size_pop_front hwf hne
  have hle := circular_q.size_le hwf
  have hsz1 : (({ q with v_ := q.v_.set q.head_ y } : circular_q T).pop_front).size
      = q.size - 1 := hsz
  refine ⟨by simp [hsz1, hlen], ?_⟩
  intro i hi
  rw [hsz1] at hi
  show (q.v_.set q.head_ y)[((q.head_ + 1) % q.max_items_ + i) % q.max_items_]? = l.tail[i]?
  rw [circular_q.succ_mod_add, List.getElem?_set,
    if_neg (idx_ne_head hwf (by omega) (by omega)), hel (i + 1) (by omega)]
  simp

theorem contents_dequeue_for [Movable T] {q : mpmc_blocking_queue T}
    (hwf : circular_q.WF q.q_) (hne : q.q_.empty = false) (d : T) :
    circular_q.contents q.q_ =
      (q.dequeue_for d).popped_item :: circular_q.contents (q.dequeue_for d).q.q_ := by
  obtain ⟨l, hl⟩ := rep_exists hwf
  have h1 := circular_q.contents_eq_of_rep hwf hl
  have h2 := circular_q.contents_eq_of_rep
    (circular_q.wf_pop_front (wf_set_head hwf (Movable.moved_from q.q_.front)))
    (rep_dequeue hwf hl hne (Movable.moved_from q.q_.front))
  have h3 := circular_q.rep_front hwf hl hne
  unfold dequeue_for
  simp only [hne, Bool.false_eq_true, if_false]
  rw [h1, h2]
  exact h3

/-- C4: `dequeue_for` in every state reached by a sequence of completed queue
calls.  With the queue empty at the deadline it returns false and leaves the
output item, the queue size and the overrun counter unchanged.  On a non-empty
queue it returns true, assigns the front item (the oldest queued item) to the
output and reduces `size` by exactly one.  Every `front()` and `pop_front()`
call it makes is made on a non-empty ring buffer. -/
theorem dequeue_for_timeout_or_front [Movable T] (C : Nat) (ops : List (mq_op T))
    (q : mpmc_blocking_queue T) (hq : run (ctor C) ops = some q) (d : T) :
    (q.q_.empty = true →
        (q.dequeue_for d).ret = false ∧ (q.dequeue_for d).popped_item = d ∧
          (q.dequeue_for d).q.size = q.size ∧
          (q.dequeue_for d).q.overrun_counter = q.overrun_counter) ∧
      (q.q_.empty = false →
        (q.dequeue_for d).ret = true ∧ (q.dequeue_for d).popped_item = q.q_.front ∧
          (q.dequeue_for d).q.size + 1 = q.size ∧
          circular_q.contents q.q_ =
            (q.dequeue_for d).popped_item :: circular_q.contents (q.dequeue_for d).q.q_) ∧
      (∀ c ∈ (q.dequeue_for d).calls, c.2.empty = false) := by
  have hwf := wf_reachable hq
  refine ⟨?_, ?_, ?_⟩
  · intro he
    simp [dequeue_for, he]
  · intro hne
    refine ⟨by simp [dequeue_for, hne], by simp [dequeue_for, hne], ?_,
      contents_dequeue_for hwf hne d⟩
    have hsz := circular_q.size_pop_front (wf_set_head hwf (Movable.moved_from q.q_.front)) hne
    have hpos := circular_q.size_pos_of_not_empty hwf hne
    have : (q.dequeue_for d).q.size = q.q_.size - 1 := by
      simp only [dequeue_for, hne, Bool.false_eq_true, if_false]
      exact hsz
    rw [this]
    show q.q_.size - 1 + 1 = q.q_.size
    omega
  · intro c hc
    cases he : q.q_.empty with
    | true => simp [dequeue_for, he] at hc
    | false =>
      simp only [dequeue_for, he, Bool.false_eq_true, if_false, List.mem_cons,
        List.mem_singleton, List.not_mem_nil, or_false] at hc
      rcases hc with rfl | rfl
      · exact he
      · exact he

/-- The behaviour of `dequeue_for` at `sample_queue`, which holds 2 and 3. -/
theorem dequeue_for_timeout_or_front_witness :
    run (ctor 2) sample_queue_ops = some sample_queue ∧
      ((sample_queue.q_.empty = true →
          (sample_queue.dequeue_for 0).ret = false ∧
            (sample_queue.dequeue_for 0).popped_item = 0 ∧
            (sample_queue.dequeue_for 0).q.size = sample_queue.size ∧
            (sample_queue.dequeue_for 0).q.overrun_counter = sample_queue.overrun_counter) ∧
        (sample_queue.q_.empty = false →
          (sample_queue.dequeue_for 0).ret = true ∧
            (sample_queue.dequeue_for 0).popped_item = sample_queue.q_.front ∧
            (sample_queue.dequeue_for 0).q.size + 1 = sample_queue.size ∧
            circular_q.contents sample_queue.q_ =
              (sample_queue.dequeue_for 0).popped_item ::
                circular_q.contents (sample_queue.dequeue_for 0).q.q_) ∧
        (∀ c ∈ (sample_queue.dequeue_for 0).calls, c.2.empty = false)) :=
  ⟨by decide, dequeue_for_timeout_or_front 2 sample_queue_ops sample_queue (by decide) 0⟩

end mpmc_blocking_queue

/-! ### Envelopes -/

theorem move_step_apply_payload (e : async_msg) (st : move_step) :
    (st.apply e).payload = (st.apply e).buffer.view ∧
      (st.apply e).buffer.chars = e.buffer.chars := by
  cases st <;> exact ⟨rfl, rfl⟩

theorem apply_moves_payload (steps : List move_step) :
    ∀ e : async_msg, e.payload = e.buffer.view →
      (apply_moves e steps).payload = (apply_moves e steps).buffer.view ∧
        (apply_moves e steps).buffer.chars = e.buffer.chars := by
  induction steps with
  | nil =>
    intro e he
    exact ⟨he, rfl⟩
  | cons st rest ih =>
    intro e _
    obtain ⟨h1, h2⟩ := move_step_apply_payload e st
    obtain ⟨h3, h4⟩ := ih (st.apply e) h1
    exact ⟨h3, h4.trans h2⟩

theorem memory_read_length (mem : memory) (v : string_view_t) :
    (mem.read v).length = v.size_ := by
  simp [memory.read]

/-- C8: a Log envelope built from a record `r` owns a buffer equal to `r`'s
payload bytes and its payload view denotes exactly that buffer (same address,
same length); after any chain of move constructions and move assignments,
wherever the buffers end up, the destination's payload view denotes the
destination's own buffer, which carries the same bytes as `r`'s payload. -/
theorem log_envelope_payload_denotes_own_buffer (mem : memory) (r : log_msg)
    (worker : async_logger_ptr) (addr : Nat) (steps : List move_step) :
    (async_msg.of_log_msg async_msg_type.log worker mem addr r).buffer.chars
        = mem.read r.payload ∧
      (async_msg.of_log_msg async_msg_type.log worker mem addr r).payload
        = (async_msg.of_log_msg async_msg_type.log worker mem addr r).buffer.view ∧
      (apply_moves (async_msg.of_log_msg async_msg_type.log worker mem addr r) steps).payload
        = (apply_moves (async_msg.of_log_msg async_msg_type.log worker mem addr r)
            steps).buffer.view ∧
      (apply_moves (async_msg.of_log_msg async_msg_type.log worker mem addr r)
          steps).buffer.chars = mem.read r.payload ∧
      (apply_moves (async_msg.of_log_msg async_msg_type.log worker mem addr r)
          steps).payload.size_ = r.payload.size_ := by
  obtain ⟨h1, h2⟩ := apply_moves_payload steps
    (async_msg.of_log_msg async_msg_type.log worker mem addr r) rfl
  refine ⟨rfl, rfl, h1, h2, ?_⟩
  rw [h1, std_string.view, h2]
  exact memory_read_length mem r.payload

/-! ### The worker pool -/

namespace thread_pool

theorem emplace_workers_eq (n : Nat) : emplace_workers n = List.range n := by
  unfold emplace_workers
  induction n with
  | zero => rfl
  | succ n ih => rw [List.range_succ, List.foldl_append, ih]; rfl

theorem emplace_workers_length (n : Nat) : (emplace_workers n).length = n := by
  rw [emplace_workers_eq, List.length_range]

/-- C5: `thread_pool` construction throws if and only if `threads_n = 0` or
`threads_n > 1000`, and what it throws is `std::invalid_argument`; for every
`threads_n` from 1 to 1000, both included, it succeeds with exactly `threads_n`
workers; when it throws, no worker has been started. -/
theorem ctor_rejects_iff_threads_n_out_of_range (queue_size threads_n : Nat) :
    ((∃ e, (ctor queue_size threads_n).result = Except.error e) ↔
        (threads_n = 0 ∨ threads_n > 1000)) ∧
      (∀ e, (ctor queue_size threads_n).result = Except.error e →
        (∃ what, e = exception.invalid_argument what) ∧
          (ctor queue_size threads_n).started = []) ∧
      (1 ≤ threads_n ∧ threads_n ≤ 1000 →
        ∃ p, (ctor queue_size threads_n).result = Except.ok p ∧
          p.threads_.length = threads_n ∧
          (ctor queue_size threads_n).started = p.threads_) := by
  by_cases h : threads_n = 0 ∨ threads_n > 1000
  · refine ⟨⟨fun _ => h, fun _ =>
      ⟨exception.invalid_argument "thread_pool: threads_n must be 1-1000",
        by simp only [ctor, h, if_true]⟩⟩, ?_, ?_⟩
    · intro e he
      simp only [ctor, h, if_true, Except.error.injEq] at he
      subst he
      exact ⟨⟨_, rfl⟩, by simp only [ctor, h, if_true]⟩
    · intro hr
      omega
  · refine ⟨⟨?_, fun h1 => absurd h1 h⟩, ?_, ?_⟩
    · rintro ⟨e, he⟩
      simp [ctor, h] at he
    · intro e he
      simp [ctor, h] at he
    · intro _
      refine ⟨{ q_ := mpmc_blocking_queue.ctor queue_size,
                threads_ := emplace_workers threads_n },
        by simp only [ctor, h, if_false], emplace_workers_length threads_n, ?_⟩
      simp only [ctor, h, if_false]

end thread_pool

/-! ### Contents of the ring buffer after a push -/

theorem contents_push_not_full {T : Type} [Inhabited T] {q : circular_q T}
    (hwf : circular_q.WF q) (hf : q.full = false) (x : T) :
    circular_q.contents (q.push_back x) = circular_q.contents q ++ [x] := by
  obtain ⟨l, hl⟩ := mpmc_blocking_queue.rep_exists hwf
  rw [circular_q.contents_eq_of_rep hwf hl,
    circular_q.contents_eq_of_rep (circular_q.wf_push_back hwf x)
      (circular_q.rep_push_not_full hwf hl hf x)]

theorem contents_push_full {T : Type} [Inhabited T] {q : circular_q T}
    (hwf : circular_q.WF q) (hf : q.full = true) (hm : 2 ≤ q.max_items_) (x : T) :
    circular_q.contents (q.push_back x) = (circular_q.contents q).tail ++ [x] := by
  obtain ⟨l, hl⟩ := mpmc_blocking_queue.rep_exists hwf
  rw [circular_q.contents_eq_of_rep hwf hl,
    circular_q.contents_eq_of_rep (circular_q.wf_push_back hwf x)
      (circular_q.rep_push_full hwf hl hf hm x)]

end details

/-! ### The front of the asynchronous logger -/

namespace async_logger

open details

/-- C6: `sink_it_` of an async logger held through a shared handle.  It fails
if and only if the weak pool handle cannot be upgraded, the error is the
`runtime_error` of the missing pool, and no pool (hence no queue) comes back
from the failed call.  Otherwise it makes exactly one enqueue call, of one Log
envelope whose owner is this logger: the blocking `enqueue` (which waits while
the queue is full) when the policy is `block`, `enqueue_nowait` when it is
`overrun_oldest`.  On a queue with at least one slot of capacity the Log
envelope becomes the newest queued item. -/
theorem sink_it_fails_iff_pool_gone (self : Nat) (lg : async_logger)
    (pool_ptr : Option thread_pool) (mem : memory) (addr : Nat) (msg : log_msg) :
    ((∃ e, sink_it_ self lg pool_ptr mem addr msg = Except.error e) ↔ pool_ptr = none) ∧
      (∀ e, sink_it_ self lg pool_ptr mem addr msg = Except.error e →
        e = exception.runtime_error
          "async_logger::sink_it_: thread pool doesn't exist anymore") ∧
      (async_msg.of_log_msg async_msg_type.log (some self) mem addr msg).msg_type
          = async_msg_type.log ∧
      (async_msg.of_log_msg async_msg_type.log (some self) mem addr msg).worker_ptr
          = some self ∧
      (∀ pool, pool_ptr = some pool →
        (lg.overflow_policy_ = async_overflow_policy.block →
          sink_it_ self lg pool_ptr mem addr msg =
              Except.ok ((pool.q_.enqueue
                (async_msg.of_log_msg async_msg_type.log (some self) mem addr msg)).map
                  (fun q => { pool with q_ := q })) ∧
            (pool.q_.q_.full = true →
              sink_it_ self lg pool_ptr mem addr msg = Except.ok none)) ∧
        (lg.overflow_policy_ = async_overflow_policy.overrun_oldest →
          sink_it_ self lg pool_ptr mem addr msg =
            Except.ok (some { pool with
              q_ := pool.q_.enqueue_nowait
                (async_msg.of_log_msg async_msg_type.log (some self) mem addr msg) })) ∧
        (circular_q.WF pool.q_.q_ → 2 ≤ pool.q_.q_.max_items_ →
          ∀ p1, sink_it_ self lg pool_ptr mem addr msg = Except.ok (some p1) →
            p1.threads_ = pool.threads_ ∧
            circular_q.contents p1.q_.q_ =
              (if pool.q_.q_.full then (circular_q.contents pool.q_.q_).tail
                else circular_q.contents pool.q_.q_) ++
              [async_msg.of_log_msg async_msg_type.log (some self) mem addr msg])) := by
  refine ⟨?_, ?_, rfl, rfl, ?_⟩
  · cases pool_ptr with
    | none => exact ⟨fun _ => rfl, fun _ => ⟨_, rfl⟩⟩
    | some pool =>
      constructor
      · rintro ⟨e, he⟩
        unfold sink_it_ at he
        dsimp only at he
        split at he <;> exact absurd he (by simp)
      · intro h
        exact absurd h (by simp)
  · intro e he
    cases pool_ptr with
    | none =>
      simp only [sink_it_, Except.error.injEq] at he
      exact he.symm
    | some pool =>
      unfold sink_it_ at he
      dsimp only at he
      split at he <;> exact absurd he (by simp)
  · intro pool hp
    subst hp
    refine ⟨?_, ?_, ?_⟩
    · intro hb
      refine ⟨by simp [sink_it_, hb, thread_pool.post_log], ?_⟩
      intro hf
      simp [sink_it_, hb, thread_pool.post_log, mpmc_blocking_queue.enqueue, hf]
    · intro ho
      simp [sink_it_, ho, thread_pool.post_log_nowait]
    · intro hwf hm p1 h1
      cases hf : pool.q_.q_.full with
      | true =>
        have hne : lg.overflow_policy_ ≠ async_overflow_policy.block := by
          intro hb
          simp [sink_it_, hb, thread_pool.post_log, mpmc_blocking_queue.enqueue, hf] at h1
        simp only [sink_it_, hne, if_false, Except.ok.injEq, Option.some.injEq] at h1
        subst h1
        exact ⟨rfl, by simpa [thread_pool.post_log_nowait, mpmc_blocking_queue.enqueue_nowait]
          using contents_push_full hwf hf hm _⟩
      | false =>
        by_cases hb : lg.overflow_policy_ = async_overflow_policy.block
        · simp only [sink_it_, hb, if_true, thread_pool.post_log, mpmc_blocking_queue.enqueue,
            hf, Bool.false_eq_true, if_false, Option.map_some', Except.ok.injEq,
            Option.some.injEq] at h1
          subst h1
          exact ⟨rfl, by simpa using contents_push_not_full hwf hf _⟩
        · simp only [sink_it_, hb, if_false, Except.ok.injEq, Option.some.injEq] at h1
          subst h1
          exact ⟨rfl, by simpa [thread_pool.post_log_nowait,
            mpmc_blocking_queue.enqueue_nowait] using contents_push_not_full hwf hf _⟩

end async_logger

namespace details

/-! ### Owners of queued envelopes -/

theorem contents_eq_take_rotate {T : Type} [Inhabited T] {q : circular_q T}
    (hwf : circular_q.WF q) : circular_q.contents q = (q.v_.rotate q.head_).take q.size := by
  obtain ⟨l, hl⟩ := mpmc_blocking_queue.rep_exists hwf
  rw [circular_q.contents_eq_of_rep hwf hl]
  obtain ⟨hlen, hel⟩ := hl
  have hle := circular_q.size_le hwf
  have hh := hwf.head_lt
  apply List.ext_getElem?
  intro i
  rw [List.getElem?_take]
  split
  · next hi =>
    rw [List.getElem?_rotate (by rw [hwf.len_eq]; omega), hwf.len_eq, Nat.add_comm i,
      hel i hi]
  · next hi => exact List.getElem?_eq_none (by omega)

theorem countP_contents_le {T : Type} [Inhabited T] {q : circular_q T}
    (hwf : circular_q.WF q) (f : T → Bool) :
    (circular_q.contents q).countP f ≤ q.v_.countP f := by
  rw [contents_eq_take_rotate hwf, ← (List.rotate_perm q.v_ q.head_).countP_eq f]
  exact (List.take_sublist _ _).countP_le f

theorem contents_nil_of_capacity_zero {T : Type} [Inhabited T] {q : circular_q T}
    (hwf : circular_q.WF q) (hm : q.max_items_ = 1) : circular_q.contents q = [] := by
  rw [contents_eq_take_rotate hwf]
  have := circular_q.size_le hwf
  have h0 : q.size = 0 := by omega
  rw [h0]
  rfl

theorem mem_contents_push_back {T : Type} [Inhabited T] {q : circular_q T}
    (hwf : circular_q.WF q) (x e : T) (he : e ∈ circular_q.contents (q.push_back x)) :
    e ∈ circular_q.contents q ∨ e = x := by
  cases hf : q.full with
  | false =>
    rw [contents_push_not_full hwf hf, List.mem_append, List.mem_singleton] at he
    exact he
  | true =>
    by_cases hm : 2 ≤ q.max_items_
    · rw [contents_push_full hwf hf hm, List.mem_append, List.mem_singleton] at he
      rcases he with h | h
      · exact Or.inl (List.mem_of_mem_tail h)
      · exact Or.inr h
    · have h1 : (q.push_back x).max_items_ = 1 := by
        rw [circular_q.max_items_push_back]
        have := hwf.head_lt
        omega
      rw [contents_nil_of_capacity_zero (circular_q.wf_push_back hwf x) h1] at he
      exact absurd he (List.not_mem_nil _)

theorem mem_contents_dequeue_for {T : Type} [Movable T] {q : mpmc_blocking_queue T}
    (hwf : circular_q.WF q.q_) (d e : T)
    (he : e ∈ circular_q.contents (q.dequeue_for d).q.q_) : e ∈ circular_q.contents q.q_ := by
  cases hne : q.q_.empty with
  | true =>
    have : (q.dequeue_for d).q = q := by simp [mpmc_blocking_queue.dequeue_for, hne]
    rwa [this] at he
  | false =>
    rw [mpmc_blocking_queue.contents_dequeue_for hwf hne d]
    exact List.mem_cons_of_mem _ he

namespace thread_pool

theorem process_next_msg_pool (heap : Nat → async_logger) (p : thread_pool) :
    (process_next_msg_ heap p).pool =
      { p with q_ := (p.q_.dequeue_for (async_msg.default_ctor 0)).q } := by
  unfold process_next_msg_
  dsimp only
  split
  · rfl
  · split
    · split <;> rfl
    · split <;> rfl
    · rfl

theorem apply_op_worker_dequeue {loggers : Nat → async_logger} {p p1 : thread_pool}
    (h : apply_op loggers p pool_op.worker_dequeue = some p1) :
    p1 = (process_next_msg_ loggers p).pool ∧
      ∃ b, (process_next_msg_ loggers p).result = Except.ok b := by
  simp only [apply_op] at h
  cases hr : (process_next_msg_ loggers p).result with
  | error e => simp [hr] at h
  | ok b =>
    simp only [hr, Option.some.injEq] at h
    exact ⟨h.symm, b, rfl⟩

theorem posted_owner {op : pool_op} {owner : Nat} {e : async_msg}
    (h : op.posted = some (owner, e)) :
    e.worker_ptr = some owner ∧
      (e.msg_type = async_msg_type.log ∨ e.msg_type = async_msg_type.flush) := by
  cases op with
  | sink_it self mem addr msg =>
    simp only [pool_op.posted, Option.some.injEq, Prod.mk.injEq] at h
    obtain ⟨h1, h2⟩ := h
    subst h1 h2
    exact ⟨rfl, Or.inl rfl⟩
  | flush self addr =>
    simp only [pool_op.posted, Option.some.injEq, Prod.mk.injEq] at h
    obtain ⟨h1, h2⟩ := h
    subst h1 h2
    exact ⟨rfl, Or.inr rfl⟩
  | worker_dequeue => simp [pool_op.posted] at h

/-- What one completed call does to the queue: the ring buffer stays well
formed, the workers are the same, and every queued envelope was queued before
or is the envelope the call posts. -/
theorem apply_op_contents (loggers : Nat → async_logger) {p p1 : thread_pool} (op : pool_op)
    (hwf : circular_q.WF p.q_.q_) (h : apply_op loggers p op = some p1) :
    circular_q.WF p1.q_.q_ ∧ p1.threads_ = p.threads_ ∧
      ∀ e ∈ circular_q.contents p1.q_.q_,
        e ∈ circular_q.contents p.q_.q_ ∨ ∃ owner, op.posted = some (owner, e) := by
  cases op with
  | sink_it self mem addr msg =>
    simp only [apply_op, weak_ptr_lock, async_logger.sink_it_] at h
    split at h
    · next r hr =>
      split at hr
      · simp only [post_log, mpmc_blocking_queue.enqueue, Except.ok.injEq] at hr
        subst hr
        split at h
        · simp at h
        · simp only [Option.map_some', Option.some.injEq] at h
          subst h
          refine ⟨circular_q.wf_push_back hwf _, rfl, fun e he => ?_⟩
          rcases mem_contents_push_back hwf _ e he with h1 | h1
          · exact Or.inl h1
          · exact Or.inr ⟨self, by rw [h1]; rfl⟩
      · simp only [post_log_nowait, mpmc_blocking_queue.enqueue_nowait, Except.ok.injEq] at hr
        subst hr
        simp only [Option.some.injEq] at h
        subst h
        refine ⟨circular_q.wf_push_back hwf _, rfl, fun e he => ?_⟩
        rcases mem_contents_push_back hwf _ e he with h1 | h1
        · exact Or.inl h1
        · exact Or.inr ⟨self, by rw [h1]; rfl⟩
    · simp at h
  | flush self addr =>
    simp only [apply_op, weak_ptr_lock, async_logger.flush_, post_flush,
      mpmc_blocking_queue.enqueue] at h
    split at h
    · simp at h
    · simp only [Option.map_some', Option.some.injEq] at h
      subst h
      refine ⟨circular_q.wf_push_back hwf _, rfl, fun e he => ?_⟩
      rcases mem_contents_push_back hwf _ e he with h1 | h1
      · exact Or.inl h1
      · exact Or.inr ⟨self, by rw [h1]; rfl⟩
  | worker_dequeue =>
    obtain ⟨h, _⟩ := apply_op_worker_dequeue h
    subst h
    rw [process_next_msg_pool]
    exact ⟨mpmc_blocking_queue.wf_dequeue_for hwf _, rfl,
      fun e he => Or.inl (mem_contents_dequeue_for hwf _ e he)⟩

theorem run_ops_contents (loggers : Nat → async_logger) (ops : List pool_op) :
    ∀ {p p1 : thread_pool}, circular_q.WF p.q_.q_ → run_ops loggers p ops = some p1 →
      circular_q.WF p1.q_.q_ ∧ p1.threads_ = p.threads_ ∧
        ∀ e ∈ circular_q.contents p1.q_.q_,
          e ∈ circular_q.contents p.q_.q_ ∨
            ∃ op ∈ ops, ∃ owner, op.posted = some (owner, e) := by
  induction ops with
  | nil =>
    intro p p1 hwf h
    simp only [run_ops, Option.some.injEq] at h
    subst h
    exact ⟨hwf, rfl, fun e he => Or.inl he⟩
  | cons op rest ih =>
    intro p p1 hwf h
    simp only [run_ops] at h
    cases hs : apply_op loggers p op with
    | none => simp [hs] at h
    | some p2 =>
      simp only [hs, Option.bind_some] at h
      obtain ⟨hwf2, ht2, hc2⟩ := apply_op_contents loggers op hwf hs
      obtain ⟨hwf1, ht1, hc1⟩ := ih hwf2 h
      refine ⟨hwf1, ht1.trans ht2, fun e he => ?_⟩
      rcases hc1 e he with h1 | ⟨op1, hmem, owner, hp⟩
      · rcases hc2 e h1 with h3 | ⟨owner, hp⟩
        · exact Or.inl h3
        · exact Or.inr ⟨op, List.mem_cons_self _ _, owner, hp⟩
      · exact Or.inr ⟨op1, List.mem_cons_of_mem _ hmem, owner, hp⟩

theorem ctor_ok_queue {queue_size threads_n : Nat} {p0 : thread_pool}
    (h : (ctor queue_size threads_n).result = Except.ok p0) :
    p0.q_ = mpmc_blocking_queue.ctor queue_size ∧ p0.threads_.length = threads_n := by
  unfold ctor at h
  dsimp only at h
  split at h
  · simp at h
  · simp only [Except.ok.injEq] at h
    subst h
    exact ⟨rfl, emplace_workers_length threads_n⟩

theorem contents_ctor {T : Type} [Inhabited T] (C : Nat) :
    circular_q.contents (circular_q.ctor C : circular_q T) = [] :=
  circular_q.contents_eq_of_rep (circular_q.wf_ctor C) (circular_q.rep_ctor C)

end thread_pool

namespace thread_pool

theorem move_step_apply_handle (e : async_msg) (st : move_step) :
    (st.apply e).worker_ptr = e.worker_ptr ∧ (st.apply e).msg_type = e.msg_type := by
  cases st <;> exact ⟨rfl, rfl⟩

theorem process_next_msg_dequeued (heap : Nat → async_logger) (p : thread_pool)
    (e : async_msg) (h : (process_next_msg_ heap p).dequeued = some e) :
    p.q_.q_.empty = false ∧ e = p.q_.q_.front := by
  cases hne : p.q_.q_.empty with
  | true =>
    simp [process_next_msg_, mpmc_blocking_queue.dequeue_for, hne] at h
  | false =>
    refine ⟨rfl, ?_⟩
    unfold process_next_msg_ at h
    simp only [mpmc_blocking_queue.dequeue_for, hne, Bool.false_eq_true, if_false,
      Bool.not_true] at h
    split at h
    · split at h <;> simp only [Option.some.injEq] at h <;> exact h.symm
    · split at h <;> simp only [Option.some.injEq] at h <;> exact h.symm
    · simp only [Option.some.injEq] at h
      exact h.symm

theorem process_next_msg_backend (heap : Nat → async_logger) (p : thread_pool)
    (owner : Nat) (hne : p.q_.q_.empty = false)
    (hw : p.q_.q_.front.worker_ptr = some owner)
    (ht : p.q_.q_.front.msg_type = async_msg_type.log ∨
      p.q_.q_.front.msg_type = async_msg_type.flush) :
    (process_next_msg_ heap p).backend = [backend_call.sink_it owner p.q_.q_.front.tolog_msg] ∨
      (process_next_msg_ heap p).backend = [backend_call.flush owner] := by
  unfold process_next_msg_
  simp only [mpmc_blocking_queue.dequeue_for, hne, Bool.false_eq_true, if_false,
    Bool.not_true]
  rcases ht with ht | ht
  · left
    simp only [ht, hw]
  · right
    simp only [ht, hw]

/-- C7: in every state a pool reaches by `sink_it_` and `flush_` calls of async
loggers and by worker dequeues, every queued envelope is a Log or Flush
envelope posted by some logger and holds a non-null strong handle to that same
logger; a move of an envelope hands its handle and its type on unchanged; the
envelope a worker dequeues is the oldest queued one, with its handle, and the
backend operation is invoked on the logger behind that handle while the worker
holds the envelope; and the strong reference count of a logger is at least the
number of its envelopes in the queue. -/
theorem queued_envelope_holds_owner (loggers : Nat → async_logger)
    (queue_size threads_n : Nat) (p0 p : thread_pool) (ops : List pool_op)
    (h0 : (ctor queue_size threads_n).result = Except.ok p0)
    (hrun : run_ops loggers p0 ops = some p) :
    (∀ e ∈ circular_q.contents p.q_.q_, ∃ owner,
        (∃ op ∈ ops, op.posted = some (owner, e)) ∧ e.worker_ptr = some owner ∧
          (e.msg_type = async_msg_type.log ∨ e.msg_type = async_msg_type.flush)) ∧
      (∀ (e : async_msg) (st : move_step),
        (st.apply e).worker_ptr = e.worker_ptr ∧ (st.apply e).msg_type = e.msg_type) ∧
      (∀ (heap : Nat → async_logger) (e : async_msg),
        (process_next_msg_ heap p).dequeued = some e →
          circular_q.contents p.q_.q_ =
            e :: circular_q.contents (process_next_msg_ heap p).pool.q_.q_ ∧
          ∃ owner, e.worker_ptr = some owner ∧
            ((process_next_msg_ heap p).backend = [backend_call.sink_it owner e.tolog_msg] ∨
              (process_next_msg_ heap p).backend = [backend_call.flush owner])) ∧
      (∀ (ext : List Nat) (incoming : List async_msg) (owner : Nat),
        (circular_q.contents p.q_.q_).countP (async_msg.owned_by owner)
          ≤ use_count ext incoming p.q_ owner) := by
  obtain ⟨hq0, _⟩ := ctor_ok_queue h0
  have hwf0 : circular_q.WF p0.q_.q_ := by
    rw [hq0]
    exact circular_q.wf_ctor queue_size
  obtain ⟨hwf, _, hc⟩ := run_ops_contents loggers ops hwf0 hrun
  have hnil : circular_q.contents p0.q_.q_ = [] := by
    rw [hq0]
    exact contents_ctor queue_size
  have hown : ∀ e ∈ circular_q.contents p.q_.q_, ∃ owner,
      (∃ op ∈ ops, op.posted = some (owner, e)) ∧ e.worker_ptr = some owner ∧
        (e.msg_type = async_msg_type.log ∨ e.msg_type = async_msg_type.flush) := by
    intro e he
    rcases hc e he with h1 | ⟨op, hmem, owner, hp⟩
    · rw [hnil] at h1
      exact absurd h1 (List.not_mem_nil _)
    · exact ⟨owner, ⟨op, hmem, hp⟩, posted_owner hp⟩
  refine ⟨hown, move_step_apply_handle, ?_, ?_⟩
  · intro heap e he
    obtain ⟨hne, hfront⟩ := process_next_msg_dequeued heap p e he
    have hcont := mpmc_blocking_queue.contents_dequeue_for hwf hne (async_msg.default_ctor 0)
    have hpop : (p.q_.dequeue_for (async_msg.default_ctor 0)).popped_item = e := by
      rw [hfront]
      simp [mpmc_blocking_queue.dequeue_for, hne]
    rw [hpop] at hcont
    refine ⟨by rw [process_next_msg_pool]; exact hcont, ?_⟩
    obtain ⟨owner, _, hw, ht⟩ := hown e (by rw [hcont]; exact List.mem_cons_self _ _)
    refine ⟨owner, hw, ?_⟩
    rw [hfront] at hw ht ⊢
    exact process_next_msg_backend heap p owner hne hw ht
  · intro ext incoming owner
    have := countP_contents_le hwf (async_msg.owned_by owner)
    unfold use_count
    omega

/-- The owners of the two envelopes queued in `sample_pool`. -/
theorem queued_envelope_holds_owner_witness :
    ((ctor 2 1).result = Except.ok sample_pool0 ∧
        run_ops sample_loggers sample_pool0 sample_pool_ops = some sample_pool) ∧
      ((∀ e ∈ circular_q.contents sample_pool.q_.q_, ∃ owner,
          (∃ op ∈ sample_pool_ops, op.posted = some (owner, e)) ∧ e.worker_ptr = some owner ∧
            (e.msg_type = async_msg_type.log ∨ e.msg_type = async_msg_type.flush)) ∧
        (∀ (e : async_msg) (st : move_step),
          (st.apply e).worker_ptr = e.worker_ptr ∧ (st.apply e).msg_type = e.msg_type) ∧
        (∀ (heap : Nat → async_logger) (e : async_msg),
          (process_next_msg_ heap sample_pool).dequeued = some e →
            circular_q.contents sample_pool.q_.q_ =
              e :: circular_q.contents (process_next_msg_ heap sample_pool).pool.q_.q_ ∧
            ∃ owner, e.worker_ptr = some owner ∧
              ((process_next_msg_ heap sample_pool).backend
                  = [backend_call.sink_it owner e.tolog_msg] ∨
                (process_next_msg_ heap sample_pool).backend = [backend_call.flush owner])) ∧
        (∀ (ext : List Nat) (incoming : List async_msg) (owner : Nat),
          (circular_q.contents sample_pool.q_.q_).countP (async_msg.owned_by owner)
            ≤ use_count ext incoming sample_pool.q_ owner)) :=
  ⟨⟨rfl, rfl⟩,
    queued_envelope_holds_owner sample_loggers 2 1 sample_pool0 sample_pool sample_pool_ops
      rfl rfl⟩

end thread_pool

/-! ### Errors raised by sinks on the worker -/

namespace thread_pool

theorem log_loop_raises (msg : log_msg) (l : List sinks.sink) (s : sinks.sink) (hs : s ∈ l)
    (hl : s.should_log msg.lvl = true) (hr : (s.log_raises msg).isSome = true) :
    ((async_logger.log_loop msg l).raised).isSome = true := by
  induction l with
  | nil => exact absurd hs (List.not_mem_nil _)
  | cons a rest ih =>
    unfold async_logger.log_loop
    rcases List.mem_cons.1 hs with h | h
    · subst h
      rw [if_pos hl]
      cases hq : s.log_raises msg with
      | none => rw [hq] at hr; exact absurd hr (by decide)
      | some e => rfl
    · split
      · split
        · rfl
        · exact ih h
      · exact ih h

theorem flush_loop_raises (l : List sinks.sink) (s : sinks.sink) (hs : s ∈ l)
    (hr : s.flush_raises.isSome = true) :
    ((async_logger.flush_loop l).raised).isSome = true := by
  induction l with
  | nil => exact absurd hs (List.not_mem_nil _)
  | cons a rest ih =>
    unfold async_logger.flush_loop
    rcases List.mem_cons.1 hs with h | h
    · subst h
      cases hq : s.flush_raises with
      | none => rw [hq] at hr; exact absurd hr (by decide)
      | some e => rfl
    · split
      · rfl
      · exact ih h

theorem backend_sink_it_raises (lg : async_logger) (msg : log_msg)
    (h : ((async_logger.log_loop msg lg.sinks_).raised).isSome = true) :
    ((lg.backend_sink_it_ msg).raised).isSome = true := by
  unfold async_logger.backend_sink_it_
  cases hq : (async_logger.log_loop msg lg.sinks_).raised with
  | none => rw [hq] at h; exact absurd h (by decide)
  | some e => simp [hq]

theorem process_next_msg_log (heap : Nat → async_logger) (p : thread_pool) (owner : Nat)
    (hne : p.q_.q_.empty = false) (hw : p.q_.q_.front.worker_ptr = some owner)
    (ht : p.q_.q_.front.msg_type = async_msg_type.log) :
    (process_next_msg_ heap p).result =
        (match ((heap owner).backend_sink_it_ p.q_.q_.front.tolog_msg).raised with
          | some e => Except.error e
          | none => Except.ok true) ∧
      (process_next_msg_ heap p).dequeued = some p.q_.q_.front := by
  unfold process_next_msg_
  simp only [mpmc_blocking_queue.dequeue_for, hne, Bool.false_eq_true, if_false,
    Bool.not_true, ht, hw, and_self]

theorem process_next_msg_flush (heap : Nat → async_logger) (p : thread_pool) (owner : Nat)
    (hne : p.q_.q_.empty = false) (hw : p.q_.q_.front.worker_ptr = some owner)
    (ht : p.q_.q_.front.msg_type = async_msg_type.flush) :
    (process_next_msg_ heap p).result =
        (match ((heap owner).backend_flush_).raised with
          | some e => Except.error e
          | none => Except.ok true) ∧
      (process_next_msg_ heap p).dequeued = some p.q_.q_.front := by
  unfold process_next_msg_
  simp only [mpmc_blocking_queue.dequeue_for, hne, Bool.false_eq_true, if_false,
    Bool.not_true, ht, hw, and_self]

theorem worker_loop_raised (heap : Nat → async_logger) (p : thread_pool) (fuel : Nat)
    (err : exception) (h : (process_next_msg_ heap p).result = Except.error err) :
    (worker_loop_ heap (fuel + 1) p).status = loop_status.raised err ∧
      (worker_loop_ heap (fuel + 1) p).dequeued = (process_next_msg_ heap p).dequeued.toList ∧
      worker_thread heap (fuel + 1) p = thread_status.process_terminated := by
  have h1 : (worker_loop_ heap (fuel + 1) p).status = loop_status.raised err := by
    simp only [worker_loop_, h]
  refine ⟨h1, ?_, ?_⟩
  · simp only [worker_loop_, h]
  · simp only [worker_thread, h1]

/-- C9, as the code has it: there is no handler on the worker path.  While a
worker processes a Log or Flush envelope whose owner handle is set, an error
raised by the backend call (and the backend call raises one as soon as a sink
it calls does) leaves `process_next_msg_`, which then returns no value, and
leaves `worker_loop_`: the worker has dequeued this envelope and dequeues no
further one, and the error leaving the thread function ends the process.  When
the backend call returns normally, `process_next_msg_` returns true. -/
theorem sink_error_leaves_worker_loop (heap : Nat → async_logger) (p : thread_pool)
    (owner : Nat) (hne : p.q_.q_.empty = false)
    (hw : p.q_.q_.front.worker_ptr = some owner) :
    (p.q_.q_.front.msg_type = async_msg_type.log →
        (∀ s ∈ (heap owner).sinks_, s.should_log p.q_.q_.front.lvl = true →
          (s.log_raises p.q_.q_.front.tolog_msg).isSome = true →
          (((heap owner).backend_sink_it_ p.q_.q_.front.tolog_msg).raised).isSome = true) ∧
        (∀ err, ((heap owner).backend_sink_it_ p.q_.q_.front.tolog_msg).raised = some err →
          (process_next_msg_ heap p).result = Except.error err ∧
          ∀ fuel, (worker_loop_ heap (fuel + 1) p).status = loop_status.raised err ∧
            (worker_loop_ heap (fuel + 1) p).dequeued = [p.q_.q_.front] ∧
            worker_thread heap (fuel + 1) p = thread_status.process_terminated) ∧
        (((heap owner).backend_sink_it_ p.q_.q_.front.tolog_msg).raised = none →
          (process_next_msg_ heap p).result = Except.ok true)) ∧
      (p.q_.q_.front.msg_type = async_msg_type.flush →
        (∀ s ∈ (heap owner).sinks_, s.flush_raises.isSome = true →
          (((heap owner).backend_flush_).raised).isSome = true) ∧
        (∀ err, ((heap owner).backend_flush_).raised = some err →
          (process_next_msg_ heap p).result = Except.error err ∧
          ∀ fuel, (worker_loop_ heap (fuel + 1) p).status = loop_status.raised err ∧
            (worker_loop_ heap (fuel + 1) p).dequeued = [p.q_.q_.front] ∧
            worker_thread heap (fuel + 1) p = thread_status.process_terminated) ∧
        (((heap owner).backend_flush_).raised = none →
          (process_next_msg_ heap p).result = Except.ok true)) := by
  constructor
  · intro ht
    obtain ⟨hres, hdeq⟩ := process_next_msg_log heap p owner hne hw ht
    refine ⟨?_, ?_, ?_⟩
    · intro s hs hl hr
      exact backend_sink_it_raises _ _ (log_loop_raises _ _ s hs hl hr)
    · intro err herr
      rw [herr] at hres
      refine ⟨hres, fun fuel => ?_⟩
      obtain ⟨h1, h2, h3⟩ := worker_loop_raised heap p fuel err hres
      rw [hdeq] at h2
      exact ⟨h1, h2, h3⟩
    · intro hnone
      rw [hnone] at hres
      exact hres
  · intro ht
    obtain ⟨hres, hdeq⟩ := process_next_msg_flush heap p owner hne hw ht
    refine ⟨?_, ?_, ?_⟩
    · intro s hs hr
      exact flush_loop_raises _ s hs hr
    · intro err herr
      rw [herr] at hres
      refine ⟨hres, fun fuel => ?_⟩
      obtain ⟨h1, h2, h3⟩ := worker_loop_raised heap p fuel err hres
      rw [hdeq] at h2
      exact ⟨h1, h2, h3⟩
    · intro hnone
      rw [hnone] at hres
      exact hres

/-- The propagation of a sink error at `sample_pool`, whose oldest envelope is
the Log envelope of logger 7. -/
theorem sink_error_leaves_worker_loop_witness :
    (sample_pool.q_.q_.empty = false ∧ sample_pool.q_.q_.front.worker_ptr = some 7) ∧
      ((sample_pool.q_.q_.front.msg_type = async_msg_type.log →
          (∀ s ∈ (sample_loggers 7).sinks_,
            s.should_log sample_pool.q_.q_.front.lvl = true →
            (s.log_raises sample_pool.q_.q_.front.tolog_msg).isSome = true →
            (((sample_loggers 7).backend_sink_it_
              sample_pool.q_.q_.front.tolog_msg).raised).isSome = true) ∧
          (∀ err, ((sample_loggers 7).backend_sink_it_
              sample_pool.q_.q_.front.tolog_msg).raised = some err →
            (process_next_msg_ sample_loggers sample_pool).result = Except.error err ∧
            ∀ fuel,
              (worker_loop_ sample_loggers (fuel + 1) sample_pool).status
                = loop_status.raised err ∧
              (worker_loop_ sample_loggers (fuel + 1) sample_pool).dequeued
                = [sample_pool.q_.q_.front] ∧
              worker_thread sample_loggers (fuel + 1) sample_pool
                = thread_status.process_terminated) ∧
          (((sample_loggers 7).backend_sink_it_
              sample_pool.q_.q_.front.tolog_msg).raised = none →
            (process_next_msg_ sample_loggers sample_pool).result = Except.ok true)) ∧
        (sample_pool.q_.q_.front.msg_type = async_msg_type.flush →
          (∀ s ∈ (sample_loggers 7).sinks_, s.flush_raises.isSome = true →
            (((sample_loggers 7).backend_flush_).raised).isSome = true) ∧
          (∀ err, ((sample_loggers 7).backend_flush_).raised = some err →
            (process_next_msg_ sample_loggers sample_pool).result = Except.error err ∧
            ∀ fuel,
              (worker_loop_ sample_loggers (fuel + 1) sample_pool).status
                = loop_status.raised err ∧
              (worker_loop_ sample_loggers (fuel + 1) sample_pool).dequeued
                = [sample_pool.q_.q_.front] ∧
              worker_thread sample_loggers (fuel + 1) sample_pool
                = thread_status.process_terminated) ∧
          (((sample_loggers 7).backend_flush_).raised = none →
            (process_next_msg_ sample_loggers sample_pool).result = Except.ok true))) :=
  ⟨⟨rfl, rfl⟩, sink_error_leaves_worker_loop sample_loggers sample_pool 7 rfl rfl⟩

/-- C9 fails on the code.  Logger 7 has posted a Log envelope and a Flush
envelope (`sample_pool`) and its sink throws from `log`.  The worker dequeues
the Log envelope; `process_next_msg_` does not return true, the error leaves
it and `worker_loop_`; the Flush envelope is never dequeued and the process is
terminated. -/
theorem sink_error_not_contained :
    (run_ops sample_loggers sample_pool0 sample_pool_ops = some sample_pool ∧
        sample_pool.q_.q_.front.msg_type = async_msg_type.log ∧
        failing_sink ∈ (sample_loggers 7).sinks_ ∧
        failing_sink.should_log sample_pool.q_.q_.front.lvl = true ∧
        (failing_sink.log_raises sample_pool.q_.q_.front.tolog_msg).isSome = true) ∧
      (process_next_msg_ sample_loggers sample_pool).result ≠ Except.ok true ∧
      (process_next_msg_ sample_loggers sample_pool).result =
        Except.error (exception.runtime_error
          "rotating_file_sink: Failed to create new file after rotation: logs/app.log") ∧
      (worker_loop_ sample_loggers 3 sample_pool).status =
        loop_status.raised (exception.runtime_error
          "rotating_file_sink: Failed to create new file after rotation: logs/app.log") ∧
      (worker_loop_ sample_loggers 3 sample_pool).dequeued.length = 1 ∧
      circular_q.contents (worker_loop_ sample_loggers 3 sample_pool).pool.q_.q_ =
        [async_msg.of_type_worker async_msg_type.flush (some 7) 200] ∧
      worker_thread sample_loggers 3 sample_pool = thread_status.process_terminated := by
  refine ⟨⟨rfl, rfl, by simp [sample_loggers], rfl, rfl⟩, ?_, rfl, rfl, rfl, rfl, rfl⟩
  intro h
  have h2 : (process_next_msg_ sample_loggers sample_pool).result =
      Except.error (exception.runtime_error
        "rotating_file_sink: Failed to create new file after rotation: logs/app.log") := rfl
  rw [h2] at h
  exact absurd h (by simp)

end thread_pool

/-! ### Shutdown -/

namespace thread_pool

theorem flush_loop_ok (l : List sinks.sink) (h : ∀ s ∈ l, s.flush_raises = none) :
    async_logger.flush_loop l =
      { calls := l.map (fun s => sink_call.flush s.id), raised := none } := by
  induction l with
  | nil => rfl
  | cons a rest ih =>
    have ha : a.flush_raises = none := h a (List.mem_cons_self _ _)
    have hr := ih (fun s hs => h s (List.mem_cons_of_mem _ hs))
    simp [async_logger.flush_loop, ha, hr]

end thread_pool

namespace thread_pool

theorem process_next_msg_false (heap : Nat → async_logger) (p : thread_pool)
    (h : (process_next_msg_ heap p).result = Except.ok false) :
    p.q_.q_.empty = false ∧ p.q_.q_.front.msg_type = async_msg_type.terminate := by
  cases hne : p.q_.q_.empty with
  | true =>
    simp [process_next_msg_, mpmc_blocking_queue.dequeue_for, hne] at h
  | false =>
    refine ⟨rfl, ?_⟩
    unfold process_next_msg_ at h
    simp only [mpmc_blocking_queue.dequeue_for, hne, Bool.false_eq_true, if_false,
      Bool.not_true] at h
    cases ht : p.q_.q_.front.msg_type with
    | terminate => rfl
    | log =>
      simp only [ht] at h
      split at h
      · split at h <;> simp at h
      · simp at h
    | flush =>
      simp only [ht] at h
      split at h
      · split at h <;> simp at h
      · simp at h

theorem process_next_msg_contents (heap : Nat → async_logger) (p : thread_pool)
    (hwf : circular_q.WF p.q_.q_) :
    circular_q.WF (process_next_msg_ heap p).pool.q_.q_ ∧
      (process_next_msg_ heap p).pool.threads_ = p.threads_ ∧
      circular_q.contents p.q_.q_ =
        (process_next_msg_ heap p).dequeued.toList ++
          circular_q.contents (process_next_msg_ heap p).pool.q_.q_ := by
  rw [process_next_msg_pool]
  refine ⟨mpmc_blocking_queue.wf_dequeue_for hwf _, rfl, ?_⟩
  cases hne : p.q_.q_.empty with
  | true =>
    have h1 : (process_next_msg_ heap p).dequeued = none := by
      simp [process_next_msg_, mpmc_blocking_queue.dequeue_for, hne]
    have h2 : (p.q_.dequeue_for (async_msg.default_ctor 0)).q = p.q_ := by
      simp [mpmc_blocking_queue.dequeue_for, hne]
    rw [h1, h2]
    rfl
  | false =>
    have h1 : (process_next_msg_ heap p).dequeued
        = some (p.q_.dequeue_for (async_msg.default_ctor 0)).popped_item := by
      unfold process_next_msg_
      simp only [mpmc_blocking_queue.dequeue_for, hne, Bool.false_eq_true, if_false,
        Bool.not_true]
      split
      · split <;> rfl
      · split <;> rfl
      · rfl
    rw [h1]
    exact mpmc_blocking_queue.contents_dequeue_for hwf hne _

end thread_pool

namespace shutdown_state

theorem max_items_dequeue_for {T : Type} [Movable T] (q : mpmc_blocking_queue T) (d : T) :
    (q.dequeue_for d).q.q_.max_items_ = q.q_.max_items_ := by
  unfold mpmc_blocking_queue.dequeue_for
  split <;> rfl

theorem not_full_dequeue_for {T : Type} [Movable T] {q : mpmc_blocking_queue T}
    (hwf : circular_q.WF q.q_) (hm : 2 ≤ q.q_.max_items_) (d : T) :
    (q.dequeue_for d).q.q_.full = false := by
  have hwf1 := mpmc_blocking_queue.wf_dequeue_for hwf d
  have hmax := max_items_dequeue_for q d
  have hle := circular_q.size_le hwf
  cases hf : (q.dequeue_for d).q.q_.full with
  | false => rfl
  | true =>
    have hsz := (circular_q.full_iff hwf1).1 hf
    rw [hmax] at hsz
    cases hne : q.q_.empty with
    | true =>
      have h2 : (q.dequeue_for d).q = q := by
        simp [mpmc_blocking_queue.dequeue_for, hne]
      rw [h2] at hsz
      have := (circular_q.empty_iff hwf).1 hne
      omega
    | false =>
      have h3 : (q.dequeue_for d).q.q_.size = q.q_.size - 1 := by
        simp only [mpmc_blocking_queue.dequeue_for, hne, Bool.false_eq_true, if_false]
        exact circular_q.size_pop_front (mpmc_blocking_queue.wf_set_head hwf _) hne
      have := circular_q.size_pos_of_not_empty hwf hne
      omega

theorem replicate_cons_eq {α : Type} {c x : α} {rest : List α}
    (h : c :: rest = List.replicate (rest.length + 1) x) :
    c = x ∧ rest = List.replicate rest.length x := by
  rw [List.replicate_succ] at h
  exact ⟨(List.cons.inj h).1, (List.cons.inj h).2⟩

end shutdown_state

namespace thread_pool

theorem apply_op_max_items (loggers : Nat → async_logger) {p p1 : thread_pool} (op : pool_op)
    (h : apply_op loggers p op = some p1) :
    p1.q_.q_.max_items_ = p.q_.q_.max_items_ := by
  cases op with
  | sink_it self mem addr msg =>
    simp only [apply_op, weak_ptr_lock, async_logger.sink_it_] at h
    split at h
    · next r hr =>
      split at hr
      · simp only [post_log, mpmc_blocking_queue.enqueue, Except.ok.injEq] at hr
        subst hr
        split at h
        · simp at h
        · simp only [Option.map_some', Option.some.injEq] at h
          subst h
          exact circular_q.max_items_push_back _ _
      · simp only [post_log_nowait, mpmc_blocking_queue.enqueue_nowait, Except.ok.injEq] at hr
        subst hr
        simp only [Option.some.injEq] at h
        subst h
        exact circular_q.max_items_push_back _ _
    · simp at h
  | flush self addr =>
    simp only [apply_op, weak_ptr_lock, async_logger.flush_, post_flush,
      mpmc_blocking_queue.enqueue] at h
    split at h
    · simp at h
    · simp only [Option.map_some', Option.some.injEq] at h
      subst h
      exact circular_q.max_items_push_back _ _
  | worker_dequeue =>
    obtain ⟨h, _⟩ := apply_op_worker_dequeue h
    subst h
    rw [process_next_msg_pool]
    exact shutdown_state.max_items_dequeue_for _ _

theorem run_ops_max_items (loggers : Nat → async_logger) (ops : List pool_op) :
    ∀ {p p1 : thread_pool}, run_ops loggers p ops = some p1 →
      p1.q_.q_.max_items_ = p.q_.q_.max_items_ := by
  induction ops with
  | nil =>
    intro p p1 h
    simp only [run_ops, Option.some.injEq] at h
    subst h
    rfl
  | cons op rest ih =>
    intro p p1 h
    simp only [run_ops] at h
    cases hs : apply_op loggers p op with
    | none => simp [hs] at h
    | some p2 =>
      simp only [hs, Option.bind_some] at h
      exact (ih h).trans (apply_op_max_items loggers op hs)

end thread_pool

namespace thread_pool

theorem log_loop_quiet (msg : log_msg) (l : List sinks.sink)
    (h : ∀ s ∈ l, s.log_raises msg = none) : (async_logger.log_loop msg l).raised = none := by
  induction l with
  | nil => rfl
  | cons a rest ih =>
    have ha : a.log_raises msg = none := h a (List.mem_cons_self _ _)
    have hr := ih (fun s hs => h s (List.mem_cons_of_mem _ hs))
    unfold async_logger.log_loop
    split
    · simp only [ha]
      exact hr
    · exact hr

theorem envelope_backend_quiet {heap : Nat → async_logger} (hq : no_sink_throws heap)
    (e : async_msg) : (envelope_backend heap e).raised = none := by
  unfold envelope_backend
  split
  · split
    · next w _ =>
      have h1 : (async_logger.log_loop e.tolog_msg (heap w).sinks_).raised = none :=
        log_loop_quiet _ _ (fun s hs => (hq w s hs).1 _)
      have h2 : (heap w).backend_flush_ =
          { calls := (heap w).sinks_.map (fun s => sink_call.flush s.id), raised := none } :=
        flush_loop_ok _ (fun s hs => (hq w s hs).2)
      unfold async_logger.backend_sink_it_
      simp only [h1]
      split
      · rw [h2]
      · exact h1
    · rfl
  · split
    · next w _ =>
      have h2 : (heap w).backend_flush_ =
          { calls := (heap w).sinks_.map (fun s => sink_call.flush s.id), raised := none } :=
        flush_loop_ok _ (fun s hs => (hq w s hs).2)
      rw [h2]
    · rfl
  · rfl

/-- What `process_next_msg_` does, read off the queue: on an empty queue the
dequeue times out; otherwise the oldest envelope is dequeued, the sink calls
are those of its backend operation, and the result is the exception of that
operation, or false for a Terminate envelope and true for any other. -/
theorem process_next_msg_spec (heap : Nat → async_logger) (p : thread_pool) :
    (p.q_.q_.empty = true →
        (process_next_msg_ heap p).dequeued = none ∧
          (process_next_msg_ heap p).backend = [] ∧
          (process_next_msg_ heap p).calls = [] ∧
          (process_next_msg_ heap p).result = Except.ok true ∧
          (process_next_msg_ heap p).pool = p) ∧
      (p.q_.q_.empty = false →
        (process_next_msg_ heap p).dequeued = some p.q_.q_.front ∧
          (process_next_msg_ heap p).calls = (envelope_backend heap p.q_.q_.front).calls ∧
          (process_next_msg_ heap p).result =
            (match (envelope_backend heap p.q_.q_.front).raised with
              | some ex => Except.error ex
              | none =>
                Except.ok (decide (p.q_.q_.front.msg_type ≠ async_msg_type.terminate)))) := by
  constructor
  · intro hemp
    simp [process_next_msg_, mpmc_blocking_queue.dequeue_for, hemp]
  · intro hemp
    unfold process_next_msg_ envelope_backend
    simp only [mpmc_blocking_queue.dequeue_for, hemp, Bool.false_eq_true, if_false,
      Bool.not_true]
    cases ht : p.q_.q_.front.msg_type with
    | log =>
      cases hw : p.q_.q_.front.worker_ptr with
      | none => simp
      | some w =>
        simp only [true_and]
        split <;> simp
    | flush =>
      cases hw : p.q_.q_.front.worker_ptr with
      | none => simp
      | some w =>
        simp only [true_and]
        split <;> simp
    | terminate => simp

theorem process_next_msg_terminates (heap : Nat → async_logger) (p : thread_pool) (b : Bool)
    (h : (process_next_msg_ heap p).result = Except.ok b) :
    (process_next_msg_ heap p).dequeued.toList.countP async_msg.is_terminate
      = if b then 0 else 1 := by
  obtain ⟨h1, h2⟩ := process_next_msg_spec heap p
  cases hemp : p.q_.q_.empty with
  | true =>
    obtain ⟨hd, _, _, hr, _⟩ := h1 hemp
    rw [hr] at h
    simp only [Except.ok.injEq] at h
    subst h
    rw [hd]
    rfl
  | false =>
    obtain ⟨hd, _, hr⟩ := h2 hemp
    rw [hr] at h
    rw [hd]
    cases hx : (envelope_backend heap p.q_.q_.front).raised with
    | some ex => simp [hx] at h
    | none =>
      simp only [hx, Except.ok.injEq] at h
      subst h
      by_cases ht : p.q_.q_.front.msg_type = async_msg_type.terminate
      · simp [async_msg.is_terminate, ht]
      · simp [async_msg.is_terminate, ht]

theorem process_next_msg_quiet {heap : Nat → async_logger} (hq : no_sink_throws heap)
    (p : thread_pool) : ∃ b, (process_next_msg_ heap p).result = Except.ok b := by
  obtain ⟨h1, h2⟩ := process_next_msg_spec heap p
  cases hemp : p.q_.q_.empty with
  | true => exact ⟨true, (h1 hemp).2.2.2.1⟩
  | false =>
    obtain ⟨_, _, hr⟩ := h2 hemp
    rw [envelope_backend_quiet hq] at hr
    exact ⟨_, hr⟩

theorem process_next_msg_overrun (heap : Nat → async_logger) (p : thread_pool) :
    (process_next_msg_ heap p).pool.overrun_counter = p.overrun_counter := by
  rw [process_next_msg_pool]
  exact mpmc_blocking_queue.overrun_dequeue_for _ _

end thread_pool

namespace shutdown_state

theorem step_worker_dequeue {heap : Nat → async_logger} {st st1 : shutdown_state}
    (h : st.step heap shutdown_step.worker_dequeue = some st1) :
    st.exited < st.pool.threads_.length ∧
      ∃ b, (thread_pool.process_next_msg_ heap st.pool).result = Except.ok b ∧
        st1 = { st with
          pool := (thread_pool.process_next_msg_ heap st.pool).pool
          dequeued := st.dequeued ++ (thread_pool.process_next_msg_ heap st.pool).dequeued.toList
          exited := st.exited + (if b then 0 else 1) } := by
  simp only [step] at h
  by_cases hlt : st.exited < st.pool.threads_.length
  · simp only [hlt, if_true] at h
    refine ⟨hlt, ?_⟩
    cases hr : (thread_pool.process_next_msg_ heap st.pool).result with
    | error e => simp [hr] at h
    | ok b =>
      cases b with
      | true =>
        simp only [hr, Option.some.injEq] at h
        exact ⟨true, rfl, h.symm⟩
      | false =>
        simp only [hr, Option.some.injEq] at h
        exact ⟨false, rfl, h.symm⟩
  · simp [hlt] at h

theorem step_sink_it (heap : Nat → async_logger) (st : shutdown_state) (self : Nat)
    (mem : memory) (addr : Nat) (msg : log_msg) :
    st.step heap (shutdown_step.sink_it self mem addr msg) =
      some { st with
        raised := st.raised ++
          [exception.runtime_error
            "async_logger::sink_it_: thread pool doesn't exist anymore"] } := rfl

theorem step_flush (heap : Nat → async_logger) (st : shutdown_state) (self addr : Nat) :
    st.step heap (shutdown_step.flush self addr) =
      some { st with
        raised := st.raised ++
          [exception.runtime_error
            "async_logger::flush: thread pool doesn't exist anymore"] } := rfl

/-- Every step of a shutdown preserves `Inv`, and the calls of loggers are the
steps that throw. -/
theorem Inv.step {n addr m ov : Nat} {pre : List async_msg} {heap : Nat → async_logger}
    {st st1 : shutdown_state} (hI : Inv n addr m ov pre st) (s : shutdown_step)
    (hs : st.step heap s = some st1) :
    Inv n addr m ov pre st1 ∧
      st1.raised.length = st.raised.length + logger_calls [s] := by
  cases s with
  | dtor_enqueue =>
    unfold shutdown_state.step at hs
    dsimp only at hs
    cases hpd : st.pending with
    | nil => simp [hpd] at hs
    | cons c rest =>
      have hp := hI.pending
      have hle := hI.pending_le
      have hA := hI.fifo
      rw [hpd] at hp hle hA
      simp only [List.length_cons] at hp hle hA
      obtain ⟨hc, hrest⟩ := replicate_cons_eq hp
      subst hc
      simp only [hpd, mpmc_blocking_queue.step, mpmc_blocking_queue.enqueue] at hs
      cases hf : st.pool.q_.q_.full with
      | true => simp [hf] at hs
      | false =>
        simp only [hf, Bool.false_eq_true, if_false, Option.map_some',
          Option.some.injEq] at hs
        subst hs
        refine ⟨⟨circular_q.wf_push_back hI.wf _, hI.threads, ?_, hrest, ?_, ?_, ?_, hI.exited⟩,
          rfl⟩
        · show (st.pool.q_.q_.push_back _).max_items_ = m
          rw [circular_q.max_items_push_back]
          exact hI.slots
        · show rest.length ≤ n
          omega
        · show st.dequeued ++ circular_q.contents (st.pool.q_.q_.push_back _) =
            pre ++ List.replicate (n - rest.length) _
          have hk : n - rest.length = n - (rest.length + 1) + 1 := by omega
          rw [contents_push_not_full hI.wf hf, ← List.append_assoc, hA, List.append_assoc,
            ← List.replicate_succ', hk]
        · show (st.pool.q_.q_.push_back _).overrun_counter = ov
          rw [circular_q.overrun_push_back, hf]
          exact hI.overrun
  | worker_dequeue =>
    obtain ⟨_, b, hb, hst⟩ := step_worker_dequeue hs
    subst hst
    obtain ⟨h1, h2, h3⟩ := thread_pool.process_next_msg_contents heap st.pool hI.wf
    refine ⟨⟨h1, (congrArg List.length h2).trans hI.threads, ?_, hI.pending, hI.pending_le,
      ?_, ?_, ?_⟩, rfl⟩
    · show (thread_pool.process_next_msg_ heap st.pool).pool.q_.q_.max_items_ = m
      rw [thread_pool.process_next_msg_pool]
      exact (max_items_dequeue_for _ _).trans hI.slots
    · show (st.dequeued ++ (thread_pool.process_next_msg_ heap st.pool).dequeued.toList) ++
        circular_q.contents (thread_pool.process_next_msg_ heap st.pool).pool.q_.q_ = _
      rw [List.append_assoc, ← h3]
      exact hI.fifo
    · show (thread_pool.process_next_msg_ heap st.pool).pool.overrun_counter = ov
      rw [thread_pool.process_next_msg_overrun]
      exact hI.overrun
    · show st.exited + (if b then 0 else 1) =
        (st.dequeued ++ (thread_pool.process_next_msg_ heap st.pool).dequeued.toList).countP
          async_msg.is_terminate
      rw [List.countP_append, thread_pool.process_next_msg_terminates heap st.pool b hb,
        hI.exited]
  | sink_it self mem a msg =>
    rw [step_sink_it] at hs
    simp only [Option.some.injEq] at hs
    subst hs
    exact ⟨⟨hI.wf, hI.threads, hI.slots, hI.pending, hI.pending_le, hI.fifo, hI.overrun,
      hI.exited⟩, by simp [logger_calls]⟩
  | flush self a =>
    rw [step_flush] at hs
    simp only [Option.some.injEq] at hs
    subst hs
    exact ⟨⟨hI.wf, hI.threads, hI.slots, hI.pending, hI.pending_le, hI.fifo, hI.overrun,
      hI.exited⟩, by simp [logger_calls]⟩

theorem logger_calls_cons (s : shutdown_step) (rest : List shutdown_step) :
    logger_calls (s :: rest) = logger_calls [s] + logger_calls rest := by
  cases s <;> simp [logger_calls] <;> omega

theorem Inv.run {n addr m ov : Nat} {pre : List async_msg} {heap : Nat → async_logger}
    (sched : List shutdown_step) :
    ∀ {st st1 : shutdown_state}, Inv n addr m ov pre st → run heap st sched = some st1 →
      Inv n addr m ov pre st1 ∧
        st1.raised.length = st.raised.length + logger_calls sched := by
  induction sched with
  | nil =>
    intro st st1 hI h
    simp only [shutdown_state.run, Option.some.injEq] at h
    subst h
    exact ⟨hI, rfl⟩
  | cons s rest ih =>
    intro st st1 hI h
    simp only [shutdown_state.run] at h
    cases hs : st.step heap s with
    | none => simp [hs] at h
    | some st2 =>
      simp only [hs, Option.bind_some] at h
      obtain ⟨hI2, hr2⟩ := hI.step s hs
      obtain ⟨hI1, hr1⟩ := ih hI2 h
      refine ⟨hI1, ?_⟩
      have := logger_calls_cons s rest
      omega

end shutdown_state

namespace shutdown_state

theorem contents_nil_of_empty {T : Type} [Inhabited T] {q : circular_q T}
    (hwf : circular_q.WF q) (hemp : q.empty = true) : circular_q.contents q = [] := by
  obtain ⟨l, hl⟩ := mpmc_blocking_queue.rep_exists hwf
  rw [circular_q.contents_eq_of_rep hwf hl, circular_q.rep_nil_of_empty hwf hl hemp]

/-- The length of the queue after one `process_next_msg_`. -/
theorem length_after_dequeue (heap : Nat → async_logger) (p : thread_pool)
    (hwf : circular_q.WF p.q_.q_) :
    (circular_q.contents (thread_pool.process_next_msg_ heap p).pool.q_.q_).length
      = (circular_q.contents p.q_.q_).length - 1 := by
  obtain ⟨_, _, h3⟩ := thread_pool.process_next_msg_contents heap p hwf
  obtain ⟨h1, h2⟩ := thread_pool.process_next_msg_spec heap p
  cases hemp : p.q_.q_.empty with
  | true =>
    rw [(h1 hemp).2.2.2.2, contents_nil_of_empty hwf hemp]
    rfl
  | false =>
    rw [(h2 hemp).1] at h3
    rw [h3]
    simp

end shutdown_state

namespace thread_pool

end thread_pool

namespace thread_pool

end thread_pool

/-! ### Terminate envelopes and the calls of loggers during a shutdown -/

namespace thread_pool

end thread_pool

/-! ### Consecutive flushes -/

namespace thread_pool

theorem flush_loop_calls_of_ok (l : List sinks.sink)
    (h : (async_logger.flush_loop l).raised = none) :
    (async_logger.flush_loop l).calls = l.map (fun s => sink_call.flush s.id) := by
  induction l with
  | nil => rfl
  | cons a rest ih =>
    unfold async_logger.flush_loop at h ⊢
    cases ha : a.flush_raises with
    | some e => simp [ha] at h
    | none =>
      simp only [ha] at h ⊢
      rw [List.map_cons, ih h]

theorem envelope_backend_flush (heap : Nat → async_logger) (self a : Nat) :
    envelope_backend heap (async_msg.of_type_worker async_msg_type.flush (some self) a)
      = (heap self).backend_flush_ := rfl

/-- What a worker's `process_next_msg_` that returns leaves behind: the
envelope it dequeued, if any, was the oldest queued one, its backend operation
did not throw, and the sink calls are those of that operation. -/
theorem process_next_msg_trace (heap : Nat → async_logger) (p : thread_pool)
    (hwf : circular_q.WF p.q_.q_) (b : Bool)
    (hb : (process_next_msg_ heap p).result = Except.ok b) :
    circular_q.contents p.q_.q_ =
        (process_next_msg_ heap p).dequeued.toList ++
          circular_q.contents (process_next_msg_ heap p).pool.q_.q_ ∧
      (process_next_msg_ heap p).calls =
        (process_next_msg_ heap p).dequeued.toList.flatMap
          (fun e => (envelope_backend heap e).calls) ∧
      ∀ e ∈ (process_next_msg_ heap p).dequeued.toList, (envelope_backend heap e).raised = none := by
  obtain ⟨_, _, h3⟩ := process_next_msg_contents heap p hwf
  obtain ⟨h1, h2⟩ := process_next_msg_spec heap p
  refine ⟨h3, ?_, ?_⟩
  · cases hemp : p.q_.q_.empty with
    | true =>
      obtain ⟨hd, _, hc, _, _⟩ := h1 hemp
      rw [hd, hc]
      rfl
    | false =>
      obtain ⟨hd, hc, _⟩ := h2 hemp
      rw [hd, hc]
      simp
  · cases hemp : p.q_.q_.empty with
    | true =>
      rw [(h1 hemp).1]
      intro e he
      exact absurd he (List.not_mem_nil _)
    | false =>
      obtain ⟨hd, _, hr⟩ := h2 hemp
      rw [hd]
      intro e he
      simp only [Option.toList_some, List.mem_singleton] at he
      subst he
      rw [hr] at hb
      cases hx : (envelope_backend heap p.q_.q_.front).raised with
      | none => rfl
      | some ex => simp [hx] at hb

/-- One call of a sequence of flushes of the logger `self` and worker
dequeues. -/
theorem flush_or_dequeue_step (loggers : Nat → async_logger) (self : Nat)
    {p p1 : thread_pool} {d : List async_msg} {c : List sink_call} (op : pool_op)
    (hop : op = pool_op.worker_dequeue ∨ ∃ a, op = pool_op.flush self a)
    (hwf : circular_q.WF p.q_.q_)
    (h : apply_op_trace loggers p op = some (p1, d, c)) :
    circular_q.WF p1.q_.q_ ∧ p1.q_.q_.max_items_ = p.q_.q_.max_items_ ∧
      p1.overrun_counter = p.overrun_counter ∧
      d ++ circular_q.contents p1.q_.q_ =
        circular_q.contents p.q_.q_ ++
          (flush_addrs [op]).map
            (fun a => async_msg.of_type_worker async_msg_type.flush (some self) a) ∧
      c = d.flatMap (fun e => (envelope_backend loggers e).calls) ∧
      ∀ e ∈ d, (envelope_backend loggers e).raised = none := by
  rcases hop with hop | ⟨a, hop⟩
  · subst hop
    unfold apply_op_trace at h
    cases ha : apply_op loggers p pool_op.worker_dequeue with
    | none => simp [ha] at h
    | some p2 =>
      simp only [ha, Option.map_some', Option.some.injEq, Prod.mk.injEq] at h
      obtain ⟨h1, h2, h3⟩ := h
      subst h1 h2 h3
      obtain ⟨hp2, b, hb⟩ := apply_op_worker_dequeue ha
      subst hp2
      obtain ⟨t1, t2, t3⟩ := process_next_msg_trace loggers p hwf b hb
      obtain ⟨hw, _, _⟩ := process_next_msg_contents loggers p hwf
      refine ⟨hw, ?_, process_next_msg_overrun loggers p, ?_, t2, t3⟩
      · rw [process_next_msg_pool]
        exact shutdown_state.max_items_dequeue_for _ _
      · simpa [flush_addrs] using t1.symm
  · subst hop
    simp only [apply_op_trace, apply_op, weak_ptr_lock, async_logger.flush_, post_flush,
      mpmc_blocking_queue.enqueue] at h
    cases hf : p.q_.q_.full with
    | true => simp [hf] at h
    | false =>
      simp only [hf, Bool.false_eq_true, if_false, Option.map_some', Option.some.injEq,
        Prod.mk.injEq] at h
      obtain ⟨h1, h2, h3⟩ := h
      subst h1 h2 h3
      refine ⟨circular_q.wf_push_back hwf _, circular_q.max_items_push_back _ _, ?_, ?_, rfl,
        fun e he => absurd he (List.not_mem_nil _)⟩
      · show (p.q_.q_.push_back _).overrun_counter = p.q_.q_.overrun_counter
        rw [circular_q.overrun_push_back, hf]
        rfl
      · simpa [flush_addrs] using contents_push_not_full hwf hf _

theorem flush_addrs_cons (op : pool_op) (rest : List pool_op) :
    flush_addrs (op :: rest) = flush_addrs [op] ++ flush_addrs rest := by
  cases op <;> rfl

/-- A sequence of flushes of the logger `self` and worker dequeues: the
envelopes the workers dequeued followed by the queued ones are the envelopes
queued before followed by the Flush envelopes of the flushes, in call order;
nothing is overwritten; and the sink calls made are those of the backend
operations of the dequeued envelopes, none of which threw. -/
theorem run_trace_flushes (loggers : Nat → async_logger) (self : Nat) (sched : List pool_op) :
    ∀ {p p1 : thread_pool} {deq : List async_msg} {calls : List sink_call},
      (∀ op ∈ sched, op = pool_op.worker_dequeue ∨ ∃ a, op = pool_op.flush self a) →
      circular_q.WF p.q_.q_ →
      run_trace loggers p sched = some (p1, deq, calls) →
      circular_q.WF p1.q_.q_ ∧ p1.q_.q_.max_items_ = p.q_.q_.max_items_ ∧
        p1.overrun_counter = p.overrun_counter ∧
        deq ++ circular_q.contents p1.q_.q_ =
          circular_q.contents p.q_.q_ ++
            (flush_addrs sched).map
              (fun a => async_msg.of_type_worker async_msg_type.flush (some self) a) ∧
        calls = deq.flatMap (fun e => (envelope_backend loggers e).calls) ∧
        ∀ e ∈ deq, (envelope_backend loggers e).raised = none := by
  induction sched with
  | nil =>
    intro p p1 deq calls _ hwf h
    simp only [run_trace, Option.some.injEq, Prod.mk.injEq] at h
    obtain ⟨h1, h2, h3⟩ := h
    subst h1 h2 h3
    exact ⟨hwf, rfl, rfl, by simp [flush_addrs], rfl, fun e he => absurd he (List.not_mem_nil _)⟩
  | cons op rest ih =>
    intro p p1 deq calls hops hwf h
    simp only [run_trace] at h
    cases ha : apply_op_trace loggers p op with
    | none => simp [ha] at h
    | some r =>
      obtain ⟨p2, d, c⟩ := r
      simp only [ha] at h
      cases hr : run_trace loggers p2 rest with
      | none => simp [hr] at h
      | some r2 =>
        obtain ⟨p3, d3, c3⟩ := r2
        simp only [hr, Option.map_some', trace_after, Option.some.injEq, Prod.mk.injEq] at h
        obtain ⟨h1, h2, h3⟩ := h
        subst h1 h2 h3
        obtain ⟨w2, m2, o2, f2, c2, r2⟩ := flush_or_dequeue_step loggers self op
          (hops op (List.mem_cons_self _ _)) hwf ha
        obtain ⟨w3, m3, o3, f3, c3e, r3⟩ := ih
          (fun x hx => hops x (List.mem_cons_of_mem _ hx)) w2 hr
        refine ⟨w3, m3.trans m2, o3.trans o2, ?_, ?_, ?_⟩
        · rw [flush_addrs_cons op rest, List.map_append, List.append_assoc, f3,
            ← List.append_assoc, f2, List.append_assoc]
        · rw [c2, c3e, List.flatMap_append]
        · intro e he
          rcases List.mem_append.1 he with h4 | h4
          · exact r2 e h4
          · exact r3 e h4

theorem contents_length_le {T : Type} [Inhabited T] {q : circular_q T}
    (hwf : circular_q.WF q) : (circular_q.contents q).length ≤ q.max_items_ - 1 := by
  obtain ⟨l, hl⟩ := mpmc_blocking_queue.rep_exists hwf
  rw [circular_q.contents_eq_of_rep hwf hl, hl.1]
  exact circular_q.size_le hwf

theorem run_trace_append (loggers : Nat → async_logger) (a b : List pool_op) :
    ∀ p : thread_pool,
      run_trace loggers p (a ++ b) =
        match run_trace loggers p a with
        | none => none
        | some (p1, d, c) => (run_trace loggers p1 b).map (trace_after d c) := by
  induction a with
  | nil =>
    intro p
    show run_trace loggers p b = (run_trace loggers p b).map (trace_after [] [])
    cases run_trace loggers p b with
    | none => rfl
    | some r => rfl
  | cons op rest ih =>
    intro p
    show (match apply_op_trace loggers p op with
        | none => none
        | some (p1, d, c) => (run_trace loggers p1 (rest ++ b)).map (trace_after d c)) =
      match (match apply_op_trace loggers p op with
        | none => none
        | some (p1, d, c) => (run_trace loggers p1 rest).map (trace_after d c)) with
      | none => none
      | some (p1, d, c) => (run_trace loggers p1 b).map (trace_after d c)
    cases apply_op_trace loggers p op with
    | none => rfl
    | some r =>
      obtain ⟨p2, d, c⟩ := r
      show (run_trace loggers p2 (rest ++ b)).map (trace_after d c) =
        match (run_trace loggers p2 rest).map (trace_after d c) with
        | none => none
        | some (p1, d, c) => (run_trace loggers p1 b).map (trace_after d c)
      rw [ih p2]
      cases run_trace loggers p2 rest with
      | none => rfl
      | some r2 =>
        obtain ⟨p3, d3, c3⟩ := r2
        show ((run_trace loggers p3 b).map (trace_after d3 c3)).map (trace_after d c) =
          (run_trace loggers p3 b).map (trace_after (d ++ d3) (c ++ c3))
        cases run_trace loggers p3 b with
        | none => rfl
        | some r3 => simp [trace_after, List.append_assoc]

theorem worker_dequeue_quiet {loggers : Nat → async_logger} (hq : no_sink_throws loggers)
    (p : thread_pool) :
    apply_op_trace loggers p pool_op.worker_dequeue =
      some ((process_next_msg_ loggers p).pool, (process_next_msg_ loggers p).dequeued.toList,
        (process_next_msg_ loggers p).calls) := by
  obtain ⟨b, hb⟩ := process_next_msg_quiet hq p
  simp [apply_op_trace, apply_op, hb]

/-- No sink throwing, the workers can run `process_next_msg_` any number of
times, and as many times as the queue has slots leave it empty. -/
theorem drain_alive {loggers : Nat → async_logger} (hq : no_sink_throws loggers) :
    ∀ (k : Nat) (p : thread_pool), circular_q.WF p.q_.q_ →
      ∃ p1 deq calls,
        run_trace loggers p (List.replicate k pool_op.worker_dequeue) = some (p1, deq, calls) ∧
        (circular_q.contents p1.q_.q_).length = (circular_q.contents p.q_.q_).length - k := by
  intro k
  induction k with
  | zero =>
    intro p _
    exact ⟨p, [], [], rfl, rfl⟩
  | succ k ih =>
    intro p hwf
    obtain ⟨hw, _, _⟩ := process_next_msg_contents loggers p hwf
    obtain ⟨p1, deq, calls, hr, hl⟩ := ih (process_next_msg_ loggers p).pool hw
    refine ⟨p1, (process_next_msg_ loggers p).dequeued.toList ++ deq,
      (process_next_msg_ loggers p).calls ++ calls, ?_, ?_⟩
    · simp only [List.replicate_succ, run_trace, worker_dequeue_quiet hq p, hr,
        Option.map_some', trace_after]
    · rw [hl, shutdown_state.length_after_dequeue loggers p hwf]
      omega

/-- With at least one slot of capacity and no sink throwing, the flushes of
`flush_schedule` all complete, whatever their number. -/
theorem flush_schedule_completes {loggers : Nat → async_logger} (hq : no_sink_throws loggers)
    (self : Nat) :
    ∀ (addrs : List Nat) (p : thread_pool), circular_q.WF p.q_.q_ → 2 ≤ p.q_.q_.max_items_ →
      ∃ p1 deq calls,
        run_trace loggers p
          (addrs.flatMap (fun a => [pool_op.worker_dequeue, pool_op.flush self a]))
            = some (p1, deq, calls) ∧
        circular_q.WF p1.q_.q_ ∧ p1.q_.q_.max_items_ = p.q_.q_.max_items_ := by
  intro addrs
  induction addrs with
  | nil =>
    intro p hwf _
    exact ⟨p, [], [], rfl, hwf, rfl⟩
  | cons a rest ih =>
    intro p hwf hm
    obtain ⟨hw, _, _⟩ := process_next_msg_contents loggers p hwf
    have hmax : (process_next_msg_ loggers p).pool.q_.q_.max_items_ = p.q_.q_.max_items_ := by
      rw [process_next_msg_pool]
      exact shutdown_state.max_items_dequeue_for _ _
    have hnf : (process_next_msg_ loggers p).pool.q_.q_.full = false := by
      rw [process_next_msg_pool]
      exact shutdown_state.not_full_dequeue_for hwf hm _
    have hfl : apply_op_trace loggers (process_next_msg_ loggers p).pool (pool_op.flush self a)
        = some (⟨⟨(process_next_msg_ loggers p).pool.q_.q_.push_back
            (async_msg.of_type_worker async_msg_type.flush (some self) a)⟩,
          (process_next_msg_ loggers p).pool.threads_⟩, [], []) := by
      simp [apply_op_trace, apply_op, weak_ptr_lock, async_logger.flush_, post_flush,
        mpmc_blocking_queue.enqueue, hnf]
    obtain ⟨p1, deq, calls, hr, hw1, hm1⟩ := ih
      ⟨⟨(process_next_msg_ loggers p).pool.q_.q_.push_back
          (async_msg.of_type_worker async_msg_type.flush (some self) a)⟩,
        (process_next_msg_ loggers p).pool.threads_⟩
      (circular_q.wf_push_back hw _)
      (by
        show 2 ≤ ((process_next_msg_ loggers p).pool.q_.q_.push_back _).max_items_
        rw [circular_q.max_items_push_back, hmax]
        exact hm)
    refine ⟨p1, (process_next_msg_ loggers p).dequeued.toList ++ deq,
      (process_next_msg_ loggers p).calls ++ calls, ?_, hw1, ?_⟩
    · show run_trace loggers p (pool_op.worker_dequeue :: pool_op.flush self a ::
        rest.flatMap (fun a => [pool_op.worker_dequeue, pool_op.flush self a])) = _
      simp only [run_trace, worker_dequeue_quiet hq p, hfl, hr, Option.map_some', trace_after,
        List.nil_append]
    · rw [hm1]
      show ((process_next_msg_ loggers p).pool.q_.q_.push_back _).max_items_ = _
      rw [circular_q.max_items_push_back, hmax]

theorem flush_addrs_replicate (drain : Nat) :
    flush_addrs (List.replicate drain pool_op.worker_dequeue) = [] := by
  induction drain with
  | zero => rfl
  | succ k ih => exact ih

theorem flush_addrs_schedule (self : Nat) (addrs : List Nat) (drain : Nat) :
    flush_addrs (flush_schedule self addrs drain) = addrs := by
  induction addrs with
  | nil => exact flush_addrs_replicate drain
  | cons a rest ih =>
    show a :: flush_addrs (flush_schedule self rest drain) = a :: rest
    rw [ih]

theorem flush_schedule_ops (self : Nat) (addrs : List Nat) (drain : Nat) :
    ∀ op ∈ flush_schedule self addrs drain,
      op = pool_op.worker_dequeue ∨ ∃ a, op = pool_op.flush self a := by
  intro op hop
  unfold flush_schedule at hop
  rcases List.mem_append.1 hop with h | h
  · rw [List.mem_flatMap] at h
    obtain ⟨a, _, ha⟩ := h
    simp only [List.mem_cons, List.mem_singleton, List.not_mem_nil, or_false] at ha
    rcases ha with ha | ha
    · exact Or.inl ha
    · exact Or.inr ⟨a, ha⟩
  · exact Or.inl (List.eq_of_mem_replicate h)

/-- C12: flushes of the async logger `self` on a pool that is alive and has
been used through `sink_it_`, `flush_` and worker dequeues.  Each `flush()`
makes one blocking enqueue of a Flush envelope owned by `self`, whatever the
overflow policy.  Take any number of consecutive flushes, with no log call in
between and the workers dequeuing at any moments in between (`sched`): when
the calls have completed, the envelopes the workers dequeued meanwhile followed
by the queued ones are the envelopes queued before followed by the Flush
envelopes, one per flush, adjacent and in call order; `overrun_counter` has
not changed; the sink calls the workers made are those of the backend
operations of the envelopes they dequeued, and for each Flush envelope of
`self` these are one `flush` on every sink of the logger, in sink order.  So
once the queue is drained every sink has been flushed exactly once per Flush
envelope.  With a queue capacity of at least one and no sink throwing, the
flushes of every list of addresses do complete and are drained
(`flush_schedule`). -/
theorem consecutive_flushes_enqueue_flush_envelopes (loggers : Nat → async_logger)
    (queue_size threads_n : Nat) (p0 p : thread_pool) (ops : List pool_op) (self : Nat)
    (sched : List pool_op) (p1 : thread_pool) (deq : List async_msg) (calls : List sink_call)
    (h0 : (ctor queue_size threads_n).result = Except.ok p0)
    (hrun : run_ops loggers p0 ops = some p)
    (hsched : ∀ op ∈ sched, op = pool_op.worker_dequeue ∨ ∃ a, op = pool_op.flush self a)
    (hk : run_trace loggers p sched = some (p1, deq, calls)) :
    (∀ (lg : async_logger) (pool : thread_pool) (a : Nat),
        async_logger.flush self lg (weak_ptr_lock true pool) a =
          Except.ok ((pool.q_.enqueue
            (async_msg.of_type_worker async_msg_type.flush (some self) a)).map
              (fun q => { pool with q_ := q }))) ∧
      (∀ a, (async_msg.of_type_worker async_msg_type.flush (some self) a).msg_type
            = async_msg_type.flush ∧
          (async_msg.of_type_worker async_msg_type.flush (some self) a).worker_ptr
            = some self) ∧
      deq ++ circular_q.contents p1.q_.q_ =
        circular_q.contents p.q_.q_ ++
          (flush_addrs sched).map
            (fun a => async_msg.of_type_worker async_msg_type.flush (some self) a) ∧
      p1.overrun_counter = p.overrun_counter ∧
      calls = deq.flatMap (fun e => (envelope_backend loggers e).calls) ∧
      (∀ a, async_msg.of_type_worker async_msg_type.flush (some self) a ∈ deq →
        (envelope_backend loggers
            (async_msg.of_type_worker async_msg_type.flush (some self) a)).calls =
          (loggers self).sinks_.map (fun s => sink_call.flush s.id)) ∧
      (circular_q.contents p1.q_.q_ = [] →
        deq = circular_q.contents p.q_.q_ ++
          (flush_addrs sched).map
            (fun a => async_msg.of_type_worker async_msg_type.flush (some self) a) ∧
        calls =
          (circular_q.contents p.q_.q_).flatMap (fun e => (envelope_backend loggers e).calls)
            ++ (flush_addrs sched).flatMap
              (fun _ => (loggers self).sinks_.map (fun s => sink_call.flush s.id))) ∧
      (1 ≤ queue_size → no_sink_throws loggers → ∀ addrs : List Nat,
        flush_addrs (flush_schedule self addrs queue_size) = addrs ∧
        ∃ p2 deq2 calls2,
          run_trace loggers p (flush_schedule self addrs queue_size)
            = some (p2, deq2, calls2) ∧
          circular_q.contents p2.q_.q_ = []) := by
  obtain ⟨hq0, _⟩ := ctor_ok_queue h0
  have hwf0 : circular_q.WF p0.q_.q_ := by
    rw [hq0]
    exact circular_q.wf_ctor queue_size
  obtain ⟨hwf, _, _⟩ := run_ops_contents loggers ops hwf0 hrun
  have hmax : p.q_.q_.max_items_ = queue_size + 1 := by
    rw [run_ops_max_items loggers ops hrun, hq0]
    rfl
  obtain ⟨_, _, hov, hfifo, hcalls, hraised⟩ := run_trace_flushes loggers self sched hsched hwf hk
  have hone : ∀ a, async_msg.of_type_worker async_msg_type.flush (some self) a ∈ deq →
      (envelope_backend loggers
          (async_msg.of_type_worker async_msg_type.flush (some self) a)).calls =
        (loggers self).sinks_.map (fun s => sink_call.flush s.id) := by
    intro a ha
    have h1 := hraised _ ha
    rw [envelope_backend_flush] at h1 ⊢
    exact flush_loop_calls_of_ok _ h1
  refine ⟨fun _ _ _ => rfl, fun _ => ⟨rfl, rfl⟩, hfifo, hov, hcalls, hone, ?_, ?_⟩
  · intro hnil
    rw [hnil, List.append_nil] at hfifo
    refine ⟨hfifo, ?_⟩
    rw [hcalls]
    have hone2 : ∀ a, a ∈ flush_addrs sched →
        (envelope_backend loggers
            (async_msg.of_type_worker async_msg_type.flush (some self) a)).calls =
          (loggers self).sinks_.map (fun s => sink_call.flush s.id) := by
      intro a ha
      apply hone
      rw [hfifo]
      exact List.mem_append_right _ (List.mem_map_of_mem _ ha)
    rw [hfifo, List.flatMap_append]
    congr 1
    generalize flush_addrs sched = l at hone2
    induction l with
    | nil => rfl
    | cons a rest ih =>
      simp only [List.map_cons, List.flatMap_cons]
      rw [hone2 a (List.mem_cons_self _ _),
        ih (fun x hx => hone2 x (List.mem_cons_of_mem _ hx))]
  · intro hq hqt addrs
    refine ⟨flush_addrs_schedule self addrs queue_size, ?_⟩
    obtain ⟨p2, d2, c2, hr2, hw2, hm2⟩ := flush_schedule_completes hqt self addrs p hwf
      (by rw [hmax]; omega)
    obtain ⟨p3, d3, c3, hr3, hl3⟩ := drain_alive hqt queue_size p2 hw2
    refine ⟨p3, d2 ++ d3, c2 ++ c3, ?_, ?_⟩
    · unfold flush_schedule
      rw [run_trace_append, hr2]
      simp only [hr3, Option.map_some', trace_after]
    · have hle := contents_length_le hw2
      rw [hm2, hmax] at hle
      apply List.length_eq_zero.1
      rw [hl3]
      omega

/-- Three consecutive flushes of logger 7 on the fresh pool `sample_pool1`,
whose queue has one slot, a worker running before each flush and once after
the last: the three Flush envelopes have been dequeued in call order and the
sink of the logger has been flushed three times. -/
theorem consecutive_flushes_enqueue_flush_envelopes_witness :
    ((ctor 1 1).result = Except.ok sample_pool1 ∧
        run_ops quiet_loggers sample_pool1 [] = some sample_pool1 ∧
        (∀ op ∈ flush_schedule 7 [200, 201, 202] 1,
          op = pool_op.worker_dequeue ∨ ∃ a, op = pool_op.flush 7 a) ∧
        run_trace quiet_loggers sample_pool1 (flush_schedule 7 [200, 201, 202] 1) =
          some (sample_three_flushes,
            [async_msg.of_type_worker async_msg_type.flush (some 7) 200,
              async_msg.of_type_worker async_msg_type.flush (some 7) 201,
              async_msg.of_type_worker async_msg_type.flush (some 7) 202],
            [sink_call.flush 1, sink_call.flush 1, sink_call.flush 1])) ∧
      circular_q.contents sample_three_flushes.q_.q_ = [] ∧
      ([async_msg.of_type_worker async_msg_type.flush (some 7) 200,
          async_msg.of_type_worker async_msg_type.flush (some 7) 201,
          async_msg.of_type_worker async_msg_type.flush (some 7) 202] =
          circular_q.contents sample_pool1.q_.q_ ++
            (flush_addrs (flush_schedule 7 [200, 201, 202] 1)).map
              (fun a => async_msg.of_type_worker async_msg_type.flush (some 7) a) ∧
        [sink_call.flush 1, sink_call.flush 1, sink_call.flush 1] =
          (circular_q.contents sample_pool1.q_.q_).flatMap
              (fun e => (envelope_backend quiet_loggers e).calls)
            ++ (flush_addrs (flush_schedule 7 [200, 201, 202] 1)).flatMap
              (fun _ => (quiet_loggers 7).sinks_.map (fun s => sink_call.flush s.id))) :=
  ⟨⟨rfl, rfl, flush_schedule_ops 7 [200, 201, 202] 1, by decide⟩, by decide,
    (consecutive_flushes_enqueue_flush_envelopes quiet_loggers 1 1 sample_pool1 sample_pool1
      [] 7 (flush_schedule 7 [200, 201, 202] 1) sample_three_flushes _ _ rfl rfl
      (flush_schedule_ops 7 [200, 201, 202] 1) (by decide)).2.2.2.2.2.2.1 (by decide)⟩

end thread_pool

end details

/-! ### The backend of the asynchronous logger -/

namespace async_logger

open details

theorem log_loop_spec (msg : log_msg) (l : List sinks.sink) :
    (∃ t, (log_loop msg l).calls ++ t =
        (l.filter (fun s => s.should_log msg.lvl)).map (fun s => sink_call.log s.id msg)) ∧
      ((log_loop msg l).raised = none →
        (log_loop msg l).calls =
          (l.filter (fun s => s.should_log msg.lvl)).map (fun s => sink_call.log s.id msg)) ∧
      ((∀ s ∈ l, s.should_log msg.lvl = true → s.log_raises msg = none) →
        (log_loop msg l).raised = none) := by
  induction l with
  | nil => exact ⟨⟨[], rfl⟩, fun _ => rfl, fun _ => rfl⟩
  | cons a rest ih =>
    obtain ⟨⟨t, ht⟩, h2, h3⟩ := ih
    unfold log_loop
    cases hl : a.should_log msg.lvl with
    | false =>
      simp only [Bool.false_eq_true, if_false, List.filter_cons, hl]
      exact ⟨⟨t, ht⟩, h2, fun h => h3 (fun s hs => h s (List.mem_cons_of_mem _ hs))⟩
    | true =>
      simp only [if_true, List.filter_cons, hl, List.map_cons]
      cases hr : a.log_raises msg with
      | some e =>
        refine ⟨⟨_, rfl⟩, fun h => absurd h (by simp), fun h => ?_⟩
        have := h a (List.mem_cons_self _ _) hl
        rw [hr] at this
        exact absurd this (by simp)
      | none =>
        refine ⟨⟨t, by simp [ht]⟩, fun h => ?_, fun h => ?_⟩
        · simp only [List.cons.injEq, true_and]
          exact h2 h
        · exact h3 (fun s hs => h s (List.mem_cons_of_mem _ hs))

theorem flush_loop_spec (l : List sinks.sink) :
    (∃ t, (flush_loop l).calls ++ t = l.map (fun s => sink_call.flush s.id)) ∧
      ((flush_loop l).raised = none →
        (flush_loop l).calls = l.map (fun s => sink_call.flush s.id)) := by
  induction l with
  | nil => exact ⟨⟨[], rfl⟩, fun _ => rfl⟩
  | cons a rest ih =>
    obtain ⟨⟨t, ht⟩, h2⟩ := ih
    unfold flush_loop
    cases hr : a.flush_raises with
    | some e => exact ⟨⟨_, rfl⟩, fun h => absurd h (by simp)⟩
    | none =>
      refine ⟨⟨t, by simp [ht]⟩, fun h => ?_⟩
      simp only [List.map_cons, List.cons.injEq, true_and]
      exact h2 h

/-- C13: `backend_sink_it_(record)`.  A sink's `should_log(s)` is true if and
only if `s >=` the sink's level.  The calls the operation makes are, in order,
`log(record)` on the owned sinks for which `should_log` holds, in list order,
and then, if the record's level is `>=` the logger's flush level, `flush()` on
every owned sink, once each, in list order, and no `flush()` otherwise: this
is the whole call sequence when the operation returns, which it does when no
called `log` or `flush` throws; a call that throws ends the sequence there. -/
theorem backend_sink_it_calls_sinks_in_order (lg : async_logger) (msg : log_msg) :
    (∀ (s : sinks.sink) (lvl : level),
        s.should_log lvl = true ↔ s.level_.to_nat ≤ lvl.to_nat) ∧
      (msg.lvl.ge lg.flush_level_ = true ↔ lg.flush_level_.to_nat ≤ msg.lvl.to_nat) ∧
      (lg.backend_sink_it_ msg).calls <+:
        ((lg.sinks_.filter (fun s => s.should_log msg.lvl)).map
            (fun s => sink_call.log s.id msg) ++
          (if msg.lvl.ge lg.flush_level_ then lg.sinks_.map (fun s => sink_call.flush s.id)
            else [])) ∧
      ((lg.backend_sink_it_ msg).raised = none →
        (lg.backend_sink_it_ msg).calls =
          (lg.sinks_.filter (fun s => s.should_log msg.lvl)).map
              (fun s => sink_call.log s.id msg) ++
            (if msg.lvl.ge lg.flush_level_ then
              lg.sinks_.map (fun s => sink_call.flush s.id)
            else [])) ∧
      ((∀ s ∈ lg.sinks_, s.should_log msg.lvl = true → s.log_raises msg = none) →
        (msg.lvl.ge lg.flush_level_ = true → ∀ s ∈ lg.sinks_, s.flush_raises = none) →
        (lg.backend_sink_it_ msg).raised = none) := by
  obtain ⟨⟨t, ht⟩, h2, h3⟩ := log_loop_spec msg lg.sinks_
  obtain ⟨⟨u, hu⟩, f2⟩ := flush_loop_spec lg.sinks_
  refine ⟨fun s lvl => by simp [sinks.sink.should_log, level.ge],
    by simp [level.ge], ?_, ?_, ?_⟩
  · unfold backend_sink_it_
    cases hr : (log_loop msg lg.sinks_).raised with
    | some e =>
      simp only [hr]
      exact ⟨t ++ _, by rw [← List.append_assoc, ht]⟩
    | none =>
      simp only [hr]
      cases hg : msg.lvl.ge lg.flush_level_ with
      | true =>
        simp only [if_true, backend_flush_]
        rw [h2 hr]
        exact ⟨u, by rw [List.append_assoc, hu]⟩
      | false =>
        simp only [Bool.false_eq_true, if_false, List.append_nil]
        rw [h2 hr]
  · unfold backend_sink_it_
    cases hr : (log_loop msg lg.sinks_).raised with
    | some e =>
      simp only [hr]
      intro h
      exact absurd h (by simp)
    | none =>
      simp only [hr]
      cases hg : msg.lvl.ge lg.flush_level_ with
      | true =>
        simp only [if_true, backend_flush_]
        intro hf
        rw [h2 hr, f2 hf]
      | false =>
        simp only [Bool.false_eq_true, if_false, List.append_nil]
        intro _
        exact h2 hr
  · intro hl hf
    have hr := h3 hl
    unfold backend_sink_it_
    simp only [hr]
    cases hg : msg.lvl.ge lg.flush_level_ with
    | true =>
      simp only [if_true, backend_flush_]
      rw [thread_pool.flush_loop_ok lg.sinks_ (hf hg)]
    | false =>
      simp only [Bool.false_eq_true, if_false]
      exact hr

end async_logger

namespace details

/-! ### What an envelope's record points at -/

theorem move_step_apply_logger_name (e : async_msg) (st : move_step) :
    (st.apply e).logger_name = e.logger_name ∧ (st.apply e).source = e.source := by
  cases st <;> exact ⟨rfl, rfl⟩

theorem apply_moves_logger_name (steps : List move_step) :
    ∀ e : async_msg, (apply_moves e steps).logger_name = e.logger_name ∧
      (apply_moves e steps).source = e.source := by
  induction steps with
  | nil => exact fun _ => ⟨rfl, rfl⟩
  | cons st rest ih =>
    intro e
    obtain ⟨h1, h2⟩ := move_step_apply_logger_name e st
    obtain ⟨h3, h4⟩ := ih (st.apply e)
    exact ⟨h3.trans h1, h4.trans h2⟩

theorem contains_own_view (s : std_string) : s.contains_view s.view = true := by
  simp [std_string.contains_view, std_string.view]

/-- C14, as the code has it: after a Log envelope is constructed from a live
record, and after any chain of moves of it, the payload view of its record
points into the buffer the envelope owns; the logger name view (and the source
location) is the one of the record it was built from, unchanged: it points at
the storage the record's logger name pointed at, which lies in the envelope's
buffer only if it already did in the record. -/
theorem envelope_owns_payload_not_logger_name (mem : memory) (r : log_msg)
    (worker : async_logger_ptr) (addr : Nat) (steps : List move_step) :
    (apply_moves (async_msg.of_log_msg async_msg_type.log worker mem addr r)
          steps).buffer.contains_view
        (apply_moves (async_msg.of_log_msg async_msg_type.log worker mem addr r)
          steps).payload = true ∧
      (apply_moves (async_msg.of_log_msg async_msg_type.log worker mem addr r)
          steps).logger_name = r.logger_name ∧
      (apply_moves (async_msg.of_log_msg async_msg_type.log worker mem addr r)
          steps).source = r.source ∧
      (apply_moves (async_msg.of_log_msg async_msg_type.log worker mem addr r)
            steps).buffer.contains_view
          (apply_moves (async_msg.of_log_msg async_msg_type.log worker mem addr r)
            steps).logger_name =
        (apply_moves (async_msg.of_log_msg async_msg_type.log worker mem addr r)
            steps).buffer.contains_view r.logger_name := by
  obtain ⟨h1, _⟩ := apply_moves_payload steps
    (async_msg.of_log_msg async_msg_type.log worker mem addr r) rfl
  obtain ⟨h3, h4⟩ := apply_moves_logger_name steps
    (async_msg.of_log_msg async_msg_type.log worker mem addr r)
  refine ⟨?_, h3, h4, by rw [h3]; rfl⟩
  rw [h1]
  exact contains_own_view _

/-- C14 fails on the code.  The record `sample_named_msg` has its logger name
at addresses 50 to 54.  The Log envelope built from it owns the buffer at
addresses 100 and 101; its logger name view still points at address 50,
outside that buffer, and it still does after the envelope has been moved to a
buffer at address 200. -/
theorem logger_name_points_outside_envelope :
    (async_msg.of_log_msg async_msg_type.log (some 7) sample_mem 100
        sample_named_msg).buffer = { data_ := 100, chars := ['m', 'm'] } ∧
      (async_msg.of_log_msg async_msg_type.log (some 7) sample_mem 100
        sample_named_msg).logger_name = { data_ := 50, size_ := 5 } ∧
      (async_msg.of_log_msg async_msg_type.log (some 7) sample_mem 100
          sample_named_msg).buffer.contains_view
        (async_msg.of_log_msg async_msg_type.log (some 7) sample_mem 100
          sample_named_msg).logger_name = false ∧
      (apply_moves
          (async_msg.of_log_msg async_msg_type.log (some 7) sample_mem 100 sample_named_msg)
          [move_step.construct 200]).buffer.contains_view
        (apply_moves
          (async_msg.of_log_msg async_msg_type.log (some 7) sample_mem 100 sample_named_msg)
          [move_step.construct 200]).logger_name = false := by
  decide

end details

/-! ### File names of the rotating sink -/

namespace sinks

theorem find_last_of_none {s chars : List Char} (h : find_last_of s chars = none) :
    ∀ c ∈ s, c ∉ chars := by
  induction s with
  | nil => intro c hc; exact absurd hc (List.not_mem_nil _)
  | cons a rest ih =>
    unfold find_last_of at h
    cases hr : find_last_of rest chars with
    | some j => simp [hr] at h
    | none =>
      simp only [hr] at h
      intro c hc
      rcases List.mem_cons.1 hc with h1 | h1
      · subst h1
        intro hmem
        simp [hmem] at h
      · exact ih hr c h1

theorem find_last_of_some {s chars : List Char} {d : Nat}
    (h : find_last_of s chars = some d) : last_at s chars d := by
  induction s generalizing d with
  | nil => simp [find_last_of] at h
  | cons a rest ih =>
    unfold find_last_of at h
    cases hr : find_last_of rest chars with
    | some j =>
      simp only [hr, Option.some.injEq] at h
      subst h
      obtain ⟨⟨c, hc, hm⟩, hlast⟩ := ih hr
      refine ⟨⟨c, by simpa using hc, hm⟩, ?_⟩
      intro k c1 hk hc1
      cases k with
      | zero => omega
      | succ k => exact hlast k c1 (by omega) (by simpa using hc1)
    | none =>
      simp only [hr] at h
      split at h
      · next hmem =>
        simp only [Option.some.injEq] at h
        subst h
        refine ⟨⟨a, by simp, hmem⟩, ?_⟩
        intro k c1 hk hc1
        cases k with
        | zero => omega
        | succ k =>
          exact find_last_of_none hr c1 (List.getElem?_mem (by simpa using hc1))
      · simp at h

theorem last_at_unique {s chars : List Char} {d e : Nat} (hd : last_at s chars d)
    (he : last_at s chars e) : d = e := by
  obtain ⟨⟨c, hc, hm⟩, hl⟩ := hd
  obtain ⟨⟨c1, hc1, hm1⟩, hl1⟩ := he
  rcases Nat.lt_trichotomy d e with h | h | h
  · exact absurd hm1 (hl e c1 h hc1)
  · exact h
  · exact absurd hm (hl1 d c h hc)

theorem find_last_of_eq_some {s chars : List Char} {d : Nat} (h : last_at s chars d) :
    find_last_of s chars = some d := by
  cases hr : find_last_of s chars with
  | none =>
    obtain ⟨⟨c, hc, hm⟩, _⟩ := h
    exact absurd hm (find_last_of_none hr c (List.getElem?_mem hc))
  | some e => rw [last_at_unique (find_last_of_some hr) h]

theorem find_last_of_eq_none {s chars : List Char} (h : ∀ c ∈ s, c ∉ chars) :
    find_last_of s chars = none := by
  cases hr : find_last_of s chars with
  | none => rfl
  | some e =>
    obtain ⟨⟨c, hc, hm⟩, _⟩ := find_last_of_some hr
    exact absurd hm (h c (List.getElem?_mem hc))

/-- C16: `calc_filename(base, 0) = base`.  For `i >= 1`: if `base` contains a
dot and its last dot, at position `d`, comes after its last path separator
(slash or backslash), or `base` has no separator, the result is the part of
`base` before `d`, a dot, the decimal form of `i`, and the part of `base` from
`d` on; otherwise the result is `base`, a dot and the decimal form of `i`.
`calc_filename("logs/mylog.txt", 3) = "logs/mylog.3.txt"` and
`calc_filename("logs/mylog", 2) = "logs/mylog.2"`. -/
theorem calc_filename_inserts_index (base : List Char) (i : Nat) :
    calc_filename base 0 = base ∧
      (1 ≤ i → ∀ d, last_at base ['.'] d →
        ((∀ c ∈ base, c ∉ ['/', '\\']) ∨ ∃ sl, last_at base ['/', '\\'] sl ∧ sl < d) →
        calc_filename base i = base.take d ++ ['.'] ++ Nat.toDigits 10 i ++ base.drop d) ∧
      (1 ≤ i →
        ¬ (∃ d, last_at base ['.'] d ∧
          ((∀ c ∈ base, c ∉ ['/', '\\']) ∨ ∃ sl, last_at base ['/', '\\'] sl ∧ sl < d)) →
        calc_filename base i = base ++ ['.'] ++ Nat.toDigits 10 i) ∧
      calc_filename "logs/mylog.txt".toList 3 = "logs/mylog.3.txt".toList ∧
      calc_filename "logs/mylog".toList 2 = "logs/mylog.2".toList := by
  refine ⟨by simp [calc_filename], ?_, ?_, by decide, by decide⟩
  · intro hi d hd hsep
    have hne : ¬ i = 0 := by omega
    have hdot := find_last_of_eq_some hd
    rcases hsep with hno | ⟨sl, hsl, hlt⟩
    · simp [calc_filename, hne, hdot, find_last_of_eq_none hno, to_string]
    · simp [calc_filename, hne, hdot, find_last_of_eq_some hsl, hlt, to_string]
  · intro hi hnot
    have hne : ¬ i = 0 := by omega
    cases hdot : find_last_of base ['.'] with
    | none => simp [calc_filename, hne, hdot, to_string]
    | some d =>
      cases hsl : find_last_of base ['/', '\\'] with
      | none =>
        exact absurd ⟨d, find_last_of_some hdot, Or.inl (find_last_of_none hsl)⟩ hnot
      | some sl =>
        have hle : ¬ d > sl := by
          intro hgt
          exact hnot ⟨d, find_last_of_some hdot, Or.inr ⟨sl, find_last_of_some hsl, hgt⟩⟩
        simp [calc_filename, hne, hdot, hsl, hle, to_string]

end sinks

namespace sinks

/-! ## The rotating file sink -/

theorem calc_filename_zero (base : List Char) : calc_filename base 0 = base := by
  simp [calc_filename]

namespace rotating_file_sink

/-- C15: the constructor throws exactly when `max_size = 0`, `max_files = 0`
or the `fopen` of the base file in append mode fails.  The two parameter
checks come first: a rejected `max_size` or `max_files` is an
`invalid_argument`, with no `fopen` call made and no file created or changed.
A failed open is a `runtime_error`.  On success the one `fopen` call is on the
base file, which then exists, no other file is touched, and `current_size_`
is the size the base file already had, 0 for a new file. -/
theorem ctor_fails_iff_bad_parameter_or_open_failure (faults : io_faults)
    (fs : file_system) (base : List Char) (max_size max_files : Nat) :
    ((∃ e, (ctor faults fs base max_size max_files).result = Except.error e) ↔
        (max_size = 0 ∨ max_files = 0 ∨ faults.fopen_fails base = true)) ∧
      (max_size = 0 ∨ max_files = 0 →
        (∃ w, (ctor faults fs base max_size max_files).result
            = Except.error (exception.invalid_argument w)) ∧
          (ctor faults fs base max_size max_files).opened = [] ∧
          (ctor faults fs base max_size max_files).fs = fs) ∧
      (max_size ≠ 0 → max_files ≠ 0 → faults.fopen_fails base = true →
        (∃ w, (ctor faults fs base max_size max_files).result
            = Except.error (exception.runtime_error w)) ∧
          (ctor faults fs base max_size max_files).opened = [base] ∧
          (ctor faults fs base max_size max_files).fs = fs) ∧
      (∀ s, (ctor faults fs base max_size max_files).result = Except.ok s →
        (ctor faults fs base max_size max_files).opened = [base] ∧
          s.current_size_ = file_size_ fs base ∧
          (fs base = none →
            s.current_size_ = 0 ∧
              (ctor faults fs base max_size max_files).fs base = some []) ∧
          (∀ content, fs base = some content →
            s.current_size_ = content.length ∧
              (ctor faults fs base max_size max_files).fs = fs) ∧
          (∀ name, name ≠ base →
            (ctor faults fs base max_size max_files).fs name = fs name) ∧
          s.file_ = some base ∧ s.base_filename_ = base ∧
          s.max_size_ = max_size ∧ s.max_files_ = max_files) := by
  by_cases h1 : max_size = 0
  · simp [ctor, h1]
  by_cases h2 : max_files = 0
  · simp [ctor, h1, h2]
  cases h3 : faults.fopen_fails base with
  | true => simp [ctor, h1, h2, h3, fopen_ab, calc_filename_zero]
  | false =>
    cases h4 : fs base with
    | none =>
      simp [ctor, h1, h2, h3, h4, fopen_ab, calc_filename_zero, file_exists_, file_size_,
        file_system.set]
      intro name hne h
      exact absurd h hne
    | some content =>
      simp [ctor, h1, h2, h3, h4, fopen_ab, calc_filename_zero, file_exists_, file_size_]

end rotating_file_sink

end sinks

namespace sinks

theorem file_system.set_same (fs : file_system) (name : List Char)
    (content : Option (List Char)) : (fs.set name content) name = content := by
  simp [file_system.set]

theorem file_system.set_other (fs : file_system) {name n : List Char}
    (content : Option (List Char)) (h : n ≠ name) : (fs.set name content) n = fs n := by
  simp [file_system.set, h]

namespace rotating_file_sink

/-- A rotation that returns leaves a stream open on an empty file; one that
throws leaves `file_` null. -/
theorem rotate_from_file (faults : io_faults) (base : List Char) :
    ∀ (i : Nat) (fs : file_system),
      ((rotate_from faults base i fs).raised = none →
        ∃ nm, (rotate_from faults base i fs).file_ = some nm ∧
          (rotate_from faults base i fs).fs nm = some []) ∧
      (∀ e, (rotate_from faults base i fs).raised = some e →
        (rotate_from faults base i fs).file_ = none) := by
  intro i
  induction i with
  | zero =>
    intro fs
    cases h : faults.fopen_fails (calc_filename base 0) <;>
      simp [rotate_from, fopen_wb, h, file_system.set]
  | succ i ih =>
    intro fs
    rw [rotate_from]
    by_cases hex : file_exists_ fs (calc_filename base i) = true
    · cases hr : (rename_file_ faults fs (calc_filename base i)
          (calc_filename base (i + 1))).2 with
      | true =>
        simp only [hex, hr, Bool.not_true, Bool.false_eq_true, if_false]
        exact ih _
      | false =>
        cases h : faults.fopen_fails (calc_filename base i) <;>
          simp [hex, hr, fopen_wb, h, file_system.set]
    · simp only [hex, Bool.not_eq_true'] at hex ⊢
      simp only [hex, Bool.not_false, if_true]
      exact ih fs

/-- What `sink_it_` does to the sink itself, whatever the library calls do:
it calls `rotate_` exactly when `current_size_ + n > max_size_`; when the
rotation throws, no stream is open and `current_size_` is as before; when a
stream is open afterwards, nothing was thrown and `current_size_` is `n`
after a rotation and has grown by `n` otherwise. -/
theorem sink_it_sink (faults : io_faults) (s : rotating_file_sink) (fs : file_system)
    (formatted : List Char) :
    ((sink_it_ faults s fs formatted).rotated = true ↔
        s.current_size_ + formatted.length > s.max_size_) ∧
      (∀ e, (sink_it_ faults s fs formatted).raised = some e →
        (sink_it_ faults s fs formatted).rotated = true ∧
          (sink_it_ faults s fs formatted).sink.file_ = none ∧
          (sink_it_ faults s fs formatted).sink.current_size_ = s.current_size_ ∧
          (sink_it_ faults s fs formatted).fs = (rotate_ faults s fs).fs) ∧
      (∀ name, (sink_it_ faults s fs formatted).sink.file_ = some name →
        (sink_it_ faults s fs formatted).raised = none ∧
          (sink_it_ faults s fs formatted).sink.current_size_ =
            (if (sink_it_ faults s fs formatted).rotated then 0 else s.current_size_)
              + formatted.length ∧
          (sink_it_ faults s fs formatted).fs name =
            fwrite faults
              (if (sink_it_ faults s fs formatted).rotated then (rotate_ faults s fs).fs else fs)
              name formatted name ∧
          ((sink_it_ faults s fs formatted).rotated = true →
            (rotate_ faults s fs).fs name = some []) ∧
          ((sink_it_ faults s fs formatted).rotated = false → s.file_ = some name)) := by
  by_cases hgt : s.current_size_ + formatted.length > s.max_size_
  · cases hr : (rotate_ faults s fs).raised with
    | some e =>
      have hnone := (rotate_from_file faults s.base_filename_ s.max_files_ fs).2 e hr
      have hnone1 : (rotate_ faults s fs).file_ = none := hnone
      simp [sink_it_, hgt, hr, hnone1]
    | none =>
      obtain ⟨nm, hnm, hfs⟩ := (rotate_from_file faults s.base_filename_ s.max_files_ fs).1 hr
      have hnm1 : (rotate_ faults s fs).file_ = some nm := hnm
      have hfs1 : (rotate_ faults s fs).fs nm = some [] := hfs
      simp only [sink_it_, hgt, if_true, hr, write_formatted, hnm1]
      refine ⟨by simp, by simp, ?_⟩
      intro name hname
      simp only [Option.some.injEq] at hname
      subst hname
      simp [hfs1]
  · cases hf : s.file_ with
    | none => simp [sink_it_, hgt, write_formatted, hf]
    | some nm =>
      simp only [sink_it_, hgt, if_false, write_formatted, hf]
      refine ⟨by simp, by simp, ?_⟩
      intro name hname
      simp only [Option.some.injEq] at hname
      subst hname
      simp

theorem fwrite_complete {faults : io_faults} (hw : faults.fwrite_count = none)
    (fs : file_system) (name content data : List Char) (hc : fs name = some content) :
    fwrite faults fs name data name = some (content ++ data) ∧
      fwrite_accepted faults data = data.length := by
  simp [fwrite, fwrite_accepted, hc, hw, file_system.set]

end rotating_file_sink

namespace stream_sink

theorem log_sink (bufsiz : Nat) (faults : io_faults) (b : stream_sink) (formatted : List Char) :
    (b.log bufsiz faults formatted).sink = (b.sink.sink_it_ faults b.fs formatted).sink ∧
      (b.log bufsiz faults formatted).fs = (b.sink.sink_it_ faults b.fs formatted).fs := ⟨rfl, rfl⟩

/-- One `log` call whose `fwrite` writes all its bytes, on a sink that has
kept its account: what the open file holds and what is in the buffer
afterwards. -/
theorem log_open_file (bufsiz : Nat) (faults : io_faults) (b : stream_sink)
    (formatted : List Char) (hacc : b.accounted) (hw : faults.fwrite_count = none)
    (name : List Char) (hname : (b.log bufsiz faults formatted).sink.file_ = some name) :
    (∃ before,
        ((b.sink.sink_it_ faults b.fs formatted).rotated = true → before = []) ∧
        ((b.sink.sink_it_ faults b.fs formatted).rotated = false →
          b.fs name = some before ∧ b.sink.file_ = some name) ∧
        (b.log bufsiz faults formatted).fs name = some (before ++ formatted) ∧
        (before ++ formatted).length = (b.log bufsiz faults formatted).sink.current_size_) ∧
      (b.log bufsiz faults formatted).unflushed
        ≤ (b.log bufsiz faults formatted).sink.current_size_ ∧
      (b.log bufsiz faults formatted).unflushed =
        buffered_after bufsiz
          (if (b.sink.sink_it_ faults b.fs formatted).rotated then 0 else b.unflushed)
          formatted.length := by
  obtain ⟨_, _, h3⟩ := rotating_file_sink.sink_it_sink faults b.sink b.fs formatted
  have hname1 : (b.sink.sink_it_ faults b.fs formatted).sink.file_ = some name := hname
  obtain ⟨hraised, hsize, hfs, hrot, hnorot⟩ := h3 name hname1
  have hunf : (b.log bufsiz faults formatted).unflushed =
      buffered_after bufsiz
        (if (b.sink.sink_it_ faults b.fs formatted).rotated then 0 else b.unflushed)
        (fwrite_accepted faults formatted) := by
    show (match (b.sink.sink_it_ faults b.fs formatted).raised,
        (b.sink.sink_it_ faults b.fs formatted).sink.file_ with
      | none, some _ => _
      | _, _ => 0) = _
    rw [hraised, hname1]
    rfl
  have hsz : (b.log bufsiz faults formatted).sink.current_size_ =
      (if (b.sink.sink_it_ faults b.fs formatted).rotated then 0 else b.sink.current_size_)
        + formatted.length := hsize
  have hfs1 : (b.log bufsiz faults formatted).fs name =
      fwrite faults
        (if (b.sink.sink_it_ faults b.fs formatted).rotated
          then (rotating_file_sink.rotate_ faults b.sink b.fs).fs else b.fs)
        name formatted name := hfs
  cases hr : (b.sink.sink_it_ faults b.fs formatted).rotated with
  | true =>
    rw [hr] at hrot hsz hfs1 hunf
    simp only [if_true] at hsz hfs1 hunf
    obtain ⟨hf, ha⟩ := rotating_file_sink.fwrite_complete hw _ name [] formatted (hrot rfl)
    rw [ha] at hunf
    refine ⟨⟨[], fun _ => rfl, fun h => absurd h (by simp), ?_, ?_⟩, ?_, ?_⟩
    · rw [hfs1, hf]
    · rw [hsz]
      simp
    · rw [hunf, hsz]
      unfold buffered_after
      exact Nat.mod_le _ _
    · simpa using hunf
  | false =>
    rw [hr] at hnorot hsz hfs1 hunf
    simp only [Bool.false_eq_true, if_false] at hsz hfs1 hunf
    have hfile := hnorot rfl
    obtain ⟨content, hc, hlen, hu⟩ := hacc name hfile
    obtain ⟨hf, ha⟩ := rotating_file_sink.fwrite_complete hw b.fs name content formatted hc
    rw [ha] at hunf
    refine ⟨⟨content, fun h => absurd h (by simp), fun _ => ⟨hc, hfile⟩, ?_, ?_⟩, ?_, ?_⟩
    · rw [hfs1, hf]
    · rw [hsz, List.length_append, hlen]
    · rw [hunf, hsz]
      unfold buffered_after
      have := Nat.mod_le (b.unflushed + formatted.length) bufsiz
      omega
    · simpa using hunf

theorem log_accounted (bufsiz : Nat) (faults : io_faults) (b : stream_sink)
    (formatted : List Char) (hacc : b.accounted) (hw : faults.fwrite_count = none) :
    (b.log bufsiz faults formatted).accounted := by
  intro name hname
  obtain ⟨⟨before, _, _, hfs, hlen⟩, hle, _⟩ :=
    log_open_file bufsiz faults b formatted hacc hw name hname
  exact ⟨_, hfs, hlen, by rw [hlen]; exact hle⟩

theorem flush_accounted (b : stream_sink) (hacc : b.accounted) : b.flush_.accounted := by
  unfold flush_
  cases hf : b.sink.file_ with
  | none => exact hacc
  | some nm =>
    intro name hname
    obtain ⟨content, hc, hlen, _⟩ := hacc name hname
    exact ⟨content, hc, hlen, Nat.zero_le _⟩

theorem run_accounted (bufsiz : Nat) (ops : List sink_op) :
    ∀ b : stream_sink, b.accounted → writes_complete ops → (run bufsiz b ops).accounted := by
  induction ops with
  | nil => intro b hacc _; exact hacc
  | cons op rest ih =>
    intro b hacc hw
    have hrest : writes_complete rest :=
      fun faults formatted h => hw faults formatted (List.mem_cons_of_mem _ h)
    show (run bufsiz (b.step bufsiz op) rest).accounted
    apply ih _ _ hrest
    cases op with
    | log faults formatted =>
      exact log_accounted bufsiz faults b formatted hacc
        (hw faults formatted (List.mem_cons_self _ _))
    | flush => exact flush_accounted b hacc

theorem opened_accounted (faults : io_faults) (fs : file_system) (base : List Char)
    (max_size max_files : Nat) (s : rotating_file_sink)
    (h : (rotating_file_sink.ctor faults fs base max_size max_files).result = Except.ok s) :
    (opened s (rotating_file_sink.ctor faults fs base max_size max_files).fs).accounted := by
  by_cases h1 : max_size = 0
  · simp [rotating_file_sink.ctor, h1] at h
  by_cases h2 : max_files = 0
  · simp [rotating_file_sink.ctor, h1, h2] at h
  cases h3 : faults.fopen_fails base with
  | true => simp [rotating_file_sink.ctor, h1, h2, h3, fopen_ab, calc_filename_zero] at h
  | false =>
    intro name hname
    cases h4 : fs base with
    | none =>
      simp [rotating_file_sink.ctor, h1, h2, h3, h4, fopen_ab, calc_filename_zero, file_exists_,
        file_size_, file_system.set] at h ⊢
      subst h
      simp only [opened, Option.some.injEq] at hname
      subst hname
      simp [opened, file_system.set]
    | some content =>
      simp [rotating_file_sink.ctor, h1, h2, h3, h4, fopen_ab, calc_filename_zero, file_exists_,
        file_size_] at h ⊢
      subst h
      simp only [opened, Option.some.injEq] at hname
      subst hname
      simp [opened, h4]

end stream_sink

namespace rotating_file_sink

/-- C17, as the code has it.  The sink is built by the constructor and used
through `log` and `flush` calls whose `fwrite` calls wrote all their bytes;
`bufsiz` is the size of the buffer of its stream.  For a record that renders
to the bytes `formatted`, `sink_it_` calls `rotate_` exactly when
`current_size_ + n > max_size_`, so not when the sum equals `max_size_`.  When
the rotation throws, nothing is written (the files are as `rotate_` left
them), no stream is open and `current_size_` is as before.  When a stream is open afterwards, nothing was thrown and
`current_size_` is `n` after a rotation and the previous `current_size_ + n`
otherwise; if this `fwrite` writes all its bytes, the open file holds these
bytes after what it held (nothing after a rotation), and `current_size_` is
the number of bytes written to the open file, those still in the buffer of
the stream included: the byte size of the file (`st_size`) is `current_size_`
less the buffered bytes, and is `current_size_` once `flush_` has run. -/
theorem sink_it_rotates_and_counts_written_bytes (bufsiz : Nat) (faults0 : io_faults)
    (fs0 : file_system) (base : List Char) (max_size max_files : Nat)
    (s0 : rotating_file_sink) (ops : List sink_op) (b : stream_sink) (faults : io_faults)
    (formatted : List Char)
    (h0 : (ctor faults0 fs0 base max_size max_files).result = Except.ok s0)
    (hops : writes_complete ops)
    (hb : stream_sink.run bufsiz
      (stream_sink.opened s0 (ctor faults0 fs0 base max_size max_files).fs) ops = b) :
    ((sink_it_ faults b.sink b.fs formatted).rotated = true ↔
        b.sink.current_size_ + formatted.length > b.sink.max_size_) ∧
      (b.sink.current_size_ + formatted.length = b.sink.max_size_ →
        (sink_it_ faults b.sink b.fs formatted).rotated = false) ∧
      (∀ e, (sink_it_ faults b.sink b.fs formatted).raised = some e →
        (sink_it_ faults b.sink b.fs formatted).rotated = true ∧
          (b.log bufsiz faults formatted).sink.file_ = none ∧
          (b.log bufsiz faults formatted).sink.current_size_ = b.sink.current_size_ ∧
          (b.log bufsiz faults formatted).fs = (rotate_ faults b.sink b.fs).fs) ∧
      (∀ name, (b.log bufsiz faults formatted).sink.file_ = some name →
        (sink_it_ faults b.sink b.fs formatted).raised = none ∧
          (b.log bufsiz faults formatted).sink.current_size_ =
            (if (sink_it_ faults b.sink b.fs formatted).rotated then formatted.length
              else b.sink.current_size_ + formatted.length) ∧
          (faults.fwrite_count = none →
            (∃ before,
              ((sink_it_ faults b.sink b.fs formatted).rotated = true → before = []) ∧
              ((sink_it_ faults b.sink b.fs formatted).rotated = false →
                b.fs name = some before ∧ b.sink.file_ = some name) ∧
              (b.log bufsiz faults formatted).fs name = some (before ++ formatted)) ∧
            file_size_ (b.log bufsiz faults formatted).fs name
              = (b.log bufsiz faults formatted).sink.current_size_ ∧
            (b.log bufsiz faults formatted).unflushed =
              buffered_after bufsiz
                (if (sink_it_ faults b.sink b.fs formatted).rotated then 0 else b.unflushed)
                formatted.length ∧
            (b.log bufsiz faults formatted).st_size + (b.log bufsiz faults formatted).unflushed
              = (b.log bufsiz faults formatted).sink.current_size_ ∧
            (b.log bufsiz faults formatted).flush_.sink = (b.log bufsiz faults formatted).sink ∧
            (b.log bufsiz faults formatted).flush_.st_size
              = (b.log bufsiz faults formatted).sink.current_size_)) := by
  have hacc : b.accounted := by
    rw [← hb]
    exact stream_sink.run_accounted bufsiz ops _
      (stream_sink.opened_accounted faults0 fs0 base max_size max_files s0 h0) hops
  obtain ⟨h1, h2, h3⟩ := sink_it_sink faults b.sink b.fs formatted
  refine ⟨h1, ?_, h2, ?_⟩
  · intro heq
    cases hr : (sink_it_ faults b.sink b.fs formatted).rotated with
    | false => rfl
    | true =>
      have := h1.1 hr
      omega
  · intro name hname
    obtain ⟨hraised, hsize, _, _, _⟩ := h3 name hname
    refine ⟨hraised, ?_, ?_⟩
    · show (sink_it_ faults b.sink b.fs formatted).sink.current_size_ = _
      rw [hsize]
      split <;> simp
    · intro hw
      obtain ⟨⟨before, hb1, hb2, hfs, hlen⟩, hle, hunf⟩ :=
        stream_sink.log_open_file bufsiz faults b formatted hacc hw name hname
      have hfsz : file_size_ (b.log bufsiz faults formatted).fs name
          = (b.log bufsiz faults formatted).sink.current_size_ := by
        simp only [file_size_, hfs]
        exact hlen
      have hflush : (b.log bufsiz faults formatted).flush_ =
          { b.log bufsiz faults formatted with unflushed := 0 } := by
        simp only [stream_sink.flush_, hname]
      refine ⟨⟨before, hb1, hb2, hfs⟩, hfsz, hunf, ?_, ?_, ?_⟩
      · simp only [stream_sink.st_size, hname, hfsz]
        omega
      · rw [hflush]
      · rw [hflush]
        simp only [stream_sink.st_size, hname, hfsz]
        rfl

/-- The sink built on an empty directory with `max_size = 10` has logged a
record of 8 bytes and flushed; a record of 4 bytes then makes it rotate: the
new file `base` has the record written to it, `current_size_` is 4, and the 4
bytes are in the buffer of the stream, of 4096 bytes, until `flush_` runs. -/
theorem sink_it_rotates_and_counts_written_bytes_witness :
    ((ctor no_faults empty_directory sample_base 10 2).result
          = Except.ok sample_stream_sink.sink ∧
        writes_complete [sink_op.log no_faults "first 1\n".toList, sink_op.flush]) ∧
      (sink_it_ no_faults
          (stream_sink.run 4096 sample_stream_sink
            [sink_op.log no_faults "first 1\n".toList, sink_op.flush]).sink
          (stream_sink.run 4096 sample_stream_sink
            [sink_op.log no_faults "first 1\n".toList, sink_op.flush]).fs
          "rec\n".toList).rotated = true ∧
      ((stream_sink.run 4096 sample_stream_sink
          [sink_op.log no_faults "first 1\n".toList, sink_op.flush]).log 4096 no_faults
            "rec\n".toList).sink.file_ = some sample_base ∧
      ((stream_sink.run 4096 sample_stream_sink
          [sink_op.log no_faults "first 1\n".toList, sink_op.flush]).log 4096 no_faults
            "rec\n".toList).fs sample_base = some "rec\n".toList ∧
      ((stream_sink.run 4096 sample_stream_sink
          [sink_op.log no_faults "first 1\n".toList, sink_op.flush]).log 4096 no_faults
            "rec\n".toList).fs sample_base1 = some "first 1\n".toList ∧
      ((stream_sink.run 4096 sample_stream_sink
          [sink_op.log no_faults "first 1\n".toList, sink_op.flush]).log 4096 no_faults
            "rec\n".toList).sink.current_size_ = 4 ∧
      ((stream_sink.run 4096 sample_stream_sink
          [sink_op.log no_faults "first 1\n".toList, sink_op.flush]).log 4096 no_faults
            "rec\n".toList).st_size = 0 ∧
      ((stream_sink.run 4096 sample_stream_sink
          [sink_op.log no_faults "first 1\n".toList, sink_op.flush]).log 4096 no_faults
            "rec\n".toList).flush_.st_size = 4 :=
  ⟨⟨rfl, by
      intro faults formatted h
      simp only [List.mem_cons, sink_op.log.injEq, List.mem_singleton, List.not_mem_nil,
        or_false, reduceCtorEq] at h
      rw [h.1]
      rfl⟩,
    by decide, by decide, by decide, by decide, by decide, by decide,
    ((((sink_it_rotates_and_counts_written_bytes 4096 no_faults empty_directory sample_base
      10 2 sample_stream_sink.sink [sink_op.log no_faults "first 1\n".toList, sink_op.flush]
      _ no_faults "rec\n".toList rfl
      (by
        intro faults formatted h
        simp only [List.mem_cons, sink_op.log.injEq, List.mem_singleton, List.not_mem_nil,
          or_false, reduceCtorEq] at h
        rw [h.1]
        rfl)
      rfl).2.2.2 sample_base (by decide)).2.2 rfl).2.2.2.2.2).trans (by decide)⟩

/-- C17 fails on the code in its account of the bytes.  (1) The sink built on
an empty directory logs a record of 4 bytes: `current_size_` is 4 and a stream
is open on `base`, but the bytes are in the buffer of the stream and the byte
size of `base` is 0.  (2) The same call with an `fwrite` that writes 3 of the
4 bytes: `current_size_` is 4, and `base` has 3 bytes, also after `flush_`.
(3) A sink whose file holds 8 of the 10 bytes allowed logs 4 bytes while
`fopen` fails: it rotates, the rotation throws, and `current_size_` is still
8, not 4, with no stream open and the record written nowhere.  (4) That sink,
left with no stream, then logs one byte, no call failing: it does not rotate,
writes nothing and `current_size_` is still 8, not 9. -/
theorem open_file_shorter_than_current_size :
    ((ctor no_faults empty_directory sample_base 10 2).result
          = Except.ok sample_stream_sink.sink ∧
        (sample_stream_sink.log 4096 no_faults "rec\n".toList).sink.current_size_ = 4 ∧
        (sample_stream_sink.log 4096 no_faults "rec\n".toList).sink.file_
          = some sample_base ∧
        (sample_stream_sink.log 4096 no_faults "rec\n".toList).unflushed = 4 ∧
        (sample_stream_sink.log 4096 no_faults "rec\n".toList).st_size = 0) ∧
      ((sample_stream_sink.log 4096 short_write "rec\n".toList).sink.current_size_ = 4 ∧
        (sample_stream_sink.log 4096 short_write "rec\n".toList).fs sample_base
          = some "rec".toList ∧
        (sample_stream_sink.log 4096 short_write "rec\n".toList).flush_.st_size = 3) ∧
      ((sink_it_ fopen_fault sample_rotating_sink sample_directory "rec\n".toList).rotated
          = true ∧
        (sink_it_ fopen_fault sample_rotating_sink sample_directory "rec\n".toList).raised
          = some (exception.runtime_error
            "rotating_file_sink: Failed to create new file after rotation: base") ∧
        (sink_it_ fopen_fault sample_rotating_sink sample_directory
          "rec\n".toList).sink.current_size_ = 8 ∧
        (sink_it_ fopen_fault sample_rotating_sink sample_directory
          "rec\n".toList).sink.file_ = none ∧
        (sink_it_ fopen_fault sample_rotating_sink sample_directory "rec\n".toList).fs
          sample_base = none ∧
        (sink_it_ fopen_fault sample_rotating_sink sample_directory "rec\n".toList).fs
          sample_base1 = some "12345678".toList) ∧
      ((sink_it_ no_faults
          (sink_it_ fopen_fault sample_rotating_sink sample_directory "rec\n".toList).sink
          (sink_it_ fopen_fault sample_rotating_sink sample_directory "rec\n".toList).fs
          "x".toList).rotated = false ∧
        (sink_it_ no_faults
          (sink_it_ fopen_fault sample_rotating_sink sample_directory "rec\n".toList).sink
          (sink_it_ fopen_fault sample_rotating_sink sample_directory "rec\n".toList).fs
          "x".toList).sink.current_size_ = 8 ∧
        (sink_it_ no_faults
          (sink_it_ fopen_fault sample_rotating_sink sample_directory "rec\n".toList).sink
          (sink_it_ fopen_fault sample_rotating_sink sample_directory "rec\n".toList).fs
          "x".toList).fs sample_base = none) :=
  ⟨⟨rfl, by decide, by decide, by decide, by decide⟩,
    ⟨by decide, by decide, by decide⟩,
    ⟨by decide, by decide, by decide, by decide, by decide, by decide⟩,
    ⟨by decide, by decide, by decide⟩⟩

end rotating_file_sink

end sinks

namespace sinks

/-! ### File sizes under writes and rotations -/

theorem file_system.sizes_le_set {fs : file_system} {limit : Nat} (h : fs.sizes_le limit)
    (name : List Char) (content : Option (List Char))
    (hc : ∀ c, content = some c → c.length ≤ limit) :
    (fs.set name content).sizes_le limit := by
  intro n c hn
  unfold file_system.set at hn
  split at hn
  · exact hc c hn
  · exact h n c hn

theorem sizes_le_remove_file_ {fs : file_system} {limit : Nat} (h : fs.sizes_le limit)
    (faults : io_faults) (name : List Char) :
    (remove_file_ faults fs name).1.sizes_le limit := by
  unfold remove_file_
  split
  · exact file_system.sizes_le_set h name none (by simp)
  · exact h

theorem sizes_le_std_rename {fs : file_system} {limit : Nat} (h : fs.sizes_le limit)
    (faults : io_faults) (src target : List Char) :
    (std_rename faults fs src target).1.sizes_le limit := by
  unfold std_rename
  split
  · intro n c hn
    simp only at hn
    split at hn
    · exact h src c hn
    · split at hn
      · simp at hn
      · exact h n c hn
  · exact h

theorem sizes_le_rename_file_ {fs : file_system} {limit : Nat} (h : fs.sizes_le limit)
    (faults : io_faults) (src target : List Char) :
    (rename_file_ faults fs src target).1.sizes_le limit :=
  sizes_le_std_rename (sizes_le_remove_file_ h faults target) faults src target

theorem sizes_le_fopen_wb {fs fs1 : file_system} {limit : Nat} (h : fs.sizes_le limit)
    {faults : io_faults} {name : List Char} (ho : fopen_wb faults fs name = some fs1) :
    fs1.sizes_le limit := by
  unfold fopen_wb at ho
  split at ho
  · simp at ho
  · simp only [Option.some.injEq] at ho
    subst ho
    exact file_system.sizes_le_set h name (some []) (by simp)

theorem fwrite_spec (faults : io_faults) (fs : file_system) (name data : List Char) :
    (fs name = none → fwrite faults fs name data = fs) ∧
      (∀ content, fs name = some content →
        ∃ written, written.length ≤ data.length ∧
          fwrite faults fs name data = fs.set name (some (content ++ written))) := by
  constructor
  · intro h
    simp [fwrite, h]
  · intro content h
    cases hk : faults.fwrite_count with
    | none => exact ⟨data, le_refl _, by simp [fwrite, h, hk]⟩
    | some k => exact ⟨data.take k, by simp, by simp [fwrite, h, hk]⟩

namespace rotating_file_sink

theorem sizes_le_rotate_from (faults : io_faults) (base : List Char) (limit : Nat) :
    ∀ (i : Nat) (fs : file_system), fs.sizes_le limit →
      (rotate_from faults base i fs).fs.sizes_le limit := by
  intro i
  induction i with
  | zero =>
    intro fs h
    rw [rotate_from]
    cases ho : fopen_wb faults fs (calc_filename base 0) with
    | none => exact h
    | some fs1 => exact sizes_le_fopen_wb h ho
  | succ i ih =>
    intro fs h
    rw [rotate_from]
    by_cases hex : file_exists_ fs (calc_filename base i) = true
    · have hren := sizes_le_rename_file_ h faults (calc_filename base i)
        (calc_filename base (i + 1))
      cases hr : (rename_file_ faults fs (calc_filename base i)
          (calc_filename base (i + 1))).2 with
      | true =>
        simp only [hex, hr, Bool.not_true, Bool.false_eq_true, if_false]
        exact ih _ hren
      | false =>
        simp only [hex, hr, Bool.not_true, Bool.not_false, Bool.false_eq_true, if_false,
          if_true]
        cases ho : fopen_wb faults (rename_file_ faults fs (calc_filename base i)
            (calc_filename base (i + 1))).1 (calc_filename base i) with
        | none => exact hren
        | some fs2 => exact sizes_le_fopen_wb hren ho
    · simp only [Bool.not_eq_true] at hex
      simp only [hex, Bool.not_false, if_true]
      exact ih fs h

theorem sink_it_params (faults : io_faults) (s : rotating_file_sink) (fs : file_system)
    (formatted : List Char) :
    (sink_it_ faults s fs formatted).sink.max_size_ = s.max_size_ ∧
      (sink_it_ faults s fs formatted).sink.max_files_ = s.max_files_ ∧
      (sink_it_ faults s fs formatted).sink.base_filename_ = s.base_filename_ := by
  unfold sink_it_ write_formatted
  simp only
  split
  · split
    · exact ⟨rfl, rfl, rfl⟩
    · split <;> exact ⟨rfl, rfl, rfl⟩
  · split <;> exact ⟨rfl, rfl, rfl⟩

end rotating_file_sink

end sinks

namespace sinks

namespace rotating_file_sink

theorem within_limit_write_formatted (faults : io_faults) (s : rotating_file_sink)
    (fs : file_system) (formatted : List Char) (h : s.within_limit fs)
    (hn : s.current_size_ + formatted.length ≤ s.max_size_) :
    (write_formatted faults s fs formatted).1.within_limit
      (write_formatted faults s fs formatted).2 := by
  obtain ⟨hfs, hcs, hopen⟩ := h
  unfold write_formatted
  cases hf : s.file_ with
  | none => exact ⟨hfs, hcs, fun name content hname => by simp [hf] at hname⟩
  | some name =>
    simp only
    cases hc : fs name with
    | none =>
      rw [(fwrite_spec faults fs name formatted).1 hc]
      refine ⟨hfs, hn, ?_⟩
      intro nm content hnm hcontent
      simp only [Option.some.injEq] at hnm
      subst hnm
      rw [hc] at hcontent
      simp at hcontent
    | some content =>
      obtain ⟨written, hw, heq⟩ := (fwrite_spec faults fs name formatted).2 content hc
      rw [heq]
      have hlen : (content ++ written).length ≤ s.current_size_ + formatted.length := by
        have := hopen name content hf hc
        simp only [List.length_append]
        omega
      refine ⟨file_system.sizes_le_set hfs name _ ?_, hn, ?_⟩
      · intro c hceq
        simp only [Option.some.injEq] at hceq
        subst hceq
        exact le_trans hlen hn
      · intro nm c hnm hceq
        simp only [Option.some.injEq] at hnm
        subst hnm
        rw [file_system.set_same] at hceq
        simp only [Option.some.injEq] at hceq
        subst hceq
        exact hlen

theorem within_limit_sink_it_ (faults : io_faults) (s : rotating_file_sink)
    (fs : file_system) (formatted : List Char) (h : s.within_limit fs)
    (hn : formatted.length ≤ s.max_size_) :
    (sink_it_ faults s fs formatted).sink.within_limit (sink_it_ faults s fs formatted).fs := by
  by_cases hgt : s.current_size_ + formatted.length > s.max_size_
  · have hrot := sizes_le_rotate_from faults s.base_filename_ s.max_size_ s.max_files_ fs h.1
    have hfile := rotate_from_file faults s.base_filename_ s.max_files_ fs
    cases hr : (rotate_ faults s fs).raised with
    | some e =>
      have hnone : (rotate_ faults s fs).file_ = none := hfile.2 e hr
      simp only [sink_it_, hgt, if_true, hr]
      exact ⟨hrot, h.2.1, fun name content hname => by simp [hnone] at hname⟩
    | none =>
      obtain ⟨nm, hnm, hempty⟩ := hfile.1 hr
      have hnm1 : (rotate_ faults s fs).file_ = some nm := hnm
      simp only [sink_it_, hgt, if_true, hr]
      apply within_limit_write_formatted
      · refine ⟨hrot, Nat.zero_le _, ?_⟩
        intro name content hname hcontent
        simp only [hnm1, Option.some.injEq] at hname
        subst hname
        have hempty1 : (rotate_ faults s fs).fs nm = some [] := hempty
        rw [hempty1] at hcontent
        simp only [Option.some.injEq] at hcontent
        subst hcontent
        simp
      · simpa using hn
  · simp only [sink_it_, hgt, if_false]
    exact within_limit_write_formatted faults s fs formatted h (by omega)

theorem within_limit_write_all (writes : List (io_faults × List Char)) :
    ∀ (s : rotating_file_sink) (fs : file_system), s.within_limit fs →
      (∀ w ∈ writes, w.2.length ≤ s.max_size_) →
      (write_all s fs writes).1.within_limit (write_all s fs writes).2 ∧
        (write_all s fs writes).1.max_size_ = s.max_size_ := by
  induction writes with
  | nil =>
    intro s fs h _
    exact ⟨h, rfl⟩
  | cons w rest ih =>
    intro s fs h hlen
    obtain ⟨faults, formatted⟩ := w
    have hstep := within_limit_sink_it_ faults s fs formatted h
      (hlen (faults, formatted) (List.mem_cons_self _ _))
    have hmax := (sink_it_params faults s fs formatted).1
    have hrest := ih (sink_it_ faults s fs formatted).sink (sink_it_ faults s fs formatted).fs
      hstep (fun w hw => by rw [hmax]; exact hlen w (List.mem_cons_of_mem _ hw))
    exact ⟨hrest.1, by rw [← hmax]; exact hrest.2⟩

theorem within_limit_ctor (faults : io_faults) (base : List Char) (max_size max_files : Nat)
    (s : rotating_file_sink)
    (h : (ctor faults empty_directory base max_size max_files).result = Except.ok s) :
    s.within_limit (ctor faults empty_directory base max_size max_files).fs ∧
      s.max_size_ = max_size := by
  unfold ctor at h ⊢
  split at h
  · simp at h
  split at h
  · simp at h
  rename_i h1 h2
  simp only [h1, h2, if_false]
  simp only [if_false] at h
  cases hf : faults.fopen_fails (calc_filename base 0) with
  | true => simp [fopen_ab, hf] at h
  | false =>
    simp only [fopen_ab, hf, empty_directory, Bool.false_eq_true, if_false,
      Except.ok.injEq] at h ⊢
    subst h
    simp only [file_exists_, file_size_, file_system.set_same, Option.isSome_some, if_true,
      List.length_nil]
    refine ⟨⟨?_, Nat.zero_le _, ?_⟩, trivial⟩
    · intro n c hn
      unfold file_system.set at hn
      split at hn
      · simp only [Option.some.injEq] at hn
        subst hn
        exact Nat.zero_le _
      · simp [empty_directory] at hn
    · intro n c hn hc
      simp only [Option.some.injEq] at hn
      subst hn
      rw [file_system.set_same] at hc
      simp only [Option.some.injEq] at hc
      subst hc
      exact Nat.le_refl _

end rotating_file_sink

end sinks

namespace sinks

namespace rotating_file_sink

/-- C18 (as stated, refuted): a sink with `max_size = 10` and `max_files = 1`
on an empty directory is given a record of 13 bytes and then one of 2 bytes:
the second write rotates, and the history file `base.1` holds the 13 bytes. -/
theorem history_file_exceeds_max_size :
    (ctor no_faults empty_directory "base".toList 10 1).result
        = Except.ok ⟨"base".toList, 10, 1, 0, some "base".toList⟩ ∧
      (write_all ⟨"base".toList, 10, 1, 0, some "base".toList⟩
          (ctor no_faults empty_directory "base".toList 10 1).fs
          [(no_faults, "0123456789ab\n".toList), (no_faults, "x\n".toList)]).2
          (calc_filename "base".toList 1) = some "0123456789ab\n".toList ∧
      10 < "0123456789ab\n".toList.length := by
  refine ⟨rfl, by decide, by decide⟩

/-- C18 (amended): for a sink with `max_size` M and `max_files` K built on an
empty directory, and every sequence of writes of records that each render to
at most M bytes, whatever calls fail during the writes: after every number of
the writes, each history file `calc_filename base i` with `1 <= i <= K` that
exists has at most M bytes; so has every other file of the directory. -/
theorem history_files_within_max_size (faults0 : io_faults) (base : List Char) (M K : Nat)
    (s0 : rotating_file_sink)
    (hctor : (ctor faults0 empty_directory base M K).result = Except.ok s0)
    (writes : List (io_faults × List Char)) (hlen : ∀ w ∈ writes, w.2.length ≤ M) (k : Nat) :
    (∀ i content, 1 ≤ i → i ≤ K →
        (write_all s0 (ctor faults0 empty_directory base M K).fs (writes.take k)).2
            (calc_filename base i) = some content →
        content.length ≤ M) ∧
      ∀ name content,
        (write_all s0 (ctor faults0 empty_directory base M K).fs (writes.take k)).2 name
            = some content →
        content.length ≤ M := by
  obtain ⟨h0, hmax⟩ := within_limit_ctor faults0 base M K s0 hctor
  have hlen1 : ∀ w ∈ writes.take k, w.2.length ≤ s0.max_size_ := by
    intro w hw
    rw [hmax]
    exact hlen w (List.mem_of_mem_take hw)
  obtain ⟨hinv, hmax1⟩ := within_limit_write_all (writes.take k) s0
    (ctor faults0 empty_directory base M K).fs h0 hlen1
  have hall : ∀ name content,
      (write_all s0 (ctor faults0 empty_directory base M K).fs (writes.take k)).2 name
          = some content →
      content.length ≤ M := by
    intro name content hc
    have := hinv.1 name content hc
    rw [hmax1, hmax] at this
    exact this
  exact ⟨fun i content _ _ hc => hall _ content hc, hall⟩

/-- Two records of 8 and 4 bytes written to a sink with `max_size = 10` and
`max_files = 1`: the history file `base.1` holds the 8 bytes. -/
theorem history_files_within_max_size_witness :
    ((ctor no_faults empty_directory "base".toList 10 1).result
          = Except.ok ⟨"base".toList, 10, 1, 0, some "base".toList⟩ ∧
        (∀ w ∈ [(no_faults, "12345678".toList), (no_faults, "abc\n".toList)],
          w.2.length ≤ 10)) ∧
      (write_all ⟨"base".toList, 10, 1, 0, some "base".toList⟩
          (ctor no_faults empty_directory "base".toList 10 1).fs
          ([(no_faults, "12345678".toList), (no_faults, "abc\n".toList)].take 2)).2
          (calc_filename "base".toList 1) = some "12345678".toList ∧
      "12345678".toList.length ≤ 10 :=
  ⟨⟨rfl, by simp⟩, by decide,
    (history_files_within_max_size no_faults "base".toList 10 1
      ⟨"base".toList, 10, 1, 0, some "base".toList⟩ rfl
      [(no_faults, "12345678".toList), (no_faults, "abc\n".toList)] (by simp) 2).1 1
      "12345678".toList (by decide) (by decide) (by decide)⟩

end rotating_file_sink

end sinks

namespace sinks

/-! ### Runs in the directory of `base`, `base.1`, `base.2` -/

theorem directory3_base (a b c : Option (List Char)) : directory3 a b c sample_base = a := by
  simp [directory3]

theorem directory3_base1 (a b c : Option (List Char)) :
    directory3 a b c sample_base1 = b := by
  have h : sample_base1 ≠ sample_base := by decide
  simp [directory3, h]

theorem directory3_base2 (a b c : Option (List Char)) :
    directory3 a b c sample_base2 = c := by
  have h : sample_base2 ≠ sample_base := by decide
  have h1 : sample_base2 ≠ sample_base1 := by decide
  simp [directory3, h, h1]

theorem directory3_other (a b c : Option (List Char)) {n : List Char}
    (h0 : n ≠ sample_base) (h1 : n ≠ sample_base1) (h2 : n ≠ sample_base2) :
    directory3 a b c n = none := by
  simp [directory3, h0, h1, h2]

theorem directory3_ext (fs : file_system) (a b c : Option (List Char))
    (h0 : fs sample_base = a) (h1 : fs sample_base1 = b) (h2 : fs sample_base2 = c)
    (h : ∀ n, n ≠ sample_base → n ≠ sample_base1 → n ≠ sample_base2 → fs n = none) :
    fs = directory3 a b c := by
  funext n
  by_cases e0 : n = sample_base
  · rw [e0, h0, directory3_base]
  by_cases e1 : n = sample_base1
  · rw [e1, h1, directory3_base1]
  by_cases e2 : n = sample_base2
  · rw [e2, h2, directory3_base2]
  rw [h n e0 e1 e2, directory3_other a b c e0 e1 e2]

theorem directory3_set_base (a b c v : Option (List Char)) :
    (directory3 a b c).set sample_base v = directory3 v b c := by
  have h10 : sample_base1 ≠ sample_base := by decide
  have h20 : sample_base2 ≠ sample_base := by decide
  apply directory3_ext
  · simp [file_system.set]
  · simp [file_system.set, h10, directory3_base1]
  · simp [file_system.set, h20, directory3_base2]
  · intro n e0 e1 e2
    simp [file_system.set, e0, directory3_other a b c e0 e1 e2]

theorem rename_file_base1 (a c : Option (List Char)) (content : List Char) :
    rename_file_ no_faults (directory3 a (some content) c) sample_base1 sample_base2
      = (directory3 a none (some content), true) := by
  have h10 : sample_base1 ≠ sample_base := by decide
  have h20 : sample_base2 ≠ sample_base := by decide
  have h21 : sample_base2 ≠ sample_base1 := by decide
  have h12 : sample_base1 ≠ sample_base2 := by decide
  have h02 : sample_base ≠ sample_base2 := by decide
  have h01 : sample_base ≠ sample_base1 := by decide
  cases c with
  | none =>
    simp only [rename_file_, remove_file_, std_rename, no_faults, directory3_base2,
      directory3_base1, Option.isSome_none, Option.isSome_some, Bool.not_false, Bool.and_true,
      Bool.false_eq_true, if_false, if_true, Prod.mk.injEq, and_true]
    apply directory3_ext
    · simp [h02, h01, directory3_base]
    · simp [h12]
    · simp
    · intro n e0 e1 e2
      simp [e0, e1, e2, directory3_other _ _ _ e0 e1 e2]
  | some old =>
    simp only [rename_file_, remove_file_, std_rename, no_faults, directory3_base2,
      directory3_base1, Option.isSome_some, Bool.not_false, Bool.and_true,
      if_true, file_system.set, h12, if_false, Prod.mk.injEq, and_true]
    apply directory3_ext
    · simp [h02, h01, directory3_base]
    · simp [h12]
    · simp
    · intro n e0 e1 e2
      simp [e0, e1, e2, directory3_other _ _ _ e0 e1 e2]

theorem rename_file_base (c : Option (List Char)) (content : List Char) :
    rename_file_ no_faults (directory3 (some content) none c) sample_base sample_base1
      = (directory3 none (some content) c, true) := by
  have h10 : sample_base1 ≠ sample_base := by decide
  have h20 : sample_base2 ≠ sample_base := by decide
  have h21 : sample_base2 ≠ sample_base1 := by decide
  have h01 : sample_base ≠ sample_base1 := by decide
  simp only [rename_file_, remove_file_, std_rename, no_faults, directory3_base,
    directory3_base1, Option.isSome_none, Option.isSome_some, Bool.not_false, Bool.and_true,
    Bool.false_eq_true, if_false, if_true, Prod.mk.injEq, and_true]
  apply directory3_ext
  · simp [h01]
  · simp
  · simp [h21, h20, directory3_base2]
  · intro n e0 e1 e2
    simp [e0, e1, e2, directory3_other _ _ _ e0 e1 e2]

end sinks

namespace sinks

namespace rotating_file_sink

theorem calc_filename_sample_base :
    calc_filename sample_base 0 = sample_base ∧ calc_filename sample_base 1 = sample_base1 ∧
      calc_filename sample_base 2 = sample_base2 := by
  decide

theorem rotate_from_zero_directory3 (a b c : Option (List Char)) :
    (rotate_from no_faults sample_base 0 (directory3 a b c)).fs
        = directory3 (some []) b c ∧
      (rotate_from no_faults sample_base 0 (directory3 a b c)).file_ = some sample_base ∧
      (rotate_from no_faults sample_base 0 (directory3 a b c)).raised = none := by
  have hfs : (rotate_from no_faults sample_base 0 (directory3 a b c)).fs
      = (directory3 a b c).set sample_base (some []) := by
    simp [rotate_from, calc_filename_sample_base.1, fopen_wb, no_faults]
  refine ⟨by rw [hfs, directory3_set_base], ?_, ?_⟩ <;>
    simp [rotate_from, calc_filename_sample_base.1, fopen_wb, no_faults]

theorem rotate_from_one_directory3 (content : List Char) (c : Option (List Char)) :
    (rotate_from no_faults sample_base 1 (directory3 (some content) none c)).fs
        = directory3 (some []) (some content) c ∧
      (rotate_from no_faults sample_base 1 (directory3 (some content) none c)).file_
        = some sample_base ∧
      (rotate_from no_faults sample_base 1 (directory3 (some content) none c)).raised
        = none := by
  have h : rotate_from no_faults sample_base (0 + 1) (directory3 (some content) none c)
      = { rotate_from no_faults sample_base 0 (directory3 none (some content) c) with
          renames := (sample_base, sample_base1, true)
            :: (rotate_from no_faults sample_base 0
                (directory3 none (some content) c)).renames } := by
    rw [rotate_from.eq_2]
    simp only [calc_filename_sample_base.1, calc_filename_sample_base.2.1, file_exists_,
      directory3_base, Option.isSome_some, Bool.not_true, Bool.false_eq_true, if_false,
      rename_file_base]
  have h1 : rotate_from no_faults sample_base 1 (directory3 (some content) none c)
      = rotate_from no_faults sample_base (0 + 1) (directory3 (some content) none c) := rfl
  rw [h1, h]
  exact rotate_from_zero_directory3 none (some content) c

theorem rotate_from_two_directory3 (content : List Char) (b c : Option (List Char)) :
    (rotate_from no_faults sample_base 2 (directory3 (some content) b c)).fs
        = directory3 (some []) (some content) (if b.isSome then b else c) ∧
      (rotate_from no_faults sample_base 2 (directory3 (some content) b c)).file_
        = some sample_base ∧
      (rotate_from no_faults sample_base 2 (directory3 (some content) b c)).raised
        = none := by
  have h2 : rotate_from no_faults sample_base 2 (directory3 (some content) b c)
      = rotate_from no_faults sample_base (1 + 1) (directory3 (some content) b c) := rfl
  cases b with
  | none =>
    have h : rotate_from no_faults sample_base (1 + 1) (directory3 (some content) none c)
        = rotate_from no_faults sample_base 1 (directory3 (some content) none c) := by
      rw [rotate_from.eq_2]
      simp only [calc_filename_sample_base.2.1, file_exists_, directory3_base1,
        Option.isSome_none, Bool.not_false, if_true]
    rw [h2, h]
    simpa using rotate_from_one_directory3 content c
  | some old =>
    have h : rotate_from no_faults sample_base (1 + 1) (directory3 (some content) (some old) c)
        = { rotate_from no_faults sample_base 1 (directory3 (some content) none (some old)) with
            renames := (sample_base1, sample_base2, true)
              :: (rotate_from no_faults sample_base 1
                  (directory3 (some content) none (some old))).renames } := by
      rw [rotate_from.eq_2]
      simp only [calc_filename_sample_base.2.1, calc_filename_sample_base.2.2, file_exists_,
        directory3_base1, Option.isSome_some, Bool.not_true, Bool.false_eq_true, if_false,
        rename_file_base1]
    rw [h2, h]
    simpa using rotate_from_one_directory3 content (some old)

end rotating_file_sink

end sinks

namespace sinks

namespace rotating_file_sink

theorem write_all_cons (s : rotating_file_sink) (fs : file_system) (faults : io_faults)
    (formatted : List Char) (rest : List (io_faults × List Char)) :
    write_all s fs ((faults, formatted) :: rest)
      = write_all (sink_it_ faults s fs formatted).sink (sink_it_ faults s fs formatted).fs
          rest :=
  rfl

theorem sink_it_append_directory3 (M cs n cs2 : Nat) (content r : List Char)
    (b c : Option (List Char)) (hr : r.length = n) (hcs : cs + n = cs2) (h : cs2 ≤ M) :
    (sink_it_ no_faults ⟨sample_base, M, 2, cs, some sample_base⟩
        (directory3 (some content) b c) r).sink
        = ⟨sample_base, M, 2, cs2, some sample_base⟩ ∧
      (sink_it_ no_faults ⟨sample_base, M, 2, cs, some sample_base⟩
        (directory3 (some content) b c) r).fs
        = directory3 (some (content ++ r)) b c := by
  have hn : ¬ (cs + r.length > M) := by omega
  subst hr hcs
  simp [sink_it_, hn, write_formatted, fwrite, directory3_base, no_faults, directory3_set_base]

theorem sink_it_rotate_directory3 (M cs n : Nat) (content r : List Char)
    (b c : Option (List Char)) (hr : r.length = n) (h : cs + n > M) :
    (sink_it_ no_faults ⟨sample_base, M, 2, cs, some sample_base⟩
        (directory3 (some content) b c) r).sink
        = ⟨sample_base, M, 2, n, some sample_base⟩ ∧
      (sink_it_ no_faults ⟨sample_base, M, 2, cs, some sample_base⟩
        (directory3 (some content) b c) r).fs
        = directory3 (some r) (some content) (if b.isSome then b else c) := by
  subst hr
  obtain ⟨hfs, hfile, hraise⟩ := rotate_from_two_directory3 content b c
  have hcount : no_faults.fwrite_count = none := rfl
  simp only [sink_it_, h, rotate_, if_true, hraise]
  simp only [write_formatted, hfile, fwrite, hfs, directory3_base, hcount,
    directory3_set_base, List.nil_append, Nat.zero_add, and_self]

/-- The ten writes of records of 30 bytes to a sink with `max_size = 100` and
`max_files = 2` whose directory holds the empty file `base`: the files
afterwards. -/
theorem ten_writes_run (r : Nat → List Char) (h : ∀ k, (r k).length = 30) :
    write_all ⟨sample_base, 100, 2, 0, some sample_base⟩ (directory3 (some []) none none)
        (ten_writes r)
      = (⟨sample_base, 100, 2, 30, some sample_base⟩,
          directory3 (some (r 9)) (some (r 6 ++ r 7 ++ r 8)) (some (r 3 ++ r 4 ++ r 5))) := by
  have hl : ten_writes r
      = [(no_faults, r 0), (no_faults, r 1), (no_faults, r 2), (no_faults, r 3),
          (no_faults, r 4), (no_faults, r 5), (no_faults, r 6), (no_faults, r 7),
          (no_faults, r 8), (no_faults, r 9)] := rfl
  have s0 := sink_it_append_directory3 100 0 30 30 [] (r 0) none none (h 0) rfl (by decide)
  have s1 := sink_it_append_directory3 100 30 30 60 ([] ++ r 0) (r 1) none none (h 1) rfl
    (by decide)
  have s2 := sink_it_append_directory3 100 60 30 90 ([] ++ r 0 ++ r 1) (r 2) none none (h 2)
    rfl (by decide)
  have s3 := sink_it_rotate_directory3 100 90 30 ([] ++ r 0 ++ r 1 ++ r 2) (r 3) none none
    (h 3) (by decide)
  simp only [Option.isSome_none, Bool.false_eq_true, if_false] at s3
  have s4 := sink_it_append_directory3 100 30 30 60 (r 3) (r 4)
    (some ([] ++ r 0 ++ r 1 ++ r 2)) none (h 4) rfl (by decide)
  have s5 := sink_it_append_directory3 100 60 30 90 (r 3 ++ r 4) (r 5)
    (some ([] ++ r 0 ++ r 1 ++ r 2)) none (h 5) rfl (by decide)
  have s6 := sink_it_rotate_directory3 100 90 30 (r 3 ++ r 4 ++ r 5) (r 6)
    (some ([] ++ r 0 ++ r 1 ++ r 2)) none (h 6) (by decide)
  simp only [Option.isSome_some, if_true] at s6
  have s7 := sink_it_append_directory3 100 30 30 60 (r 6) (r 7) (some (r 3 ++ r 4 ++ r 5))
    (some ([] ++ r 0 ++ r 1 ++ r 2)) (h 7) rfl (by decide)
  have s8 := sink_it_append_directory3 100 60 30 90 (r 6 ++ r 7) (r 8)
    (some (r 3 ++ r 4 ++ r 5)) (some ([] ++ r 0 ++ r 1 ++ r 2)) (h 8) rfl (by decide)
  have s9 := sink_it_rotate_directory3 100 90 30 (r 6 ++ r 7 ++ r 8) (r 9)
    (some (r 3 ++ r 4 ++ r 5)) (some ([] ++ r 0 ++ r 1 ++ r 2)) (h 9) (by decide)
  simp only [Option.isSome_some, if_true] at s9
  rw [hl, write_all_cons, s0.1, s0.2, write_all_cons, s1.1, s1.2, write_all_cons, s2.1, s2.2,
    write_all_cons, s3.1, s3.2, write_all_cons, s4.1, s4.2, write_all_cons, s5.1, s5.2,
    write_all_cons, s6.1, s6.2, write_all_cons, s7.1, s7.2, write_all_cons, s8.1, s8.2,
    write_all_cons, s9.1, s9.2]
  rfl

theorem ctor_empty_directory_sample :
    (ctor no_faults empty_directory sample_base 100 2).result
        = Except.ok ⟨sample_base, 100, 2, 0, some sample_base⟩ ∧
      (ctor no_faults empty_directory sample_base 100 2).fs
        = directory3 (some []) none none := by
  refine ⟨rfl, ?_⟩
  apply directory3_ext
  · decide
  · decide
  · decide
  · intro n e0 _ _
    simp [ctor, fopen_ab, no_faults, calc_filename_zero, empty_directory, file_system.set, e0]

end rotating_file_sink

end sinks

namespace sinks

namespace rotating_file_sink

/-- C19 (as stated, refuted): with `max_size = 100` and `max_files = 2` on an
empty directory, after the ten records `sample_record 0`, ...,
`sample_record 9` of 30 bytes each, the file `base` holds the last record
only, not the last three, and the sizes of `base`, `base.1` and `base.2` sum
to 210, not 300. -/
theorem ten_records_leave_210_bytes :
    (∀ k < 10, (sample_record k).length = 30) ∧
      (ctor no_faults empty_directory sample_base 100 2).result
        = Except.ok ⟨sample_base, 100, 2, 0, some sample_base⟩ ∧
      (write_all ⟨sample_base, 100, 2, 0, some sample_base⟩
          (ctor no_faults empty_directory sample_base 100 2).fs
          (ten_writes sample_record)).2 sample_base = some (sample_record 9) ∧
      (write_all ⟨sample_base, 100, 2, 0, some sample_base⟩
          (ctor no_faults empty_directory sample_base 100 2).fs
          (ten_writes sample_record)).2 sample_base
        ≠ some (sample_record 7 ++ sample_record 8 ++ sample_record 9) ∧
      file_size_ (write_all ⟨sample_base, 100, 2, 0, some sample_base⟩
          (ctor no_faults empty_directory sample_base 100 2).fs
          (ten_writes sample_record)).2 sample_base
        + file_size_ (write_all ⟨sample_base, 100, 2, 0, some sample_base⟩
          (ctor no_faults empty_directory sample_base 100 2).fs
          (ten_writes sample_record)).2 (calc_filename sample_base 1)
        + file_size_ (write_all ⟨sample_base, 100, 2, 0, some sample_base⟩
          (ctor no_faults empty_directory sample_base 100 2).fs
          (ten_writes sample_record)).2 (calc_filename sample_base 2)
        = 210 := by
  refine ⟨by decide, rfl, by decide, by decide, by decide⟩

/-- C19 (amended): with `max_size = 100` and `max_files = 2` on an empty
directory, after writing ten records `r 0`, ..., `r 9` that each render to 30
bytes, no call failing: exactly the files `base`, `base.1` and `base.2` exist;
`base` holds the most recent record `r 9` alone, `base.1` the three records
before it in order, `base.2` the three before those in order; the three oldest
records are in no file and no record is in two files; the sizes are 30, 90
and 90, each at most 100, and sum to 210. -/
theorem ten_records_fill_three_files (r : Nat → List Char) (h : ∀ k, (r k).length = 30) :
    (ctor no_faults empty_directory sample_base 100 2).result
        = Except.ok ⟨sample_base, 100, 2, 0, some sample_base⟩ ∧
      (∀ name,
        ((write_all ⟨sample_base, 100, 2, 0, some sample_base⟩
            (ctor no_faults empty_directory sample_base 100 2).fs
            (ten_writes r)).2 name).isSome = true ↔
          name = calc_filename sample_base 0 ∨ name = calc_filename sample_base 1 ∨
            name = calc_filename sample_base 2) ∧
      (write_all ⟨sample_base, 100, 2, 0, some sample_base⟩
          (ctor no_faults empty_directory sample_base 100 2).fs
          (ten_writes r)).2 (calc_filename sample_base 0) = some (r 9) ∧
      (write_all ⟨sample_base, 100, 2, 0, some sample_base⟩
          (ctor no_faults empty_directory sample_base 100 2).fs
          (ten_writes r)).2 (calc_filename sample_base 1) = some (r 6 ++ r 7 ++ r 8) ∧
      (write_all ⟨sample_base, 100, 2, 0, some sample_base⟩
          (ctor no_faults empty_directory sample_base 100 2).fs
          (ten_writes r)).2 (calc_filename sample_base 2) = some (r 3 ++ r 4 ++ r 5) ∧
      (r 9).length = 30 ∧ (r 6 ++ r 7 ++ r 8).length = 90 ∧ (r 3 ++ r 4 ++ r 5).length = 90 ∧
      (r 9).length + (r 6 ++ r 7 ++ r 8).length + (r 3 ++ r 4 ++ r 5).length = 210 ∧
      calc_filename sample_base 0 = "base".toList ∧
      calc_filename sample_base 1 = "base.1".toList ∧
      calc_filename sample_base 2 = "base.2".toList := by
  rw [ctor_empty_directory_sample.2, ten_writes_run r h, calc_filename_sample_base.1,
    calc_filename_sample_base.2.1, calc_filename_sample_base.2.2]
  dsimp only
  refine ⟨ctor_empty_directory_sample.1, ?_, directory3_base _ _ _, directory3_base1 _ _ _,
    directory3_base2 _ _ _, h 9, ?_, ?_, ?_, rfl, rfl, rfl⟩
  · intro name
    constructor
    · intro hs
      by_contra hne
      simp only [not_or] at hne
      rw [directory3_other _ _ _ hne.1 hne.2.1 hne.2.2] at hs
      simp at hs
    · rintro (e | e | e)
      · rw [e, directory3_base]; rfl
      · rw [e, directory3_base1]; rfl
      · rw [e, directory3_base2]; rfl
  · simp [h]
  · simp [h]
  · simp [h]

/-- The ten records `sample_record 0`, ..., `sample_record 9`. -/
theorem ten_records_fill_three_files_witness :
    (∀ k, (sample_record k).length = 30) ∧
      (write_all ⟨sample_base, 100, 2, 0, some sample_base⟩
          (ctor no_faults empty_directory sample_base 100 2).fs
          (ten_writes sample_record)).2 (calc_filename sample_base 1)
        = some (sample_record 6 ++ sample_record 7 ++ sample_record 8) :=
  ⟨fun k => by simp [sample_record],
    (ten_records_fill_three_files sample_record (fun k => by simp [sample_record])).2.2.2.1⟩

end rotating_file_sink

end sinks

namespace sinks

namespace rotating_file_sink

end rotating_file_sink

end sinks

namespace sinks

namespace rotating_file_sink

end rotating_file_sink

end sinks

namespace sinks

namespace rotating_file_sink

/-- A rotation depends on the `fopen`, `rename` and `remove` calls that fail,
not on what `fwrite` does. -/
theorem rotate_from_congr (f1 f2 : io_faults) (base : List Char)
    (hopen : f1.fopen_fails = f2.fopen_fails) (hrename : f1.rename_fails = f2.rename_fails)
    (hremove : f1.remove_fails = f2.remove_fails) :
    ∀ (i : Nat) (fs : file_system), rotate_from f1 base i fs = rotate_from f2 base i fs := by
  have hwb : ∀ fs name, fopen_wb f1 fs name = fopen_wb f2 fs name := by
    intro fs name
    simp only [fopen_wb, hopen]
  have hren : ∀ fs src target, rename_file_ f1 fs src target = rename_file_ f2 fs src target := by
    intro fs src target
    simp only [rename_file_, remove_file_, std_rename, hrename, hremove]
  intro i
  induction i with
  | zero =>
    intro fs
    simp only [rotate_from, hwb]
  | succ i ih =>
    intro fs
    rw [rotate_from.eq_2, rotate_from.eq_2]
    simp only [hwb, hren, ih]

/-- C21 (as stated, refuted): a sink with `max_size = 100` on an empty
directory logs a record of 11 bytes while `fwrite` writes only 3 of them:
`log` raises nothing, the file holds the 3 bytes, and `current_size_` is 11. -/
theorem short_write_raises_nothing :
    (ctor no_faults empty_directory sample_base 100 2).result
        = Except.ok ⟨sample_base, 100, 2, 0, some sample_base⟩ ∧
      (log short_write ⟨sample_base, 100, 2, 0, some sample_base⟩
          (ctor no_faults empty_directory sample_base 100 2).fs
          "0123456789\n".toList).raised = none ∧
      (log short_write ⟨sample_base, 100, 2, 0, some sample_base⟩
          (ctor no_faults empty_directory sample_base 100 2).fs
          "0123456789\n".toList).fs sample_base = some "012".toList ∧
      "012".toList.length < "0123456789\n".toList.length ∧
      (log short_write ⟨sample_base, 100, 2, 0, some sample_base⟩
          (ctor no_faults empty_directory sample_base 100 2).fs
          "0123456789\n".toList).sink.current_size_ = 11 := by
  refine ⟨rfl, by decide, by decide, by decide, by decide⟩

end rotating_file_sink

end sinks

namespace sinks

namespace rotating_file_sink

/-- C21 (amended): `log` does not look at what `fwrite` returns.  Whatever
count of bytes the write gets through, `log` raises the same, rotates the same
and leaves the same `current_size_` (advanced by `n` when the stream is open);
without a rotation it raises nothing, and what it raises is what `rotate_`
raised when a file could not be opened. -/
theorem log_ignores_failed_write (faults : io_faults) (s : rotating_file_sink)
    (fs : file_system) (formatted : List Char) (count : Option Nat) :
    (log { faults with fwrite_count := count } s fs formatted).raised
        = (log { faults with fwrite_count := none } s fs formatted).raised ∧
      (log { faults with fwrite_count := count } s fs formatted).rotated
        = (log { faults with fwrite_count := none } s fs formatted).rotated ∧
      (log { faults with fwrite_count := count } s fs formatted).sink
        = (log { faults with fwrite_count := none } s fs formatted).sink ∧
      ((log faults s fs formatted).rotated = false →
        (log faults s fs formatted).raised = none ∧
          ∀ name, s.file_ = some name →
            (log faults s fs formatted).sink.current_size_
              = s.current_size_ + formatted.length) ∧
      ((log faults s fs formatted).raised = none →
        ∀ name, (log faults s fs formatted).sink.file_ = some name →
          (log faults s fs formatted).sink.current_size_
            = (if (log faults s fs formatted).rotated then 0 else s.current_size_)
              + formatted.length) ∧
      (∀ e, (log faults s fs formatted).raised = some e →
        (log faults s fs formatted).rotated = true ∧ (rotate_ faults s fs).raised = some e) := by
  have hrot : rotate_ { faults with fwrite_count := count } s fs
      = rotate_ { faults with fwrite_count := none } s fs :=
    rotate_from_congr { faults with fwrite_count := count } { faults with fwrite_count := none }
      s.base_filename_ rfl rfl rfl s.max_files_ fs
  refine ⟨?_, ?_, ?_, ?_, ?_, ?_⟩
  · simp only [log, sink_it_, hrot]
    split
    · split <;> rfl
    · rfl
  · simp only [log, sink_it_, hrot]
    split
    · split <;> rfl
    · rfl
  · simp only [log, sink_it_, hrot, write_formatted]
    split
    · split
      · rfl
      · split <;> rfl
    · split <;> rfl
  · by_cases hgt : s.current_size_ + formatted.length > s.max_size_
    · intro h
      simp only [log, sink_it_, hgt, if_true] at h
      split at h <;> simp at h
    · intro _
      simp only [log, sink_it_, hgt, if_false, write_formatted, true_and]
      intro name hname
      simp only [hname]
  · by_cases hgt : s.current_size_ + formatted.length > s.max_size_
    · cases hr : (rotate_ faults s fs).raised with
      | some e => simp [log, sink_it_, hgt, hr]
      | none =>
        simp only [log, sink_it_, hgt, if_true, hr, write_formatted]
        intro _ name hname
        split at hname
        · simp
        · simp at hname
          rename_i hnone
          simp [hnone] at hname
    · simp only [log, sink_it_, hgt, if_false, write_formatted]
      intro _ name hname
      split at hname
      · simp
      · rename_i hnone
        simp [hnone] at hname
  · by_cases hgt : s.current_size_ + formatted.length > s.max_size_
    · cases hr : (rotate_ faults s fs).raised with
      | some e1 => simp [log, sink_it_, hgt, hr]
      | none => simp [log, sink_it_, hgt, hr]
    · simp [log, sink_it_, hgt]

end rotating_file_sink

end sinks

namespace sinks

/-! ### Decimal digits and the cut of a base name -/

theorem digitChar_val (k : Nat) (h : k < 10) :
    (Nat.digitChar k).toNat - 48 = k ∧ (Nat.digitChar k).isDigit = true := by
  interval_cases k <;> decide

theorem parse_digits_foldl_toDigitsCore :
    ∀ (fuel n : Nat) (ds : List Char), n < fuel →
      (Nat.toDigitsCore 10 fuel n ds).foldl (fun acc c => acc * 10 + (c.toNat - 48)) 0
        = ds.foldl (fun acc c => acc * 10 + (c.toNat - 48)) n := by
  intro fuel
  induction fuel with
  | zero => intro n ds h; omega
  | succ fuel ih =>
    intro n ds h
    have hd := (digitChar_val (n % 10) (Nat.mod_lt n (by decide))).1
    unfold Nat.toDigitsCore
    simp only
    split
    · rename_i h0
      simp only [List.foldl_cons, Nat.zero_mul, Nat.zero_add, hd]
      have : n % 10 = n := by omega
      rw [this]
    · rename_i h0
      rw [ih (n / 10) _ (by omega)]
      simp only [List.foldl_cons, hd]
      have : n / 10 * 10 + n % 10 = n := by omega
      rw [this]

theorem parse_digits_toDigits (n : Nat) : parse_digits (Nat.toDigits 10 n) = n := by
  unfold parse_digits Nat.toDigits
  rw [parse_digits_foldl_toDigitsCore (n + 1) n [] (by omega)]
  rfl

theorem toDigitsCore_isDigit :
    ∀ (fuel n : Nat) (ds : List Char), (∀ c ∈ ds, c.isDigit = true) →
      ∀ c ∈ Nat.toDigitsCore 10 fuel n ds, c.isDigit = true := by
  intro fuel
  induction fuel with
  | zero =>
    intro n ds h c hc
    simp only [Nat.toDigitsCore] at hc
    exact h c hc
  | succ fuel ih =>
    intro n ds h
    have hd := (digitChar_val (n % 10) (Nat.mod_lt n (by decide))).2
    have hcons : ∀ c ∈ Nat.digitChar (n % 10) :: ds, c.isDigit = true := by
      intro c hc
      rcases List.mem_cons.1 hc with rfl | hc
      · exact hd
      · exact h c hc
    unfold Nat.toDigitsCore
    simp only
    split
    · exact hcons
    · exact ih (n / 10) _ hcons

theorem toDigits_isDigit (n : Nat) : ∀ c ∈ Nat.toDigits 10 n, c.isDigit = true :=
  toDigitsCore_isDigit (n + 1) n [] (by simp)

theorem toDigits_ne_nil (n : Nat) : Nat.toDigits 10 n ≠ [] := by
  unfold Nat.toDigits Nat.toDigitsCore
  simp only
  split
  · simp
  · intro h
    have hlen := Nat.toDigitsCore_lens_eq 10 n (n / 10) (Nat.digitChar (n % 10)) []
    rw [h] at hlen
    simp at hlen

theorem toDigits_injective {i j : Nat} (h : Nat.toDigits 10 i = Nat.toDigits 10 j) : i = j := by
  rw [← parse_digits_toDigits i, ← parse_digits_toDigits j, h]

end sinks

namespace sinks

theorem split_ext_append (base : List Char) :
    (split_ext base).1 ++ (split_ext base).2 = base := by
  unfold split_ext
  simp only
  split
  · simp
  · split <;> simp
  · simp

theorem calc_filename_eq_split (base : List Char) (i : Nat) (h : i ≠ 0) :
    calc_filename base i
      = (split_ext base).1 ++ ['.'] ++ Nat.toDigits 10 i ++ (split_ext base).2 := by
  unfold calc_filename split_ext to_string
  simp only [h, if_false]
  split
  · rfl
  · split <;> simp
  · simp

theorem calc_filename_length (base : List Char) (i : Nat) (h : i ≠ 0) :
    base.length < (calc_filename base i).length := by
  rw [calc_filename_eq_split base i h]
  have hb := congrArg List.length (split_ext_append base)
  simp only [List.length_append, List.length_cons, List.length_nil] at hb ⊢
  omega

theorem calc_filename_inj (base : List Char) {i j : Nat}
    (h : calc_filename base i = calc_filename base j) : i = j := by
  by_cases hi : i = 0
  · by_cases hj : j = 0
    · rw [hi, hj]
    · have hlen := calc_filename_length base j hj
      rw [← h, hi, calc_filename_zero] at hlen
      omega
  · by_cases hj : j = 0
    · have hlen := calc_filename_length base i hi
      rw [h, hj, calc_filename_zero] at hlen
      omega
    · rw [calc_filename_eq_split base i hi, calc_filename_eq_split base j hj] at h
      have h1 := List.append_cancel_right h
      have h2 := List.append_cancel_left h1
      exact toDigits_injective h2

/-- C29: for every base filename, `calc_filename(base, i)` is injective in the
index: different indices give different names; hence the names
`calc_filename(base, 0)`, ..., `calc_filename(base, K)` that a rotation with
`max_files = K` uses as sources and targets are pairwise distinct, and the
source and the target of each rename differ. -/
theorem calc_filename_injective_in_index (base : List Char) :
    (∀ i j, i ≠ j → calc_filename base i ≠ calc_filename base j) ∧
      (∀ K, ((List.range (K + 1)).map (calc_filename base)).Nodup) ∧
      ∀ i, calc_filename base i ≠ calc_filename base (i + 1) := by
  have hinj : Function.Injective (calc_filename base) := fun i j h => calc_filename_inj base h
  refine ⟨fun i j hne h => hne (calc_filename_inj base h), ?_, ?_⟩
  · intro K
    exact (List.nodup_range (K + 1)).map hinj
  · intro i h
    have := calc_filename_inj base h
    omega

end sinks

namespace sinks

/-- C22 (as stated, refuted): the base path `mylog` with index 2 and the base
path `mylog.2` with index 0 derive the same name `mylog.2`, from different
stems, extensions and indices; so no parser of names gives back, for every
base path and index, the triple that produced the name. -/
theorem derived_name_does_not_determine_index :
    calc_filename "mylog".toList 2 = "mylog.2".toList ∧
      calc_filename "mylog.2".toList 0 = "mylog.2".toList ∧
      split_ext "mylog".toList = ("mylog".toList, []) ∧
      split_ext "mylog.2".toList = ("mylog".toList, ".2".toList) ∧
      ¬ ∃ parse : List Char → List Char × List Char × Nat,
        ∀ P i, parse (calc_filename P i) = ((split_ext P).1, (split_ext P).2, i) := by
  refine ⟨by decide, by decide, by decide, by decide, ?_⟩
  rintro ⟨parse, h⟩
  have h1 := h "mylog".toList 2
  have h2 := h "mylog.2".toList 0
  have e1 : calc_filename "mylog".toList 2 = "mylog.2".toList := by decide
  have e2 : calc_filename "mylog.2".toList 0 = "mylog.2".toList := by decide
  rw [e1] at h1
  rw [e2, h1] at h2
  have h3 := congrArg (fun t => t.2.2) h2
  simp at h3

/-- C22 (amended): for every base path `P`, cut by `calc_filename` into stem
and extension, and every index `i`: `calc_filename(P, 0)` is `P`, which is
stem and extension; for `i >= 1` the derived name is the stem, a dot, the
decimal digits of `i` and the extension; and reading the derived name against
that stem and extension yields `i`. -/
theorem calc_filename_round_trip_against_base (P : List Char) (i : Nat) :
    (split_ext P).1 ++ (split_ext P).2 = P ∧
      calc_filename P 0 = P ∧
      (1 ≤ i → calc_filename P i
        = (split_ext P).1 ++ ['.'] ++ Nat.toDigits 10 i ++ (split_ext P).2) ∧
      parse_digits (Nat.toDigits 10 i) = i ∧
      parse_index (split_ext P).1 (split_ext P).2 (calc_filename P i) = some i := by
  refine ⟨split_ext_append P, calc_filename_zero P,
    fun hi => calc_filename_eq_split P i (by omega), parse_digits_toDigits i, ?_⟩
  by_cases hi : i = 0
  · subst hi
    simp [parse_index, calc_filename_zero, split_ext_append]
  · have hname := calc_filename_eq_split P i hi
    have hlen := calc_filename_length P i hi
    have hne : calc_filename P i ≠ (split_ext P).1 ++ (split_ext P).2 := by
      intro h
      rw [h, split_ext_append] at hlen
      omega
    have hrest : (calc_filename P i).drop ((split_ext P).1.length + 1)
        = Nat.toDigits 10 i ++ (split_ext P).2 := by
      rw [hname]
      have : (split_ext P).1 ++ ['.'] ++ Nat.toDigits 10 i ++ (split_ext P).2
          = ((split_ext P).1 ++ ['.']) ++ (Nat.toDigits 10 i ++ (split_ext P).2) := by
        simp
      rw [this, List.drop_left' (by simp)]
    have hdigits : (Nat.toDigits 10 i ++ (split_ext P).2).take
        ((Nat.toDigits 10 i ++ (split_ext P).2).length - (split_ext P).2.length)
        = Nat.toDigits 10 i := by
      have : (Nat.toDigits 10 i ++ (split_ext P).2).length - (split_ext P).2.length
          = (Nat.toDigits 10 i).length := by
        simp
      rw [this, List.take_left']
      rfl
    have hall : (Nat.toDigits 10 i).all Char.isDigit = true := by
      rw [List.all_eq_true]
      exact toDigits_isDigit i
    unfold parse_index
    rw [if_neg hne]
    simp only [hrest, hdigits]
    rw [if_pos ⟨hname, toDigits_ne_nil i, hall⟩, parse_digits_toDigits]

end sinks

namespace sinks

/-! ### A rotation in which no call fails -/

theorem rename_file_no_faults (fs : file_system) (src target content : List Char)
    (hsrc : fs src = some content) (hne : src ≠ target) :
    (rename_file_ no_faults fs src target).2 = true ∧
      ∀ n, (rename_file_ no_faults fs src target).1 n
        = if n = target then some content else if n = src then none else fs n := by
  have hsrc1 : (remove_file_ no_faults fs target).1 src = some content := by
    unfold remove_file_
    split
    · show (fs.set target none) src = some content
      rw [file_system.set_other _ _ hne, hsrc]
    · exact hsrc
  have hother : ∀ n, n ≠ target → (remove_file_ no_faults fs target).1 n = fs n := by
    intro n hn
    unfold remove_file_
    split
    · show (fs.set target none) n = fs n
      rw [file_system.set_other _ _ hn]
    · rfl
  have hrf : no_faults.rename_fails src target = false := rfl
  constructor
  · simp only [rename_file_, std_rename, hsrc1, hrf, Option.isSome_some, Bool.not_false,
      Bool.and_true, if_true]
  · intro n
    simp only [rename_file_, std_rename, hsrc1, hrf, Option.isSome_some, Bool.not_false,
      Bool.and_true, if_true]
    by_cases h1 : n = target
    · simp [h1]
    · by_cases h2 : n = src
      · simp [h1, h2]
      · simp [h1, h2, hother n h1]

namespace rotating_file_sink

theorem rotate_from_shift (base : List Char) :
    ∀ (i : Nat) (fs : file_system),
      (rotate_from no_faults base i fs).raised = none ∧
        (rotate_from no_faults base i fs).file_ = some base ∧
        (rotate_from no_faults base i fs).fs base = some [] ∧
        (∀ j, 1 ≤ j → j < i →
          (rotate_from no_faults base i fs).fs (calc_filename base j)
            = fs (calc_filename base (j - 1))) ∧
        (1 ≤ i →
          (rotate_from no_faults base i fs).fs (calc_filename base i)
            = if (fs (calc_filename base (i - 1))).isSome then fs (calc_filename base (i - 1))
              else fs (calc_filename base i)) ∧
        ∀ name, (∀ j, j ≤ i → name ≠ calc_filename base j) →
          (rotate_from no_faults base i fs).fs name = fs name := by
  intro i
  induction i with
  | zero =>
    intro fs
    have h : rotate_from no_faults base 0 fs
        = { fs := fs.set base (some []), file_ := some base, renames := [], raised := none } := by
      simp [rotate_from, fopen_wb, no_faults, calc_filename_zero]
    rw [h]
    refine ⟨rfl, rfl, file_system.set_same _ _ _, fun j h1 h2 => by omega, fun h1 => by omega, ?_⟩
    intro name hname
    have := hname 0 (Nat.le_refl 0)
    rw [calc_filename_zero] at this
    exact file_system.set_other _ _ this
  | succ i ih =>
    intro fs
    have hne_top : ∀ j, j ≤ i → calc_filename base (i + 1) ≠ calc_filename base j := by
      intro j hj h
      have := calc_filename_inj base h
      omega
    cases hsrc : fs (calc_filename base i) with
    | none =>
      have h : rotate_from no_faults base (i + 1) fs = rotate_from no_faults base i fs := by
        rw [rotate_from.eq_2]
        simp [file_exists_, hsrc]
      rw [h]
      obtain ⟨hr, hf, hb, hj, hi, hframe⟩ := ih fs
      refine ⟨hr, hf, hb, ?_, ?_, ?_⟩
      · intro j h1 h2
        by_cases hlt : j < i
        · exact hj j h1 hlt
        · have hji : j = i := by omega
          subst hji
          rw [hi h1, hsrc]
          cases hprev : fs (calc_filename base (j - 1)) <;> simp
      · intro _
        simp only [Nat.add_sub_cancel, hsrc, Option.isSome_none, Bool.false_eq_true, if_false]
        exact hframe _ hne_top
      · intro name hname
        exact hframe name (fun j hj => hname j (by omega))
    | some content =>
      have hne : calc_filename base i ≠ calc_filename base (i + 1) := by
        intro h
        have := calc_filename_inj base h
        omega
      obtain ⟨hok, hfs1⟩ := rename_file_no_faults fs (calc_filename base i)
        (calc_filename base (i + 1)) content hsrc hne
      obtain ⟨hr, hf, hb, hj, hi, hframe⟩ :=
        ih (rename_file_ no_faults fs (calc_filename base i) (calc_filename base (i + 1))).1
      have h : (rotate_from no_faults base (i + 1) fs).raised
            = (rotate_from no_faults base i
                (rename_file_ no_faults fs (calc_filename base i)
                  (calc_filename base (i + 1))).1).raised ∧
          (rotate_from no_faults base (i + 1) fs).file_
            = (rotate_from no_faults base i
                (rename_file_ no_faults fs (calc_filename base i)
                  (calc_filename base (i + 1))).1).file_ ∧
          (rotate_from no_faults base (i + 1) fs).fs
            = (rotate_from no_faults base i
                (rename_file_ no_faults fs (calc_filename base i)
                  (calc_filename base (i + 1))).1).fs := by
        rw [rotate_from.eq_2]
        simp [file_exists_, hsrc, hok]
      rw [h.1, h.2.1, h.2.2]
      have hlow : ∀ j, j < i →
          (rename_file_ no_faults fs (calc_filename base i) (calc_filename base (i + 1))).1
              (calc_filename base j) = fs (calc_filename base j) := by
        intro j hj1
        have n1 : calc_filename base j ≠ calc_filename base (i + 1) := by
          intro e
          have := calc_filename_inj base e
          omega
        have n2 : calc_filename base j ≠ calc_filename base i := by
          intro e
          have := calc_filename_inj base e
          omega
        rw [hfs1, if_neg n1, if_neg n2]
      refine ⟨hr, hf, hb, ?_, ?_, ?_⟩
      · intro j h1 h2
        by_cases hlt : j < i
        · rw [hj j h1 hlt, hlow (j - 1) (by omega)]
        · have hji : j = i := by omega
          subst hji
          rw [hi h1, hlow (j - 1) (by omega), hfs1, if_neg hne, if_pos rfl]
          cases hprev : fs (calc_filename base (j - 1)) <;> simp
      · intro _
        simp only [Nat.add_sub_cancel, hsrc, Option.isSome_some, if_true]
        rw [hframe _ hne_top, hfs1, if_pos rfl]
      · intro name hname
        rw [hframe name (fun j hj => hname j (by omega)), hfs1,
          if_neg (hname (i + 1) (Nat.le_refl _)), if_neg (hname i (by omega))]

end rotating_file_sink

end sinks

namespace sinks

/-! ### The files a sink touches -/

theorem remove_file_other (faults : io_faults) (fs : file_system) {name n : List Char}
    (h : n ≠ name) : (remove_file_ faults fs name).1 n = fs n := by
  unfold remove_file_
  split
  · show (fs.set name none) n = fs n
    rw [file_system.set_other _ _ h]
  · rfl

theorem rename_file_other (faults : io_faults) (fs : file_system) {src target n : List Char}
    (hs : n ≠ src) (ht : n ≠ target) : (rename_file_ faults fs src target).1 n = fs n := by
  unfold rename_file_ std_rename
  split
  · show (if n = target then _ else if n = src then none else _) = fs n
    rw [if_neg ht, if_neg hs, remove_file_other faults fs ht]
  · exact remove_file_other faults fs ht

theorem fopen_wb_other {faults : io_faults} {fs fs1 : file_system} {name n : List Char}
    (ho : fopen_wb faults fs name = some fs1) (h : n ≠ name) : fs1 n = fs n := by
  unfold fopen_wb at ho
  split at ho
  · simp at ho
  · simp only [Option.some.injEq] at ho
    subst ho
    exact file_system.set_other _ _ h

theorem fwrite_other (faults : io_faults) (fs : file_system) {name n : List Char}
    (data : List Char) (h : n ≠ name) : fwrite faults fs name data n = fs n := by
  obtain ⟨hnone, hsome⟩ := fwrite_spec faults fs name data
  cases hc : fs name with
  | none => rw [hnone hc]
  | some content =>
    obtain ⟨written, _, heq⟩ := hsome content hc
    rw [heq, file_system.set_other _ _ h]

namespace rotating_file_sink

theorem rotate_from_frame (faults : io_faults) (base : List Char) :
    ∀ (i : Nat) (fs : file_system),
      (∀ name, (∀ j, j ≤ i → name ≠ calc_filename base j) →
          (rotate_from faults base i fs).fs name = fs name) ∧
        ∀ nm, (rotate_from faults base i fs).file_ = some nm →
          ∃ j, j ≤ i ∧ nm = calc_filename base j := by
  intro i
  induction i with
  | zero =>
    intro fs
    rw [rotate_from]
    cases ho : fopen_wb faults fs (calc_filename base 0) with
    | none => exact ⟨fun _ _ => rfl, fun nm h => by simp at h⟩
    | some fs1 =>
      refine ⟨fun name hname => fopen_wb_other ho (hname 0 (Nat.le_refl 0)), ?_⟩
      intro nm h
      simp only [Option.some.injEq] at h
      exact ⟨0, Nat.le_refl 0, h.symm⟩
  | succ i ih =>
    intro fs
    rw [rotate_from.eq_2]
    by_cases hex : file_exists_ fs (calc_filename base i) = true
    · cases hr : (rename_file_ faults fs (calc_filename base i)
          (calc_filename base (i + 1))).2 with
      | true =>
        simp only [hex, hr, Bool.not_true, Bool.false_eq_true, if_false]
        obtain ⟨hframe, hfile⟩ := ih (rename_file_ faults fs (calc_filename base i)
          (calc_filename base (i + 1))).1
        refine ⟨?_, ?_⟩
        · intro name hname
          rw [hframe name (fun j hj => hname j (by omega)),
            rename_file_other faults fs (hname i (by omega)) (hname (i + 1) (Nat.le_refl _))]
        · intro nm h
          obtain ⟨j, hj, e⟩ := hfile nm h
          exact ⟨j, by omega, e⟩
      | false =>
        simp only [hex, hr, Bool.not_true, Bool.not_false, Bool.false_eq_true, if_false,
          if_true]
        cases ho : fopen_wb faults (rename_file_ faults fs (calc_filename base i)
            (calc_filename base (i + 1))).1 (calc_filename base i) with
        | none =>
          refine ⟨?_, fun nm h => by simp at h⟩
          intro name hname
          exact rename_file_other faults fs (hname i (by omega)) (hname (i + 1) (Nat.le_refl _))
        | some fs2 =>
          refine ⟨?_, ?_⟩
          · intro name hname
            show fs2 name = fs name
            rw [fopen_wb_other ho (hname i (by omega)),
              rename_file_other faults fs (hname i (by omega)) (hname (i + 1) (Nat.le_refl _))]
          · intro nm h
            simp only [Option.some.injEq] at h
            exact ⟨i, by omega, h.symm⟩
    · simp only [Bool.not_eq_true] at hex
      simp only [hex, Bool.not_false, if_true]
      obtain ⟨hframe, hfile⟩ := ih fs
      refine ⟨fun name hname => hframe name (fun j hj => hname j (by omega)), ?_⟩
      intro nm h
      obtain ⟨j, hj, e⟩ := hfile nm h
      exact ⟨j, by omega, e⟩

theorem write_formatted_file_ (faults : io_faults) (s : rotating_file_sink)
    (fs : file_system) (formatted : List Char) :
    (write_formatted faults s fs formatted).1.file_ = s.file_ := by
  unfold write_formatted
  split <;> rfl

theorem write_formatted_frame (faults : io_faults) (s : rotating_file_sink)
    (fs : file_system) (formatted : List Char) (name : List Char)
    (hname : ∀ nm, s.file_ = some nm → name ≠ nm) :
    (write_formatted faults s fs formatted).2 name = fs name := by
  unfold write_formatted
  cases hf : s.file_ with
  | none => rfl
  | some nm => exact fwrite_other faults fs formatted (hname nm hf)

theorem sink_it_frame (faults : io_faults) (s : rotating_file_sink) (fs : file_system)
    (formatted : List Char)
    (hfile : ∀ nm, s.file_ = some nm →
      ∃ j, j ≤ s.max_files_ ∧ nm = calc_filename s.base_filename_ j) :
    (∀ name, (∀ j, j ≤ s.max_files_ → name ≠ calc_filename s.base_filename_ j) →
        (sink_it_ faults s fs formatted).fs name = fs name) ∧
      ∀ nm, (sink_it_ faults s fs formatted).sink.file_ = some nm →
        ∃ j, j ≤ s.max_files_ ∧ nm = calc_filename s.base_filename_ j := by
  obtain ⟨hframe, hrfile⟩ := rotate_from_frame faults s.base_filename_ s.max_files_ fs
  have hout : ∀ (file_ : Option (List Char)) name,
      (∀ nm, file_ = some nm →
        ∃ j, j ≤ s.max_files_ ∧ nm = calc_filename s.base_filename_ j) →
      (∀ j, j ≤ s.max_files_ → name ≠ calc_filename s.base_filename_ j) →
      ∀ nm, file_ = some nm → name ≠ nm := by
    intro file_ name h1 hname nm hnm e
    obtain ⟨j, hj, ej⟩ := h1 nm hnm
    exact hname j hj (e.trans ej)
  by_cases hgt : s.current_size_ + formatted.length > s.max_size_
  · cases hr : (rotate_ faults s fs).raised with
    | some e =>
      simp only [sink_it_, hgt, if_true, hr]
      exact ⟨hframe, hrfile⟩
    | none =>
      simp only [sink_it_, hgt, if_true, hr]
      refine ⟨?_, ?_⟩
      · intro name hname
        rw [write_formatted_frame faults _ _ formatted name
          (hout (rotate_ faults s fs).file_ name hrfile hname)]
        exact hframe name hname
      · intro nm h
        rw [write_formatted_file_] at h
        exact hrfile nm h
  · simp only [sink_it_, hgt, if_false]
    refine ⟨?_, ?_⟩
    · intro name hname
      exact write_formatted_frame faults s fs formatted name (hout s.file_ name hfile hname)
    · intro nm h
      rw [write_formatted_file_] at h
      exact hfile nm h

theorem write_all_frame (writes : List (io_faults × List Char)) :
    ∀ (s : rotating_file_sink) (fs : file_system),
      (∀ nm, s.file_ = some nm →
        ∃ j, j ≤ s.max_files_ ∧ nm = calc_filename s.base_filename_ j) →
      ∀ name, (∀ j, j ≤ s.max_files_ → name ≠ calc_filename s.base_filename_ j) →
        (write_all s fs writes).2 name = fs name := by
  induction writes with
  | nil => intro s fs _ name _; rfl
  | cons w rest ih =>
    intro s fs hfile name hname
    obtain ⟨faults, formatted⟩ := w
    obtain ⟨hframe, hfile1⟩ := sink_it_frame faults s fs formatted hfile
    obtain ⟨_, hK, hbase⟩ := sink_it_params faults s fs formatted
    rw [write_all_cons, ih (sink_it_ faults s fs formatted).sink
      (sink_it_ faults s fs formatted).fs (by rw [hK, hbase]; exact hfile1) name
      (by rw [hK, hbase]; exact hname)]
    exact hframe name hname

theorem ctor_ok_members (faults : io_faults) (fs : file_system) (base : List Char)
    (max_size max_files : Nat) (s : rotating_file_sink)
    (h : (ctor faults fs base max_size max_files).result = Except.ok s) :
    s.base_filename_ = base ∧ s.max_files_ = max_files ∧ s.max_size_ = max_size ∧
      s.file_ = some base ∧
      ∀ name, name ≠ base → (ctor faults fs base max_size max_files).fs name = fs name := by
  unfold ctor at h ⊢
  split at h
  · simp at h
  split at h
  · simp at h
  rename_i h1 h2
  simp only [h1, h2, if_false]
  simp only [if_false] at h
  cases ho : fopen_ab faults fs (calc_filename base 0) with
  | none => simp [ho] at h
  | some fs1 =>
    simp only [ho, Except.ok.injEq] at h
    subst h
    simp only [calc_filename_zero, true_and]
    intro name hname
    unfold fopen_ab at ho
    rw [calc_filename_zero] at ho
    split at ho
    · simp at ho
    · split at ho
      · simp only [Option.some.injEq] at ho
        rw [← ho]
      · simp only [Option.some.injEq] at ho
        rw [← ho]
        exact file_system.set_other _ _ hname

end rotating_file_sink

end sinks

namespace sinks

namespace rotating_file_sink

/-- C27 (as stated, refuted): a sink with `max_files = 2` is built on a
directory that holds only `base.2` and has written one record; `base.1` is
absent.  Its rotation, in which no call fails, moves `base` to `base.1` and
leaves `base.2` with what it held before: that content is not discarded. -/
theorem rotation_keeps_last_file_after_gap :
    (ctor no_faults (directory3 none none (some "old\n".toList)) sample_base 10 2).result
        = Except.ok ⟨sample_base, 10, 2, 0, some sample_base⟩ ∧
      sample_leftover.1 = ⟨sample_base, 10, 2, 8, some sample_base⟩ ∧
      sample_leftover.2 (calc_filename sample_base 0) = some "first 1\n".toList ∧
      sample_leftover.2 (calc_filename sample_base 1) = none ∧
      sample_leftover.2 (calc_filename sample_base 2) = some "old\n".toList ∧
      (rotate_ no_faults sample_leftover.1 sample_leftover.2).raised = none ∧
      (rotate_ no_faults sample_leftover.1 sample_leftover.2).renames
        = [(sample_base, sample_base1, true)] ∧
      (rotate_ no_faults sample_leftover.1 sample_leftover.2).fs (calc_filename sample_base 1)
        = some "first 1\n".toList ∧
      (rotate_ no_faults sample_leftover.1 sample_leftover.2).fs (calc_filename sample_base 2)
        = some "old\n".toList := by
  refine ⟨rfl, by decide, by decide, by decide, by decide, by decide, by decide, by decide,
    by decide⟩

/-- C27 (amended): when no call fails, `rotate_` with `max_files = K` shifts
the history by one: for each `i` in `1..K`, `filename(i)` afterwards holds
what `filename(i-1)` held before whenever that file existed; where
`filename(i-1)` did not exist, `filename(i)` is absent afterwards for `i < K`
and `filename(K)` is left as it was, so what `filename(K)` held is discarded
whenever `filename(K-1)` existed; the new base file is empty and is the open
file; no file other than `filename(0..K)` is created or changed.  So for a
sink built on a directory without history files, whatever calls fail, every
history file that ever exists has an index of at most `K`. -/
theorem rotate_shifts_history (s : rotating_file_sink) (fs : file_system) :
    (rotate_ no_faults s fs).raised = none ∧
      (rotate_ no_faults s fs).file_ = some (calc_filename s.base_filename_ 0) ∧
      (rotate_ no_faults s fs).fs (calc_filename s.base_filename_ 0) = some [] ∧
      (∀ i content, 1 ≤ i → i ≤ s.max_files_ →
        fs (calc_filename s.base_filename_ (i - 1)) = some content →
        (rotate_ no_faults s fs).fs (calc_filename s.base_filename_ i) = some content) ∧
      (∀ i, 1 ≤ i → i < s.max_files_ →
        fs (calc_filename s.base_filename_ (i - 1)) = none →
        (rotate_ no_faults s fs).fs (calc_filename s.base_filename_ i) = none) ∧
      (1 ≤ s.max_files_ →
        fs (calc_filename s.base_filename_ (s.max_files_ - 1)) = none →
        (rotate_ no_faults s fs).fs (calc_filename s.base_filename_ s.max_files_)
          = fs (calc_filename s.base_filename_ s.max_files_)) ∧
      (∀ name, (∀ j, j ≤ s.max_files_ → name ≠ calc_filename s.base_filename_ j) →
        (rotate_ no_faults s fs).fs name = fs name) ∧
      (∀ i, s.max_files_ < i →
        (rotate_ no_faults s fs).fs (calc_filename s.base_filename_ i)
          = fs (calc_filename s.base_filename_ i)) ∧
      ∀ (faults0 : io_faults) (fs0 : file_system) (max_size : Nat) (s0 : rotating_file_sink)
        (writes : List (io_faults × List Char)),
        (ctor faults0 fs0 s.base_filename_ max_size s.max_files_).result = Except.ok s0 →
        (∀ i, 1 ≤ i → fs0 (calc_filename s.base_filename_ i) = none) →
        ∀ i, 1 ≤ i →
          ((write_all s0 (ctor faults0 fs0 s.base_filename_ max_size s.max_files_).fs
            writes).2 (calc_filename s.base_filename_ i)).isSome = true →
          i ≤ s.max_files_ := by
  obtain ⟨hr, hf, hb, hj, hi, hframe⟩ := rotate_from_shift s.base_filename_ s.max_files_ fs
  have hout : ∀ i, s.max_files_ < i →
      ∀ j, j ≤ s.max_files_ → calc_filename s.base_filename_ i ≠ calc_filename s.base_filename_ j := by
    intro i hi1 j hj1 e
    have := calc_filename_inj s.base_filename_ e
    omega
  refine ⟨hr, by rw [calc_filename_zero]; exact hf, by rw [calc_filename_zero]; exact hb,
    ?_, ?_, ?_, hframe, fun i hi1 => hframe _ (hout i hi1), ?_⟩
  · intro i content h1 h2 hc
    by_cases hlt : i < s.max_files_
    · exact (hj i h1 hlt).trans hc
    · have e : i = s.max_files_ := by omega
      subst e
      have := hi h1
      rw [hc] at this
      simpa using this
  · intro i h1 h2 hc
    exact (hj i h1 h2).trans hc
  · intro h1 hc
    have := hi h1
    rw [hc] at this
    simpa using this
  · intro faults0 fs0 max_size s0 writes hctor hnone i h1 hsome
    by_contra hgt
    have hgt1 : s.max_files_ < i := by omega
    obtain ⟨hbase, hK, _, hfile, hother⟩ :=
      ctor_ok_members faults0 fs0 s.base_filename_ max_size s.max_files_ s0 hctor
    have hfile1 : ∀ nm, s0.file_ = some nm →
        ∃ j, j ≤ s0.max_files_ ∧ nm = calc_filename s0.base_filename_ j := by
      intro nm hnm
      rw [hfile] at hnm
      simp only [Option.some.injEq] at hnm
      exact ⟨0, Nat.zero_le _, by rw [calc_filename_zero, hbase]; exact hnm.symm⟩
    have hne0 : calc_filename s.base_filename_ i ≠ s.base_filename_ := by
      intro e
      have := calc_filename_inj s.base_filename_ (e.trans (calc_filename_zero _).symm)
      omega
    rw [write_all_frame writes s0 _ hfile1 (calc_filename s.base_filename_ i)
      (by rw [hK, hbase]; exact hout i hgt1), hother _ hne0, hnone i h1] at hsome
    simp at hsome

end rotating_file_sink

end sinks

namespace details

/-! ## A queue of capacity 0 -/

namespace circular_q

variable {T : Type}

/-- The state of a ring buffer built with capacity 0: one slot, both indices
on it. -/
theorem capacity_zero_push_back (q : circular_q T) (x : T)
    (h : q.max_items_ = 1 ∧ q.head_ = 0 ∧ q.tail_ = 0) :
    ((q.push_back x).max_items_ = 1 ∧ (q.push_back x).head_ = 0 ∧
        (q.push_back x).tail_ = 0) ∧
      (q.push_back x).overrun_counter_ = q.overrun_counter_ + 1 := by
  obtain ⟨hm, hh, ht⟩ := h
  simp [push_back, hm, hh, ht]

theorem capacity_zero_state (q : circular_q T)
    (h : q.max_items_ = 1 ∧ q.head_ = 0 ∧ q.tail_ = 0) :
    q.empty = true ∧ q.full = true ∧ q.size = 0 ∧ q.capacity = 0 := by
  obtain ⟨hm, hh, ht⟩ := h
  simp [empty, full, size, capacity, hm, hh, ht]

theorem capacity_zero_push_all (items : List T) :
    ∀ (q : circular_q T), (q.max_items_ = 1 ∧ q.head_ = 0 ∧ q.tail_ = 0) →
      ((q.push_all items).max_items_ = 1 ∧ (q.push_all items).head_ = 0 ∧
          (q.push_all items).tail_ = 0) ∧
        (q.push_all items).overrun_counter_ = q.overrun_counter_ + items.length := by
  induction items with
  | nil => intro q h; exact ⟨h, rfl⟩
  | cons x rest ih =>
    intro q h
    obtain ⟨h1, ho⟩ := capacity_zero_push_back q x h
    obtain ⟨h2, ho2⟩ := ih (q.push_back x) h1
    refine ⟨h2, ?_⟩
    show ((q.push_back x).push_all rest).overrun_counter_ = _
    rw [ho2, ho, List.length_cons]
    omega

end circular_q

namespace mpmc_blocking_queue

variable {T : Type}

theorem capacity_zero_dequeue_for [Movable T] (q : mpmc_blocking_queue T) (d : T)
    (h : q.q_.max_items_ = 1 ∧ q.q_.head_ = 0 ∧ q.q_.tail_ = 0) :
    (q.dequeue_for d).ret = false ∧ (q.dequeue_for d).q = q ∧
      (q.dequeue_for d).popped_item = d ∧ (q.dequeue_for d).calls = [] := by
  have he := (circular_q.capacity_zero_state q.q_ h).1
  simp [dequeue_for, he]

theorem capacity_zero_run [Movable T] (ops : List (mq_op T)) :
    ∀ (q q1 : mpmc_blocking_queue T),
      (q.q_.max_items_ = 1 ∧ q.q_.head_ = 0 ∧ q.q_.tail_ = 0) →
      run q ops = some q1 →
      (q1.q_.max_items_ = 1 ∧ q1.q_.head_ = 0 ∧ q1.q_.tail_ = 0) ∧
        (∀ x, mq_op.enqueue x ∉ ops) ∧
        q1.q_.overrun_counter_ = q.q_.overrun_counter_ + nowait_calls ops := by
  induction ops with
  | nil =>
    intro q q1 h hrun
    simp only [run, Option.some.injEq] at hrun
    subst hrun
    exact ⟨h, fun x hx => by simp at hx, rfl⟩
  | cons op rest ih =>
    intro q q1 h hrun
    cases op with
    | enqueue x =>
      have hf := (circular_q.capacity_zero_state q.q_ h).2.1
      simp [run, step, enqueue, hf] at hrun
    | enqueue_nowait x =>
      obtain ⟨h1, ho⟩ := circular_q.capacity_zero_push_back q.q_ x h
      have hrun1 : run (q.enqueue_nowait x) rest = some q1 := by
        simpa [run, step] using hrun
      obtain ⟨h2, hno, ho2⟩ := ih (q.enqueue_nowait x) q1 h1 hrun1
      refine ⟨h2, ?_, ?_⟩
      · intro y hy
        rcases List.mem_cons.1 hy with e | e
        · cases e
        · exact hno y e
      · rw [ho2]
        show (q.q_.push_back x).overrun_counter_ + nowait_calls rest = _
        rw [ho]
        simp only [nowait_calls]
        omega
    | dequeue_for =>
      have hd := (capacity_zero_dequeue_for q default h).2.1
      have hrun1 : run q rest = some q1 := by
        simpa [run, step, hd] using hrun
      obtain ⟨h2, hno, ho2⟩ := ih q q1 h hrun1
      refine ⟨h2, ?_, ?_⟩
      · intro y hy
        rcases List.mem_cons.1 hy with e | e
        · cases e
        · exact hno y e
      · rw [ho2]
        simp only [nowait_calls]

end mpmc_blocking_queue

namespace mpmc_blocking_queue

variable {T : Type}

/-- C28: a queue built with capacity 0 is both `empty()` and `full()`, with
`size() = 0`, in every state reached by completed calls: each `push_back`
only raises `overrun_counter` by one, leaves both indices where they are and
nothing to dequeue; the blocking `enqueue` is never enabled (no run contains
one) and `dequeue_for` never succeeds; the same holds of the ring buffer after
any pushes; and the constructor of `thread_pool` accepts `queue_size = 0` for
every `threads_n` from 1 to 1000. -/
theorem capacity_zero_always_empty_and_full [Movable T] (ops : List (mq_op T))
    (q : mpmc_blocking_queue T) (hq : run (ctor 0) ops = some q) :
    (q.q_.empty = true ∧ q.q_.full = true ∧ q.q_.size = 0 ∧ q.size = 0 ∧
        q.q_.capacity = 0 ∧ circular_q.contents q.q_ = []) ∧
      q.overrun_counter = nowait_calls ops ∧
      (∀ x, mq_op.enqueue x ∉ ops) ∧
      (∀ x, q.enqueue x = none) ∧
      (∀ d, (q.dequeue_for d).ret = false ∧ (q.dequeue_for d).q = q ∧
        (q.dequeue_for d).popped_item = d) ∧
      (∀ x, (q.q_.push_back x).overrun_counter_ = q.q_.overrun_counter_ + 1 ∧
        (q.q_.push_back x).head_ = q.q_.head_ ∧ (q.q_.push_back x).tail_ = q.q_.tail_ ∧
        (q.q_.push_back x).empty = true ∧ (q.q_.push_back x).full = true ∧
        (q.q_.push_back x).size = 0 ∧ circular_q.contents (q.q_.push_back x) = []) ∧
      (∀ items : List T,
        ((circular_q.ctor 0 : circular_q T).push_all items).empty = true ∧
          ((circular_q.ctor 0 : circular_q T).push_all items).full = true ∧
          ((circular_q.ctor 0 : circular_q T).push_all items).size = 0 ∧
          ((circular_q.ctor 0 : circular_q T).push_all items).overrun_counter
            = items.length) ∧
      ∀ threads_n, 1 ≤ threads_n → threads_n ≤ 1000 →
        ∃ p, (thread_pool.ctor 0 threads_n).result = Except.ok p ∧
          p.q_ = mpmc_blocking_queue.ctor 0 ∧ p.threads_.length = threads_n := by
  have h0 : (ctor 0 : mpmc_blocking_queue T).q_.max_items_ = 1 ∧
      (ctor 0 : mpmc_blocking_queue T).q_.head_ = 0 ∧
      (ctor 0 : mpmc_blocking_queue T).q_.tail_ = 0 := ⟨rfl, rfl, rfl⟩
  obtain ⟨hinv, hno, hover⟩ := capacity_zero_run ops (ctor 0) q h0 hq
  have hwf := wf_reachable hq
  obtain ⟨he, hf, hs, hc⟩ := circular_q.capacity_zero_state q.q_ hinv
  refine ⟨⟨he, hf, hs, hs, hc, contents_nil_of_capacity_zero hwf hinv.1⟩, ?_, hno, ?_, ?_, ?_,
    ?_, ?_⟩
  · show q.q_.overrun_counter_ = _
    rw [hover]
    show 0 + nowait_calls ops = _
    omega
  · intro x
    simp [enqueue, hf]
  · intro d
    obtain ⟨h1, h2, h3, _⟩ := capacity_zero_dequeue_for q d hinv
    exact ⟨h1, h2, h3⟩
  · intro x
    obtain ⟨h1, ho⟩ := circular_q.capacity_zero_push_back q.q_ x hinv
    obtain ⟨he1, hf1, hs1, _⟩ := circular_q.capacity_zero_state _ h1
    exact ⟨ho, by rw [h1.2.1, hinv.2.1], by rw [h1.2.2, hinv.2.2], he1, hf1, hs1,
      contents_nil_of_capacity_zero (circular_q.wf_push_back hwf x) h1.1⟩
  · intro items
    obtain ⟨h1, ho⟩ := circular_q.capacity_zero_push_all items (circular_q.ctor 0 : circular_q T)
      ⟨rfl, rfl, rfl⟩
    obtain ⟨he1, hf1, hs1, _⟩ := circular_q.capacity_zero_state _ h1
    refine ⟨he1, hf1, hs1, ?_⟩
    show ((circular_q.ctor 0 : circular_q T).push_all items).overrun_counter_ = _
    rw [ho]
    show 0 + items.length = _
    omega
  · intro threads_n h1 h2
    have hr : ¬ (threads_n = 0 ∨ threads_n > 1000) := by omega
    refine ⟨{ q_ := mpmc_blocking_queue.ctor 0,
              threads_ := thread_pool.emplace_workers threads_n }, ?_, rfl,
      thread_pool.emplace_workers_length threads_n⟩
    simp [thread_pool.ctor, hr]

/-- The queue of capacity 0 after an overwriting enqueue, a dequeue and another
overwriting enqueue. -/
theorem capacity_zero_always_empty_and_full_witness :
    run (ctor 0) sample_zero_ops = some sample_zero_queue ∧
      (sample_zero_queue.q_.empty = true ∧ sample_zero_queue.q_.full = true ∧
        sample_zero_queue.q_.size = 0 ∧ sample_zero_queue.size = 0 ∧
        sample_zero_queue.q_.capacity = 0 ∧
        circular_q.contents sample_zero_queue.q_ = []) ∧
      sample_zero_queue.overrun_counter = nowait_calls sample_zero_ops :=
  ⟨by decide,
    (capacity_zero_always_empty_and_full sample_zero_ops sample_zero_queue (by decide)).1,
    (capacity_zero_always_empty_and_full sample_zero_ops sample_zero_queue (by decide)).2.1⟩

end mpmc_blocking_queue

namespace thread_pool

/-- The switch of `process_next_msg_`, by the envelope it dequeued: the result
is false exactly for a Terminate envelope; the backend operation invoked, the
sink calls and the result for a Log and for a Flush envelope with an owner;
no backend call for a null owner, for a Terminate envelope and on a
timeout. -/
theorem process_next_msg_by_type (heap : Nat → async_logger) (p : thread_pool) :
    ((process_next_msg_ heap p).result = Except.ok false ↔
        ∃ e, (process_next_msg_ heap p).dequeued = some e ∧
          e.msg_type = async_msg_type.terminate) ∧
      ((process_next_msg_ heap p).dequeued = none ↔ p.q_.q_.empty = true) ∧
      ((process_next_msg_ heap p).dequeued = none →
        (process_next_msg_ heap p).result = Except.ok true ∧
          (process_next_msg_ heap p).backend = [] ∧ (process_next_msg_ heap p).calls = []) ∧
      (∀ e w, (process_next_msg_ heap p).dequeued = some e →
        e.msg_type = async_msg_type.log → e.worker_ptr = some w →
        (process_next_msg_ heap p).backend = [backend_call.sink_it w e.tolog_msg] ∧
          (process_next_msg_ heap p).calls = ((heap w).backend_sink_it_ e.tolog_msg).calls ∧
          (process_next_msg_ heap p).result
            = (match ((heap w).backend_sink_it_ e.tolog_msg).raised with
              | some ex => Except.error ex
              | none => Except.ok true)) ∧
      (∀ e w, (process_next_msg_ heap p).dequeued = some e →
        e.msg_type = async_msg_type.flush → e.worker_ptr = some w →
        (process_next_msg_ heap p).backend = [backend_call.flush w] ∧
          (process_next_msg_ heap p).calls = (heap w).backend_flush_.calls ∧
          (process_next_msg_ heap p).result
            = (match (heap w).backend_flush_.raised with
              | some ex => Except.error ex
              | none => Except.ok true)) ∧
      (∀ e, (process_next_msg_ heap p).dequeued = some e →
        e.msg_type ≠ async_msg_type.terminate → e.worker_ptr = none →
        (process_next_msg_ heap p).backend = [] ∧ (process_next_msg_ heap p).calls = [] ∧
          (process_next_msg_ heap p).result = Except.ok true) ∧
      (∀ e, (process_next_msg_ heap p).dequeued = some e →
        e.msg_type = async_msg_type.terminate →
        (process_next_msg_ heap p).backend = [] ∧ (process_next_msg_ heap p).calls = []) := by
  have hret : (p.q_.dequeue_for (async_msg.default_ctor 0)).ret = !p.q_.q_.empty := by
    unfold mpmc_blocking_queue.dequeue_for
    split <;> simp_all
  cases hemp : p.q_.q_.empty with
  | true =>
    have hr : (p.q_.dequeue_for (async_msg.default_ctor 0)).ret = false := by
      rw [hret, hemp]; rfl
    simp [process_next_msg_, hr]
  | false =>
    have hr : (p.q_.dequeue_for (async_msg.default_ctor 0)).ret = true := by
      rw [hret, hemp]; rfl
    cases ht : (p.q_.dequeue_for (async_msg.default_ctor 0)).popped_item.msg_type with
    | log =>
      cases hw : (p.q_.dequeue_for (async_msg.default_ctor 0)).popped_item.worker_ptr with
      | none =>
        refine ⟨?_, ?_, ?_, ?_, ?_, ?_, ?_⟩ <;> simp only [process_next_msg_, hr, ht, hw] <;>
          (try simp) <;> (try (intros; simp_all))
      | some w =>
        refine ⟨?_, ?_, ?_, ?_, ?_, ?_, ?_⟩ <;> simp only [process_next_msg_, hr, ht, hw] <;>
          (try simp) <;> (try (intros; simp_all))
        split <;> simp
    | flush =>
      cases hw : (p.q_.dequeue_for (async_msg.default_ctor 0)).popped_item.worker_ptr with
      | none =>
        refine ⟨?_, ?_, ?_, ?_, ?_, ?_, ?_⟩ <;> simp only [process_next_msg_, hr, ht, hw] <;>
          (try simp) <;> (try (intros; simp_all))
      | some w =>
        refine ⟨?_, ?_, ?_, ?_, ?_, ?_, ?_⟩ <;> simp only [process_next_msg_, hr, ht, hw] <;>
          (try simp) <;> (try (intros; simp_all))
        split <;> simp
    | terminate =>
      refine ⟨?_, ?_, ?_, ?_, ?_, ?_, ?_⟩ <;> simp only [process_next_msg_, hr, ht] <;>
        (try simp) <;> (try (intros; simp_all))

/-- C26: `process_next_msg_` on a pool `p`.  When the queue is empty at the end
of the wait (the dequeue times out) it returns true, calls no backend and
leaves the pool as it is.  Otherwise it dequeues the oldest queued envelope,
the one at the head of the ring buffer, which is then no longer queued while
the others keep their order.  It returns false if and only if that envelope is
a Terminate envelope.  For a Log envelope with an owner it calls the owner's
`backend_sink_it_` exactly once, with the envelope's record; for a Flush
envelope with an owner it calls the owner's `backend_flush_` exactly once; in
both cases it returns true unless that call throws.  A Log or Flush envelope
whose owner handle is null is discarded with no backend call, and a Terminate
envelope causes no backend call. -/
theorem process_next_msg_dispatches_by_type (heap : Nat → async_logger) (p : thread_pool) :
    (p.q_.q_.empty = true →
        (process_next_msg_ heap p).dequeued = none ∧
          (process_next_msg_ heap p).result = Except.ok true ∧
          (process_next_msg_ heap p).backend = [] ∧ (process_next_msg_ heap p).calls = [] ∧
          (process_next_msg_ heap p).pool = p) ∧
      (p.q_.q_.empty = false →
        (process_next_msg_ heap p).dequeued = some p.q_.q_.front) ∧
      ((process_next_msg_ heap p).pool.threads_ = p.threads_ ∧
        (process_next_msg_ heap p).pool.q_ = (p.q_.dequeue_for (async_msg.default_ctor 0)).q ∧
        (circular_q.WF p.q_.q_ →
          circular_q.contents p.q_.q_ =
            (process_next_msg_ heap p).dequeued.toList ++
              circular_q.contents (process_next_msg_ heap p).pool.q_.q_)) ∧
      ((process_next_msg_ heap p).result = Except.ok false ↔
        p.q_.q_.empty = false ∧ p.q_.q_.front.msg_type = async_msg_type.terminate) ∧
      ((process_next_msg_ heap p).result = Except.ok false ↔
        ∃ e, (process_next_msg_ heap p).dequeued = some e ∧
          e.msg_type = async_msg_type.terminate) ∧
      (∀ e w, (process_next_msg_ heap p).dequeued = some e →
        e.msg_type = async_msg_type.log → e.worker_ptr = some w →
        (process_next_msg_ heap p).backend = [backend_call.sink_it w e.tolog_msg] ∧
          (process_next_msg_ heap p).calls = ((heap w).backend_sink_it_ e.tolog_msg).calls ∧
          (process_next_msg_ heap p).result
            = (match ((heap w).backend_sink_it_ e.tolog_msg).raised with
              | some ex => Except.error ex
              | none => Except.ok true)) ∧
      (∀ e w, (process_next_msg_ heap p).dequeued = some e →
        e.msg_type = async_msg_type.flush → e.worker_ptr = some w →
        (process_next_msg_ heap p).backend = [backend_call.flush w] ∧
          (process_next_msg_ heap p).calls = (heap w).backend_flush_.calls ∧
          (process_next_msg_ heap p).result
            = (match (heap w).backend_flush_.raised with
              | some ex => Except.error ex
              | none => Except.ok true)) ∧
      (∀ e, (process_next_msg_ heap p).dequeued = some e →
        e.msg_type ≠ async_msg_type.terminate → e.worker_ptr = none →
        (process_next_msg_ heap p).backend = [] ∧ (process_next_msg_ heap p).calls = [] ∧
          (process_next_msg_ heap p).result = Except.ok true) ∧
      (∀ e, (process_next_msg_ heap p).dequeued = some e →
        e.msg_type = async_msg_type.terminate →
        (process_next_msg_ heap p).backend = [] ∧ (process_next_msg_ heap p).calls = []) := by
  obtain ⟨c1, c2, c3, c4, c5, c6, c7⟩ := process_next_msg_by_type heap p
  obtain ⟨s1, s2⟩ := process_next_msg_spec heap p
  refine ⟨?_, fun h => (s2 h).1, ⟨?_, ?_, ?_⟩, ?_, c1, c4, c5, c6, c7⟩
  · intro h
    obtain ⟨h1, h2, h3, h4, h5⟩ := s1 h
    exact ⟨h1, h4, h2, h3, h5⟩
  · rw [process_next_msg_pool]
  · rw [process_next_msg_pool]
  · intro hwf
    exact (process_next_msg_contents heap p hwf).2.2
  · constructor
    · intro h
      exact process_next_msg_false heap p h
    · rintro ⟨hne, ht⟩
      rw [c1]
      exact ⟨_, (s2 hne).1, ht⟩

/-- One `process_next_msg_` on `sample_pool`, whose queue holds the Log
envelope and then the Flush envelope of logger 7, no sink throwing: the worker
dequeues the Log envelope, calls `backend_sink_it_` of logger 7 once with its
record, which logs to the sink of the logger, returns true, and leaves the
Flush envelope queued. -/
theorem process_next_msg_dispatches_by_type_witness :
    (sample_pool.q_.q_.empty = false ∧
        sample_pool.q_.q_.front =
          async_msg.of_log_msg async_msg_type.log (some 7) sample_mem 100 sample_msg) ∧
      (process_next_msg_ quiet_loggers sample_pool).dequeued = some sample_pool.q_.q_.front ∧
      (process_next_msg_ quiet_loggers sample_pool).backend =
        [backend_call.sink_it 7 sample_pool.q_.q_.front.tolog_msg] ∧
      (process_next_msg_ quiet_loggers sample_pool).calls =
        [sink_call.log 1 sample_pool.q_.q_.front.tolog_msg] ∧
      (process_next_msg_ quiet_loggers sample_pool).result = Except.ok true ∧
      circular_q.contents (process_next_msg_ quiet_loggers sample_pool).pool.q_.q_ =
        [async_msg.of_type_worker async_msg_type.flush (some 7) 200] :=
  ⟨⟨rfl, rfl⟩,
    (process_next_msg_dispatches_by_type quiet_loggers sample_pool).2.1 rfl,
    by decide, by decide, rfl, by decide⟩

end thread_pool

end details

/-! ## The registry -/

namespace registry

theorem find_cons (k : String) (v : Nat) (rest : List (String × Nat)) (key : String) :
    find ((k, v) :: rest) key = if key = k then some v else find rest key := by
  unfold find
  by_cases h : key = k
  · subst h
    simp [List.lookup]
  · have hb : (key == k) = false := by simpa using h
    simp [List.lookup, hb, h]

theorem find_eq_none_iff (loggers : List (String × Nat)) (key : String) :
    find loggers key = none ↔ ∀ entry ∈ loggers, entry.1 ≠ key := by
  induction loggers with
  | nil => simp [find]
  | cons entry rest ih =>
    obtain ⟨k, v⟩ := entry
    rw [find_cons]
    by_cases h : key = k
    · subst h
      simp
    · simp only [h, if_false, ih, List.mem_cons, forall_eq_or_imp, ne_eq]
      constructor
      · intro h1
        exact ⟨fun e => h e.symm, h1⟩
      · intro h1
        exact h1.2

theorem find_isSome_iff (loggers : List (String × Nat)) (key : String) :
    (find loggers key).isSome = true ↔ ∃ id, (key, id) ∈ loggers := by
  constructor
  · intro h
    by_contra hno
    have : find loggers key = none := by
      rw [find_eq_none_iff]
      intro entry hentry e
      exact hno ⟨entry.2, by rw [← e]; exact hentry⟩
    rw [this] at h
    simp at h
  · rintro ⟨id, hid⟩
    cases hf : find loggers key with
    | some v => rfl
    | none =>
      rw [find_eq_none_iff] at hf
      exact absurd rfl (hf (key, id) hid)

theorem find_append_new (loggers : List (String × Nat)) (key other : String) (value : Nat) :
    find (loggers ++ [(key, value)]) other
      = if (find loggers other).isSome then find loggers other
        else if other = key then some value else none := by
  induction loggers with
  | nil =>
    rw [List.nil_append, find_cons]
    simp [find]
  | cons entry rest ih =>
    obtain ⟨k, v⟩ := entry
    rw [List.cons_append, find_cons, find_cons, ih]
    by_cases h : other = k
    · simp [h]
    · simp [h]

theorem find_map_replace (loggers : List (String × Nat)) (key other : String) (value : Nat) :
    find (loggers.map (fun entry => if entry.1 = key then (key, value) else entry)) other
      = if other = key then (find loggers key).map (fun _ => value) else find loggers other := by
  induction loggers with
  | nil => simp [find]
  | cons entry rest ih =>
    obtain ⟨k, v⟩ := entry
    rw [List.map_cons]
    by_cases hk : k = key
    · have hg : (if (k, v).1 = key then (key, value) else (k, v)) = (key, value) := if_pos hk
      rw [hg, find_cons, find_cons, find_cons, ih]
      subst hk
      by_cases h : other = k
      · simp [h]
      · simp [h]
    · have hg : (if (k, v).1 = key then (key, value) else (k, v)) = (k, v) := if_neg hk
      rw [hg, find_cons, find_cons, find_cons, ih]
      by_cases h : other = key
      · subst h
        have hne : ¬ other = k := fun e => hk e.symm
        simp [hne]
      · simp [h]

theorem find_assign (loggers : List (String × Nat)) (key other : String) (value : Nat) :
    find (assign loggers key value) other
      = if other = key then some value else find loggers other := by
  unfold assign
  cases hf : find loggers key with
  | some v =>
    simp only [Option.isSome_some, if_true]
    rw [find_map_replace, hf]
    rfl
  | none =>
    simp only [Option.isSome_none, Bool.false_eq_true, if_false]
    rw [find_append_new]
    by_cases h : other = key
    · subst h
      simp [hf]
    · cases hf2 : find loggers other <;> simp [h]

theorem find_erase (loggers : List (String × Nat)) (key other : String) :
    find (erase loggers key) other = if other = key then none else find loggers other := by
  induction loggers with
  | nil => simp [find, erase]
  | cons entry rest ih =>
    obtain ⟨k, v⟩ := entry
    by_cases hk : k = key
    · have he : erase ((k, v) :: rest) key = erase rest key := by
        simp [erase, List.filter, hk]
      rw [he, ih, find_cons]
      subst hk
      by_cases h : other = k
      · simp [h]
      · simp [h]
    · have he : erase ((k, v) :: rest) key = (k, v) :: erase rest key := by
        simp [erase, List.filter, hk]
      rw [he, find_cons, find_cons, ih]
      by_cases h : other = k
      · subst h
        have hne : ¬ other = key := hk
        simp [hne]
      · simp [h]

end registry

namespace registry

/-- C24: `register_logger` throws if and only if a logger with the same name
is registered already; it then throws `runtime_error` and leaves the registry
as it was, the earlier logger still registered under the name.  Otherwise
`get(name)` afterwards returns the logger just registered, and the other
names and the default logger are as before.  `get` of a name that is not
registered returns null.  In `test_duplicate_registration` the second
registration of `duplicate_test` throws and the first logger stays. -/
theorem register_logger_raises_iff_registered (heap : Nat → logger) (r : registry)
    (new_logger : Nat) :
    ((∃ e, (register_logger heap r new_logger).raised = some e) ↔
        ∃ earlier, ((heap new_logger).name_, earlier) ∈ r.loggers_) ∧
      (∀ earlier, r.get (heap new_logger).name_ = some earlier →
        (register_logger heap r new_logger).raised
            = some (exception.runtime_error
              ("Logger with name '" ++ (heap new_logger).name_ ++ "' already exists")) ∧
          (register_logger heap r new_logger).registry = r ∧
          (register_logger heap r new_logger).registry.get (heap new_logger).name_
            = some earlier) ∧
      (r.get (heap new_logger).name_ = none →
        (register_logger heap r new_logger).raised = none ∧
          (register_logger heap r new_logger).registry.get (heap new_logger).name_
            = some new_logger ∧
          (∀ other, other ≠ (heap new_logger).name_ →
            (register_logger heap r new_logger).registry.get other = r.get other) ∧
          (register_logger heap r new_logger).registry.default_logger
            = r.default_logger) ∧
      (∀ key, (r.get key).isSome = true ↔ ∃ id, (key, id) ∈ r.loggers_) ∧
      (∀ key, (∀ entry ∈ r.loggers_, entry.1 ≠ key) → r.get key = none) ∧
      ((register_logger sample_heap (ctor 0) 1).raised = none ∧
        (register_logger sample_heap (register_logger sample_heap (ctor 0) 1).registry
          2).raised = some (exception.runtime_error
            "Logger with name 'duplicate_test' already exists") ∧
        (register_logger sample_heap (register_logger sample_heap (ctor 0) 1).registry
          2).registry.get "duplicate_test" = some 1) := by
  refine ⟨?_, ?_, ?_, fun key => find_isSome_iff r.loggers_ key,
    fun key h => (find_eq_none_iff r.loggers_ key).2 h, ⟨by decide, by decide, by decide⟩⟩
  · rw [← find_isSome_iff]
    cases hf : find r.loggers_ (heap new_logger).name_ with
    | some v => simp [register_logger, throw_if_exists_, hf]
    | none => simp [register_logger, throw_if_exists_, hf]
  · intro earlier h
    have hf : find r.loggers_ (heap new_logger).name_ = some earlier := h
    simp [register_logger, throw_if_exists_, hf, get]
  · intro h
    have hf : find r.loggers_ (heap new_logger).name_ = none := h
    simp only [register_logger, throw_if_exists_, hf, Option.isSome_none, Bool.false_eq_true,
      if_false, get, find_assign, if_true, default_logger, true_and, and_true]
    intro other hne
    rw [if_neg hne]

end registry

namespace registry

/-- C30: the default logger can become absent: after `drop_all()`, and after
`drop(n)` with `n` the name of the current default logger, `default_logger()`
returns null (a `drop` of another name keeps it).  `set_level` and
`flush_all` call through `default_logger_` without a test: each dereferences a
null pointer exactly when no default logger is present, so after such a
`drop_all` or `drop` both do.  In the test program, `set_default_logger` of
`custom_default` followed by `drop("custom_default")` leaves no default
logger, and `flush_all()` then dereferences null. -/
theorem default_logger_absent_after_drop (heap : Nat → logger) (r : registry) :
    r.drop_all.default_logger = none ∧
      (∀ d, r.default_logger = some d →
        (drop heap r (heap d).name_).default_logger = none) ∧
      (∀ d name, r.default_logger = some d → name ≠ (heap d).name_ →
        (drop heap r name).default_logger = some d) ∧
      (∀ log_level, set_level heap r log_level = deref.null_dereference ↔
        r.default_logger = none) ∧
      (flush_all heap r = deref.null_dereference ↔ r.default_logger = none) ∧
      (∀ log_level, set_level heap r.drop_all log_level = deref.null_dereference) ∧
      flush_all heap r.drop_all = deref.null_dereference ∧
      (∀ d log_level, r.default_logger = some d →
        set_level heap (drop heap r (heap d).name_) log_level = deref.null_dereference ∧
          flush_all heap (drop heap r (heap d).name_) = deref.null_dereference) ∧
      ((set_default_logger sample_heap (ctor 0) (some 3)).default_logger = some 3 ∧
        (drop sample_heap (set_default_logger sample_heap (ctor 0) (some 3))
          "custom_default").default_logger = none ∧
        flush_all sample_heap (drop sample_heap
          (set_default_logger sample_heap (ctor 0) (some 3)) "custom_default")
          = deref.null_dereference) := by
  have hdrop : ∀ d, r.default_logger = some d →
      (drop heap r (heap d).name_).default_logger_ = none := by
    intro d hd
    have hd1 : r.default_logger_ = some d := hd
    simp [drop, hd1]
  have hset : ∀ (r1 : registry) log_level,
      set_level heap r1 log_level = deref.null_dereference ↔ r1.default_logger = none := by
    intro r1 log_level
    unfold set_level default_logger
    cases r1.default_logger_ <;> simp
  have hflush : ∀ (r1 : registry),
      flush_all heap r1 = deref.null_dereference ↔ r1.default_logger = none := by
    intro r1
    unfold flush_all default_logger
    cases r1.default_logger_ with
    | none => simp
    | some d =>
      simp only
      split <;> simp
  refine ⟨rfl, hdrop, ?_, hset r, hflush r, fun log_level => (hset _ log_level).2 rfl,
    (hflush _).2 rfl, ?_, ⟨rfl, rfl, rfl⟩⟩
  · intro d name hd hne
    have hd1 : r.default_logger_ = some d := hd
    have hne1 : ¬ (heap d).name_ = name := fun e => hne e.symm
    simp [drop, hd1, hne1, default_logger]
  · intro d log_level hd
    exact ⟨(hset _ log_level).2 (hdrop d hd), (hflush _).2 (hdrop d hd)⟩

end registry

/-! ## The pattern formatter -/

namespace pattern_formatter

theorem foldl_format (env : format_env) (mem : details.memory) (msg : details.log_msg)
    (tm_time : tm) (formatters : List flag_formatter) :
    ∀ dest : List Char,
      formatters.foldl (flag_formatter.format env mem msg tm_time) dest
        = dest ++ formatters.flatMap (flag_formatter.text env mem msg tm_time) := by
  induction formatters with
  | nil => intro dest; simp
  | cons f rest ih =>
    intro dest
    rw [List.foldl_cons, ih]
    simp [flag_formatter.format, List.flatMap_cons]

theorem text_push_user_chars (env : format_env) (mem : details.memory)
    (msg : details.log_msg) (tm_time : tm) (formatters : List flag_formatter)
    (user_chars : Option (List Char)) :
    (push_user_chars formatters user_chars).flatMap (flag_formatter.text env mem msg tm_time)
      = formatters.flatMap (flag_formatter.text env mem msg tm_time) ++ user_chars.getD [] := by
  cases user_chars <;> simp [push_user_chars, flag_formatter.text]

theorem getD_add_ch (user_chars : Option (List Char)) (ch : Char) :
    (add_ch user_chars ch).getD [] = user_chars.getD [] ++ [ch] := by
  cases user_chars <;> simp [add_ch]

theorem compile_loop_cons_ne (c : Char) (rest : List Char) (formatters : List flag_formatter)
    (user_chars : Option (List Char)) (h : c ≠ '%') :
    compile_loop (c :: rest) formatters user_chars
      = compile_loop rest formatters (add_ch user_chars c) := by
  cases rest with
  | nil => simp [compile_loop, h]
  | cons flag rest => simp [compile_loop, h]

theorem rendered_line_cons_ne (env : format_env) (mem : details.memory)
    (msg : details.log_msg) (tm_time : tm) (c : Char) (rest : List Char) (h : c ≠ '%') :
    rendered_line env mem msg tm_time (c :: rest)
      = c :: rendered_line env mem msg tm_time rest := by
  cases rest with
  | nil => simp [rendered_line, h]
  | cons flag rest => simp [rendered_line, h]

theorem rendered_line_flag (env : format_env) (mem : details.memory)
    (msg : details.log_msg) (tm_time : tm) (flag : Char) (rest : List Char) :
    rendered_line env mem msg tm_time ('%' :: flag :: rest)
      = flag_text env mem msg tm_time flag ++ rendered_line env mem msg tm_time rest := by
  simp [rendered_line]

/-- The formatters that `compile_pattern` builds write the line the
specification gives the pattern. -/
theorem compile_loop_text (env : format_env) (mem : details.memory) (msg : details.log_msg)
    (tm_time : tm) :
    ∀ (n : Nat) (pattern : List Char), pattern.length ≤ n →
      ∀ (formatters : List flag_formatter) (user_chars : Option (List Char)),
        (compile_loop pattern formatters user_chars).flatMap
            (flag_formatter.text env mem msg tm_time)
          = formatters.flatMap (flag_formatter.text env mem msg tm_time)
            ++ user_chars.getD [] ++ rendered_line env mem msg tm_time pattern := by
  intro n
  induction n with
  | zero =>
    intro pattern hlen formatters user_chars
    have : pattern = [] := List.length_eq_zero.1 (by omega)
    subst this
    simp [compile_loop, rendered_line, text_push_user_chars]
  | succ n ih =>
    intro pattern hlen formatters user_chars
    cases pattern with
    | nil => simp [compile_loop, rendered_line, text_push_user_chars]
    | cons c rest =>
      by_cases hc : c = '%'
      · subst hc
        cases rest with
        | nil =>
          have h1 : compile_loop ['%'] formatters user_chars
              = push_user_chars formatters user_chars := by
            simp [compile_loop, push_user_chars]
          rw [h1, text_push_user_chars]
          simp [rendered_line]
        | cons flag rest2 =>
          have hlen2 : rest2.length ≤ n := by
            simp only [List.length_cons] at hlen
            omega
          rw [rendered_line_flag]
          cases hf : flag_case flag with
          | some f =>
            simp only [compile_loop, if_true, hf]
            rw [ih rest2 hlen2]
            simp [text_push_user_chars, flag_text, hf, List.flatMap_append]
          | none =>
            by_cases hp : flag = '%'
            · subst hp
              simp only [compile_loop, if_true, hf]
              rw [ih rest2 hlen2]
              simp [text_push_user_chars, flag_text, hf, add_ch]
            · simp only [compile_loop, if_true, hf, hp, if_false]
              rw [ih rest2 hlen2]
              simp [text_push_user_chars, flag_text, hf, hp, add_ch]
      · rw [compile_loop_cons_ne c rest formatters user_chars hc,
          rendered_line_cons_ne env mem msg tm_time c rest hc,
          ih rest (by simp only [List.length_cons] at hlen; omega), getD_add_ch]
        simp

end pattern_formatter

namespace pattern_formatter

theorem rendered_line_literal (env : format_env) (mem : details.memory)
    (msg : details.log_msg) (tm_time : tm) (lit rest : List Char) (h : '%' ∉ lit) :
    rendered_line env mem msg tm_time (lit ++ rest)
      = lit ++ rendered_line env mem msg tm_time rest := by
  induction lit with
  | nil => simp
  | cons c lit ih =>
    have hc : c ≠ '%' := fun e => h (by simp [e])
    have hl : '%' ∉ lit := fun e => h (List.mem_cons_of_mem _ e)
    rw [List.cons_append, rendered_line_cons_ne env mem msg tm_time c _ hc, ih hl,
      List.cons_append]

/-- C23: `pattern_formatter::format` appends: for every pattern, whatever the
time cache of the formatter holds, every record and every content of the
output buffer, the buffer afterwards is its content before, the rendered line
and one final newline, and pattern and formatters are as before.  In the
rendered line literal pattern text (text without a percent sign) is copied as
it stands, `%%` gives one percent sign, `%v` the payload bytes, and a flag
without a formatter, such as `%Z`, is written as it stands; a percent sign
that ends the pattern gives nothing.  The pattern of `test_escape_percent`,
`Progress: 50%% - %v`, gives `Progress: 50% - Task completed`. -/
theorem format_appends_rendered_line (env : format_env) (mem : details.memory)
    (pattern : List Char) (secs0 : Nat) (tm0 : tm) (msg : details.log_msg)
    (dest : List Char) :
    (format env mem ⟨pattern, compile_pattern pattern, secs0, tm0⟩ msg dest).2
        = dest ++ rendered_line env mem msg
            (format env mem ⟨pattern, compile_pattern pattern, secs0, tm0⟩ msg dest).1.cached_tm_
            pattern ++ ['\n'] ∧
      (format env mem ⟨pattern, compile_pattern pattern, secs0, tm0⟩ msg dest).1.cached_tm_
        = (if msg.time / env.ticks_per_second ≠ secs0 then get_time env msg else tm0) ∧
      (format env mem ⟨pattern, compile_pattern pattern, secs0, tm0⟩ msg dest).1.formatters_
        = compile_pattern pattern ∧
      (format env mem ⟨pattern, compile_pattern pattern, secs0, tm0⟩ msg dest).1.pattern_
        = pattern ∧
      (∀ tm_time lit, '%' ∉ lit → rendered_line env mem msg tm_time lit = lit) ∧
      (∀ tm_time lit flag rest, '%' ∉ lit →
        rendered_line env mem msg tm_time (lit ++ '%' :: flag :: rest)
          = lit ++ flag_text env mem msg tm_time flag
            ++ rendered_line env mem msg tm_time rest) ∧
      (∀ tm_time lit, '%' ∉ lit → rendered_line env mem msg tm_time (lit ++ ['%']) = lit) ∧
      (∀ tm_time, flag_text env mem msg tm_time '%' = ['%']) ∧
      (∀ tm_time, flag_text env mem msg tm_time 'v' = mem.read msg.payload) ∧
      (∀ tm_time, flag_text env mem msg tm_time 'Z' = ['%', 'Z']) ∧
      (∀ tm_time flag, flag_case flag = none → flag ≠ '%' →
        flag_text env mem msg tm_time flag = ['%', flag]) ∧
      (format sample_env (sample_text_mem "TestLogger".toList "Task completed".toList)
          (ctor "Progress: 50%% - %v".toList) sample_format_msg []).2
        = "Progress: 50% - Task completed\n".toList := by
  refine ⟨?_, ?_, ?_, ?_, ?_, ?_, ?_, ?_, ?_, ?_, ?_, by decide⟩
  · simp only [format]
    rw [foldl_format]
    have hf : ∀ (s : pattern_formatter), s.formatters_ = compile_pattern pattern →
        s.formatters_.flatMap (flag_formatter.text env mem msg s.cached_tm_)
          = rendered_line env mem msg s.cached_tm_ pattern := by
      intro s hs
      rw [hs, compile_pattern,
        compile_loop_text env mem msg s.cached_tm_ pattern.length pattern (Nat.le_refl _)]
      simp
    rw [hf]
    split <;> rfl
  · simp only [format]
    split <;> rfl
  · simp only [format]
    split <;> rfl
  · simp only [format]
    split <;> rfl
  · intro tm_time lit h
    have := rendered_line_literal env mem msg tm_time lit [] h
    simpa [rendered_line] using this
  · intro tm_time lit flag rest h
    rw [rendered_line_literal env mem msg tm_time lit _ h, rendered_line_flag]
    simp
  · intro tm_time lit h
    rw [rendered_line_literal env mem msg tm_time lit _ h]
    simp [rendered_line]
  · intro tm_time
    simp [flag_text, flag_case]
  · intro tm_time
    simp [flag_text, flag_case, flag_formatter.text]
  · intro tm_time
    simp [flag_text, flag_case]
  · intro tm_time flag hf hp
    simp [flag_text, hf, hp]

end pattern_formatter

namespace details

/-! ## Threads on one queue -/

namespace mq_system

variable {T : Type}

theorem goto_pc_same (st : mq_system T) (t : Nat) (pc : mq_pc T) :
    ((goto st t pc).threads t).pc = pc := by
  simp [goto]

theorem goto_threads_other (st : mq_system T) {t u : Nat} (pc : mq_pc T) (h : u ≠ t) :
    (goto st t pc).threads u = st.threads u := by
  simp [goto, Function.update_noteq h]

theorem lock_eq_some {st st1 : mq_system T} {t : Nat} {pc : mq_pc T}
    (h : lock st t pc = some st1) :
    st.mutex_ = none ∧ st1 = goto { st with mutex_ := some t } t pc := by
  unfold lock at h
  split at h
  · rename_i hm
    simp only [Option.some.injEq] at h
    exact ⟨hm, h.symm⟩
  · simp at h

theorem Inv.free [Inhabited T] {st : mq_system T} (h : Inv st) (hm : st.mutex_ = none)
    (u : Nat) : (st.threads u).pc.holds_mutex = false := by
  cases hh : (st.threads u).pc.holds_mutex with
  | false => rfl
  | true =>
    have := h.owner u hh
    rw [hm] at this
    simp at this

theorem Inv.alone [Inhabited T] {st : mq_system T} (h : Inv st) {t : Nat}
    (ht : (st.threads t).pc.holds_mutex = true) (u : Nat) (hu : u ≠ t) :
    (st.threads u).pc.holds_mutex = false := by
  cases hh : (st.threads u).pc.holds_mutex with
  | false => rfl
  | true =>
    have h1 := h.owner u hh
    have h2 := h.owner t ht
    rw [h1] at h2
    simp only [Option.some.injEq] at h2
    exact absurd h2 hu

/-- A step of thread `t` keeps the invariant when no other thread is inside a
lock scope and the new state is consistent for `t` and for the buffer. -/
theorem Inv.of_step [Inhabited T] (st st1 : mq_system T) (t : Nat)
    (hothers : ∀ u, u ≠ t → (st1.threads u).pc = (st.threads u).pc)
    (hexcl : ∀ u, u ≠ t → (st.threads u).pc.holds_mutex = false)
    (howner : (st1.threads t).pc.holds_mutex = true → st1.mutex_ = some t)
    (hfull : ∀ item, (st1.threads t).pc = mq_pc.enqueue_push item → st1.q_.full = false)
    (hempty : (st1.threads t).pc = mq_pc.dequeue_take → st1.q_.empty = false)
    (hwf : circular_q.WF st1.q_) (hlocked : ∀ a ∈ st1.accesses, a.locked = true)
    (hfifo : st1.enqueued = st1.dequeued ++ circular_q.contents st1.q_)
    (hover : st1.q_.overrun_counter_ = 0) : Inv st1 := by
  refine ⟨hwf, ?_, ?_, ?_, hlocked, hfifo, hover⟩
  · intro u hu
    by_cases e : u = t
    · subst e
      exact howner hu
    · rw [hothers u e, hexcl u e] at hu
      simp at hu
  · intro u item hu
    by_cases e : u = t
    · subst e
      exact hfull item hu
    · rw [hothers u e] at hu
      have := hexcl u e
      rw [hu] at this
      simp [mq_pc.holds_mutex] at this
  · intro u hu
    by_cases e : u = t
    · subst e
      exact hempty hu
    · rw [hothers u e] at hu
      have := hexcl u e
      rw [hu] at this
      simp [mq_pc.holds_mutex] at this

theorem inv_init [Inhabited T] (max_items : Nat) (programs : Nat → List (mq_call T)) :
    Inv (init max_items programs) := by
  refine ⟨circular_q.wf_ctor max_items, ?_, ?_, ?_, ?_, ?_, rfl⟩
  · intro t h
    simp [init, mq_pc.holds_mutex] at h
  · intro t item h
    simp [init] at h
  · intro t h
    simp [init] at h
  · intro a ha
    simp [init] at ha
  · have hc : circular_q.contents (circular_q.ctor max_items : circular_q T) = [] := by
      obtain ⟨l, hl⟩ := mpmc_blocking_queue.rep_exists
        (circular_q.wf_ctor max_items : circular_q.WF (circular_q.ctor max_items : circular_q T))
      rw [circular_q.contents_eq_of_rep (circular_q.wf_ctor max_items) hl]
      exact circular_q.rep_nil_of_empty (circular_q.wf_ctor max_items) hl rfl
    show ([] : List T) = [] ++ circular_q.contents (circular_q.ctor max_items)
    rw [hc]
    rfl

end mq_system

namespace mq_system

variable {T : Type}

theorem goto_fields (st : mq_system T) (t : Nat) (pc : mq_pc T) :
    (goto st t pc).q_ = st.q_ ∧ (goto st t pc).mutex_ = st.mutex_ ∧
      (goto st t pc).accesses = st.accesses ∧ (goto st t pc).enqueued = st.enqueued ∧
      (goto st t pc).dequeued = st.dequeued :=
  ⟨rfl, rfl, rfl, rfl, rfl⟩

theorem access_locked [Inhabited T] {st : mq_system T} (h : Inv st) {t : Nat}
    (ht : (st.threads t).pc.holds_mutex = true) (call : q_call) :
    (st.access t call).locked = true := by
  simp [access, h.owner t ht]

/-- Taking the mutex keeps the invariant. -/
theorem inv_lock [Inhabited T] (st st0 st1 : mq_system T) (t : Nat) (pc : mq_pc T)
    (hinv : Inv st) (hq : st0.q_ = st.q_) (hm : st0.mutex_ = st.mutex_)
    (ha : st0.accesses = st.accesses) (he : st0.enqueued = st.enqueued)
    (hd : st0.dequeued = st.dequeued)
    (hth : ∀ u, u ≠ t → (st0.threads u).pc = (st.threads u).pc)
    (hpush : ∀ item, pc ≠ mq_pc.enqueue_push item) (htake : pc ≠ mq_pc.dequeue_take)
    (hl : lock st0 t pc = some st1) : Inv st1 := by
  obtain ⟨hnone, hst1⟩ := lock_eq_some hl
  subst hst1
  have hfree := hinv.free (by rw [← hm]; exact hnone)
  refine Inv.of_step st _ t ?_ (fun u _ => hfree u) (fun _ => rfl) ?_ ?_ ?_ ?_ ?_ ?_
  · intro u hu
    rw [goto_threads_other _ _ hu]
    exact hth u hu
  · intro item h
    rw [goto_pc_same] at h
    exact absurd h (hpush item)
  · intro h
    rw [goto_pc_same] at h
    exact absurd h htake
  · show circular_q.WF st0.q_
    rw [hq]
    exact hinv.wf
  · show ∀ a ∈ st0.accesses, a.locked = true
    rw [ha]
    exact hinv.locked
  · show st0.enqueued = st0.dequeued ++ circular_q.contents st0.q_
    rw [he, hd, hq]
    exact hinv.fifo
  · show st0.q_.overrun_counter_ = 0
    rw [hq]
    exact hinv.no_overrun

/-- A step of the thread that holds the mutex keeps the invariant when the
buffer part of the new state is consistent. -/
theorem inv_holder [Inhabited T] (st st0 : mq_system T) (t : Nat) (pc : mq_pc T)
    (hinv : Inv st) (ht : (st.threads t).pc.holds_mutex = true)
    (hth : st0.threads = st.threads)
    (howner : pc.holds_mutex = true → st0.mutex_ = some t)
    (hfull : ∀ item, pc = mq_pc.enqueue_push item → st0.q_.full = false)
    (hempty : pc = mq_pc.dequeue_take → st0.q_.empty = false)
    (hwf : circular_q.WF st0.q_) (hlocked : ∀ a ∈ st0.accesses, a.locked = true)
    (hfifo : st0.enqueued = st0.dequeued ++ circular_q.contents st0.q_)
    (hover : st0.q_.overrun_counter_ = 0) : Inv (goto st0 t pc) := by
  refine Inv.of_step st _ t ?_ (hinv.alone ht) ?_ ?_ ?_ hwf hlocked hfifo hover
  · intro u hu
    rw [goto_threads_other _ _ hu, hth]
  · intro h
    rw [goto_pc_same] at h
    exact howner h
  · intro item h
    rw [goto_pc_same] at h
    exact hfull item h
  · intro h
    rw [goto_pc_same] at h
    exact hempty h

end mq_system

namespace mq_system

variable {T : Type}

theorem locked_append [Inhabited T] {st : mq_system T} (h : Inv st) {t : Nat}
    (ht : (st.threads t).pc.holds_mutex = true) (calls : List q_call) :
    ∀ a ∈ st.accesses ++ calls.map (st.access t), a.locked = true := by
  intro a ha
  rcases List.mem_append.1 ha with h1 | h1
  · exact h.locked a h1
  · obtain ⟨c, _, hc⟩ := List.mem_map.1 h1
    rw [← hc]
    exact access_locked h ht c

theorem take_eq_dequeue_for [Movable T] (q : circular_q T) (hne : q.empty = false) :
    (mpmc_blocking_queue.dequeue_for (⟨q⟩ : mpmc_blocking_queue T) default).popped_item
        = q.front ∧
      (mpmc_blocking_queue.dequeue_for (⟨q⟩ : mpmc_blocking_queue T) default).q.q_
        = (⟨q.max_items_, q.v_.set q.head_ (Movable.moved_from q.front), q.head_, q.tail_,
            q.overrun_counter_⟩ : circular_q T).pop_front := by
  simp [mpmc_blocking_queue.dequeue_for, hne]

theorem step_inv_threads [Movable T] {st st1 : mq_system T} {t : Nat} {timeout : Bool}
    (hinv : Inv st) (hs : st.step t timeout = some st1) : Inv st1 := by
  unfold step at hs
  cases hpc : (st.threads t).pc with
  | idle =>
    simp only [hpc] at hs
    cases hc : (st.threads t).calls with
    | nil => simp [hc] at hs
    | cons call rest =>
      cases call with
      | enqueue item =>
        simp only [hc] at hs
        refine inv_lock st
          ⟨st.q_, st.mutex_, Function.update st.threads t ⟨mq_pc.idle, rest⟩, st.accesses,
            st.enqueued, st.dequeued⟩
          st1 t (mq_pc.enqueue_locked item) hinv rfl rfl rfl rfl rfl ?_
          (fun _ h => by cases h) (fun h => by cases h) hs
        intro u hu
        simp [Function.update_noteq hu]
      | dequeue_for =>
        simp only [hc] at hs
        refine inv_lock st
          ⟨st.q_, st.mutex_, Function.update st.threads t ⟨mq_pc.idle, rest⟩, st.accesses,
            st.enqueued, st.dequeued⟩
          st1 t (mq_pc.dequeue_locked false) hinv rfl rfl rfl rfl rfl ?_
          (fun _ h => by cases h) (fun h => by cases h) hs
        intro u hu
        simp [Function.update_noteq hu]
  | enqueue_locked item =>
    have ht : (st.threads t).pc.holds_mutex = true := by rw [hpc]; rfl
    have hl := locked_append hinv ht [q_call.full]
    cases hf : st.q_.full with
    | false =>
      simp only [hpc, hf, Bool.not_false, if_true, Option.some.injEq] at hs
      subst hs
      exact inv_holder st _ t (mq_pc.enqueue_push item) hinv ht rfl (fun _ => hinv.owner t ht)
        (fun _ _ => hf) (fun h => by cases h) hinv.wf hl hinv.fifo hinv.no_overrun
    | true =>
      simp only [hpc, hf, Bool.not_true, Bool.false_eq_true, if_false,
        Option.some.injEq] at hs
      subst hs
      exact inv_holder st _ t (mq_pc.enqueue_waiting item) hinv ht rfl
        (fun h => by simp [mq_pc.holds_mutex] at h)
        (fun _ h => by cases h) (fun h => by cases h) hinv.wf hl hinv.fifo hinv.no_overrun
  | enqueue_waiting item =>
    simp only [hpc] at hs
    exact inv_lock st st st1 t (mq_pc.enqueue_locked item) hinv rfl rfl rfl rfl rfl
      (fun _ _ => rfl) (fun _ h => by cases h) (fun h => by cases h) hs
  | enqueue_push item =>
    have ht : (st.threads t).pc.holds_mutex = true := by rw [hpc]; rfl
    have hl := locked_append hinv ht [q_call.push_back]
    have hnf := hinv.not_full t item hpc
    simp only [hpc, Option.some.injEq] at hs
    subst hs
    refine inv_holder st _ t mq_pc.enqueue_unlock hinv ht rfl (fun _ => hinv.owner t ht)
      (fun _ h => by cases h) (fun h => by cases h) (circular_q.wf_push_back hinv.wf item) hl
      ?_ ?_
    · show st.enqueued ++ [item] = st.dequeued ++ circular_q.contents (st.q_.push_back item)
      rw [contents_push_not_full hinv.wf hnf, hinv.fifo, List.append_assoc]
    · have := circular_q.overrun_push_back st.q_ item
      rw [hnf] at this
      simp only [Bool.false_eq_true, if_false] at this
      exact this.trans hinv.no_overrun
  | enqueue_unlock =>
    have ht : (st.threads t).pc.holds_mutex = true := by rw [hpc]; rfl
    simp only [hpc, Option.some.injEq] at hs
    subst hs
    exact inv_holder st _ t mq_pc.idle hinv ht rfl (fun h => by simp [mq_pc.holds_mutex] at h)
      (fun _ h => by cases h) (fun h => by cases h) hinv.wf hinv.locked hinv.fifo
      hinv.no_overrun
  | dequeue_locked timed_out =>
    have ht : (st.threads t).pc.holds_mutex = true := by rw [hpc]; rfl
    have hl := locked_append hinv ht [q_call.empty]
    cases he : st.q_.empty with
    | false =>
      simp only [hpc, he, Bool.not_false, if_true, Option.some.injEq] at hs
      subst hs
      exact inv_holder st _ t mq_pc.dequeue_take hinv ht rfl (fun _ => hinv.owner t ht)
        (fun _ h => by cases h) (fun _ => he) hinv.wf hl hinv.fifo hinv.no_overrun
    | true =>
      cases timed_out with
      | true =>
        simp only [hpc, he, Bool.not_true, Bool.false_eq_true, if_false, if_true,
          Option.some.injEq] at hs
        subst hs
        exact inv_holder st _ t (mq_pc.dequeue_return false) hinv ht rfl
          (fun _ => hinv.owner t ht) (fun _ h => by cases h)
          (fun h => by cases h) hinv.wf hl hinv.fifo hinv.no_overrun
      | false =>
        simp only [hpc, he, Bool.not_true, Bool.false_eq_true, if_false,
          Option.some.injEq] at hs
        subst hs
        exact inv_holder st _ t mq_pc.dequeue_waiting hinv ht rfl
          (fun h => by simp [mq_pc.holds_mutex] at h)
          (fun _ h => by cases h) (fun h => by cases h) hinv.wf hl hinv.fifo hinv.no_overrun
  | dequeue_waiting =>
    simp only [hpc] at hs
    exact inv_lock st st st1 t (mq_pc.dequeue_locked timeout) hinv rfl rfl rfl rfl rfl
      (fun _ _ => rfl) (fun _ h => by cases h) (fun h => by cases h) hs
  | dequeue_take =>
    have ht : (st.threads t).pc.holds_mutex = true := by rw [hpc]; rfl
    have hl := locked_append hinv ht [q_call.front, q_call.pop_front]
    have hne := hinv.not_empty t hpc
    obtain ⟨hitem, hq⟩ := take_eq_dequeue_for st.q_ hne
    have hcont := mpmc_blocking_queue.contents_dequeue_for
      (circular_q.WF.mk hinv.wf.head_lt hinv.wf.tail_lt hinv.wf.len_eq :
        circular_q.WF (⟨st.q_⟩ : mpmc_blocking_queue T).q_) hne default
    rw [hitem, hq] at hcont
    simp only [hpc, Option.some.injEq] at hs
    subst hs
    refine inv_holder st _ t (mq_pc.dequeue_return true) hinv ht rfl
      (fun _ => hinv.owner t ht) (fun _ h => by cases h) (fun h => by cases h)
      (circular_q.wf_pop_front (mpmc_blocking_queue.wf_set_head hinv.wf _)) hl ?_ ?_
    · show st.enqueued = (st.dequeued ++ [st.q_.front]) ++ circular_q.contents _
      rw [hinv.fifo, hcont, List.append_assoc]
      rfl
    · exact hinv.no_overrun
  | dequeue_return ret =>
    have ht : (st.threads t).pc.holds_mutex = true := by rw [hpc]; rfl
    simp only [hpc, Option.some.injEq] at hs
    subst hs
    exact inv_holder st _ t mq_pc.idle hinv ht rfl (fun h => by simp [mq_pc.holds_mutex] at h)
      (fun _ h => by cases h) (fun h => by cases h) hinv.wf hinv.locked hinv.fifo
      hinv.no_overrun

theorem run_inv_threads [Movable T] (sched : List (Nat × Bool)) :
    ∀ {st st1 : mq_system T}, Inv st → run st sched = some st1 → Inv st1 := by
  induction sched with
  | nil =>
    intro st st1 h hr
    simp only [run, Option.some.injEq] at hr
    subst hr
    exact h
  | cons ev rest ih =>
    intro st st1 h hr
    obtain ⟨t, timeout⟩ := ev
    simp only [run] at hr
    cases hs : st.step t timeout with
    | none => rw [hs] at hr; simp at hr
    | some st2 =>
      rw [hs] at hr
      exact ih (step_inv_threads h hs) hr

end mq_system

namespace mq_system

variable {T : Type}

theorem not_empty_of_contents [Inhabited T] {q : circular_q T} (hwf : circular_q.WF q)
    {x : T} {xs : List T} (hc : circular_q.contents q = x :: xs) : q.empty = false := by
  cases he : q.empty with
  | false => rfl
  | true =>
    obtain ⟨l, hl⟩ := mpmc_blocking_queue.rep_exists hwf
    rw [circular_q.contents_eq_of_rep hwf hl, circular_q.rep_nil_of_empty hwf hl he] at hc
    cases hc

/-- A consumer that is between calls, with the mutex free and an item queued,
completes `dequeue_for` in four steps of its own and is handed the oldest
queued item. -/
theorem dequeue_for_takes_oldest [Movable T] (st : mq_system T) (t : Nat)
    (rest : List (mq_call T)) (x : T) (xs : List T) (hinv : Inv st)
    (hpc : (st.threads t).pc = mq_pc.idle)
    (hcalls : (st.threads t).calls = mq_call.dequeue_for :: rest) (hm : st.mutex_ = none)
    (hc : circular_q.contents st.q_ = x :: xs) :
    ∃ st1, run st [(t, false), (t, false), (t, false), (t, false)] = some st1 ∧
      st1.dequeued = st.dequeued ++ [x] ∧ circular_q.contents st1.q_ = xs ∧
      st1.enqueued = st.enqueued ∧ st1.mutex_ = none ∧ (st1.threads t).pc = mq_pc.idle := by
  have hne := not_empty_of_contents hinv.wf hc
  obtain ⟨hitem, hq⟩ := take_eq_dequeue_for st.q_ hne
  have hcont := mpmc_blocking_queue.contents_dequeue_for
    (circular_q.WF.mk hinv.wf.head_lt hinv.wf.tail_lt hinv.wf.len_eq :
      circular_q.WF (⟨st.q_⟩ : mpmc_blocking_queue T).q_) hne default
  rw [hitem, hq, hc] at hcont
  simp only [List.cons.injEq] at hcont
  obtain ⟨hx, hxs⟩ := hcont
  simp [run, step, hpc, hcalls, lock, hm, goto, hne, ← hx]
  rw [hxs, hx]

end mq_system

namespace mq_system

variable {T : Type}

/-- C25: with any number of producers calling the blocking `enqueue` and
consumers calling `dequeue_for` on one queue, in every state reached by any
interleaving of their steps: every read and write of the ring buffer was made
by a thread that held the queue mutex, and at most one thread is inside a lock
scope; the items enqueued so far are, in order, the items handed out by
`dequeue_for` followed by the items still queued, so none is lost, none is
handed out twice and none is overwritten; once the queue is empty every
enqueued item has been dequeued; and a consumer between calls that finds the
mutex free and an item queued is handed the oldest queued item. -/
theorem every_item_dequeued_once_under_mutex [Movable T] (max_items : Nat)
    (programs : Nat → List (mq_call T)) (sched : List (Nat × Bool)) (st : mq_system T)
    (h : run (init max_items programs) sched = some st) :
    (∀ a ∈ st.accesses, a.locked = true) ∧
      (∀ t u, (st.threads t).pc.holds_mutex = true → (st.threads u).pc.holds_mutex = true →
        t = u) ∧
      (∀ t, (st.threads t).pc.holds_mutex = true → st.mutex_ = some t) ∧
      st.enqueued = st.dequeued ++ circular_q.contents st.q_ ∧
      st.dequeued <+: st.enqueued ∧
      st.q_.overrun_counter = 0 ∧
      (circular_q.contents st.q_ = [] → st.dequeued = st.enqueued) ∧
      (∀ t rest x xs, (st.threads t).pc = mq_pc.idle →
        (st.threads t).calls = mq_call.dequeue_for :: rest → st.mutex_ = none →
        circular_q.contents st.q_ = x :: xs →
        ∃ st1, run st [(t, false), (t, false), (t, false), (t, false)] = some st1 ∧
          st1.dequeued = st.dequeued ++ [x] ∧ circular_q.contents st1.q_ = xs ∧
          st1.enqueued = st.enqueued) := by
  have hinv := run_inv_threads sched (inv_init max_items programs) h
  refine ⟨hinv.locked, ?_, hinv.owner, hinv.fifo, ⟨_, hinv.fifo.symm⟩, hinv.no_overrun, ?_, ?_⟩
  · intro t u ht hu
    by_contra hne
    have := hinv.alone hu t hne
    rw [ht] at this
    simp at this
  · intro hc
    have := hinv.fifo
    rw [hc, List.append_nil] at this
    exact this.symm
  · intro t rest x xs hpc hcalls hm hc
    obtain ⟨st1, h1, h2, h3, h4, _⟩ := dequeue_for_takes_oldest st t rest x xs hinv hpc hcalls hm hc
    exact ⟨st1, h1, h2, h3, h4⟩

/-- The interleaving `sample_interleaving` of two producers and two consumers
on a queue of capacity 1: it runs to its end, and the three items enqueued
have been dequeued, each once. -/
theorem every_item_dequeued_once_under_mutex_witness :
    ∃ st, run (init 1 sample_programs) sample_interleaving = some st ∧
      st.enqueued = [10, 20, 11] ∧ st.dequeued = [10, 20, 11] ∧
      (∀ a ∈ st.accesses, a.locked = true) ∧
      st.enqueued = st.dequeued ++ circular_q.contents st.q_ := by
  have hsome : (run (init 1 sample_programs) sample_interleaving).isSome = true := by decide
  have he : (run (init 1 sample_programs) sample_interleaving).map (fun st => st.enqueued)
      = some [10, 20, 11] := by decide
  have hd : (run (init 1 sample_programs) sample_interleaving).map (fun st => st.dequeued)
      = some [10, 20, 11] := by decide
  cases hr : run (init 1 sample_programs) sample_interleaving with
  | none => rw [hr] at hsome; simp at hsome
  | some st =>
    rw [hr] at he hd
    simp only [Option.map_some', Option.some.injEq] at he hd
    exact ⟨st, rfl, he, hd,
      (every_item_dequeued_once_under_mutex 1 sample_programs sample_interleaving st hr).1,
      (every_item_dequeued_once_under_mutex 1 sample_programs sample_interleaving st hr).2.2.2.1⟩

end mq_system

end details
end minispdlog
